import Mathlib

/-!
# Maze generation and A* search

A shallow embedding of `MazeGenerator` (src/MazeGeneration.c++) and of
`a_star_search` (src/MazeNavigation.cpp), with the `main` pipeline of
src/MazeMain.c++, and theorems about them.

Conventions of the embedding:

* `int` values are `Int`; vectors are `List`s, indexed through `Int.toNat`
  (every index the code uses is checked non-negative first).
* The random source is an explicit parameter.  The two draws of
  `generateMaze` are the chosen start cell; `std::shuffle` is a function
  `shuffle k walls` giving the order of `walls` after the `k`-th shuffle,
  which is only assumed to be a permutation of its argument (`IsShuffle`).
* A `Cell*` into the search grid is the pair of indices of that cell.
* `std::priority_queue` is the list of its entries; `top` returns an entry
  whose `f` is minimal, and which of several minimal ones is returned is
  decided by a function `tie` over which the theorems quantify.
* Loops carry a fuel argument and return `none` when it runs out; the
  top-level functions supply a fuel that is proved sufficient.
-/

namespace Maze

/-! ## Two-dimensional vectors -/

/-- Read `m[r][c]`; outside the vector the value `d` is returned. -/
def get2 {α : Type} (d : α) (m : List (List α)) (r c : Int) : α :=
  (m.getD r.toNat []).getD c.toNat d

/-- Write `m[r][c] = v`. -/
def set2 {α : Type} (m : List (List α)) (r c : Int) (v : α) : List (List α) :=
  m.set r.toNat ((m.getD r.toNat []).set c.toNat v)

/-- All index pairs of a `rows` by `cols` grid, row by row. -/
def cells (rows cols : Int) : List (Int × Int) :=
  ((List.range rows.toNat).product (List.range cols.toNat)).map fun p =>
    ((p.1 : Int), (p.2 : Int))

/-! ## MazeGenerator (src/MazeGeneration.c++) -/

/-- The member `directions` of `MazeGenerator`. -/
def directions : List (Int × Int) := [(-1, 0), (1, 0), (0, -1), (0, 1)]

/-- The data members of `MazeGenerator`, the random engine apart. -/
structure MazeGenerator where
  rows : Int
  cols : Int
  maze : List (List Int)
  start : Int × Int
  end_ : Int × Int
deriving DecidableEq

namespace MazeGenerator

/-- The constructor: a grid of `r` rows of `c` cells, every cell `1` (wall).
`start` and `end` are left value-initialised. -/
def new (r c : Int) : MazeGenerator :=
  { rows := r, cols := c,
    maze := List.replicate r.toNat (List.replicate c.toNat 1),
    start := (0, 0), end_ := (0, 0) }

/-- `isValidCell`. -/
def isValidCell (g : MazeGenerator) (row col : Int) : Bool :=
  decide (row ≥ 0) && decide (row < g.rows) && decide (col ≥ 0) && decide (col < g.cols)

/-- The value of `maze[row][col]`. -/
def cell (g : MazeGenerator) (row col : Int) : Int :=
  get2 1 g.maze row col

/-- The assignment `maze[row][col] = v`. -/
def setCell (g : MazeGenerator) (row col : Int) (v : Int) : MazeGenerator :=
  { g with maze := set2 g.maze row col v }

/-- `addWalls`: append to `walls` the in-grid neighbours of `(row, col)`
that hold `1`, in the order of `directions`. -/
def addWalls (g : MazeGenerator) (row col : Int) (walls : List (Int × Int)) :
    List (Int × Int) :=
  directions.foldl
    (fun w dir =>
      let newRow := row + dir.1
      let newCol := col + dir.2
      if g.isValidCell newRow newCol && g.cell newRow newCol == 1 then
        w ++ [(newRow, newCol)]
      else w)
    walls

/-- The counter of `isValidWall`: how many in-grid neighbours hold `0`. -/
def openNeighbours (g : MazeGenerator) (row col : Int) : Nat :=
  directions.foldl
    (fun count dir =>
      let newRow := row + dir.1
      let newCol := col + dir.2
      if g.isValidCell newRow newCol && g.cell newRow newCol == 0 then count + 1
      else count)
    0

/-- `isValidWall`. -/
def isValidWall (g : MazeGenerator) (row col : Int) : Bool :=
  g.openNeighbours row col == 1

/-- The `while (!walls.empty())` loop of `generateMaze`.  `k` counts the
rounds done so far and selects the outcome of this round's shuffle. -/
def frontierLoop (shuffle : Nat → List (Int × Int) → List (Int × Int)) :
    Nat → Nat → MazeGenerator → List (Int × Int) → Option MazeGenerator
  | fuel, k, g, walls =>
    if walls.isEmpty then some g
    else
      match fuel with
      | 0 => none
      | fuel + 1 =>
        let shuffled := shuffle k walls
        let wall := shuffled.getLastD (0, 0)
        let walls := shuffled.dropLast
        let row := wall.1
        let col := wall.2
        if g.isValidWall row col then
          let g := g.setCell row col 0
          frontierLoop shuffle fuel (k + 1) g (g.addWalls row col walls)
        else
          frontierLoop shuffle fuel (k + 1) g walls

/-- The state and frontier on entry to the loop: the drawn start cell is
recorded and opened, and its wall neighbours are the first frontier. -/
def beforeLoop (g : MazeGenerator) (startCell : Int × Int) :
    MazeGenerator × List (Int × Int) :=
  let g := { g with start := startCell }
  let g := g.setCell g.start.1 g.start.2 0
  (g, g.addWalls g.start.1 g.start.2 [])

/-- The last two statements of `generateMaze`: the end cell is the point
reflection of the start and is set to `0`. -/
def setEnd (g : MazeGenerator) : MazeGenerator :=
  let g := { g with end_ := (g.rows - 1 - g.start.1, g.cols - 1 - g.start.2) }
  g.setCell g.end_.1 g.end_.2 0

/-- The grid as the loop of `generateMaze` leaves it, before the end cell
is set. -/
def afterLoop (g : MazeGenerator) (startCell : Int × Int)
    (shuffle : Nat → List (Int × Int) → List (Int × Int)) : Option MazeGenerator :=
  frontierLoop shuffle (4 * g.rows * g.cols).toNat 0
    (beforeLoop g startCell).1 (beforeLoop g startCell).2

/-- `generateMaze`, with `startCell` the pair drawn from `dist` and `dist2`. -/
def generateMaze (g : MazeGenerator) (startCell : Int × Int)
    (shuffle : Nat → List (Int × Int) → List (Int × Int)) : Option MazeGenerator :=
  (afterLoop g startCell shuffle).map setEnd

/-- `isCellWalkable`. -/
def isCellWalkable (g : MazeGenerator) (x y : Int) : Bool :=
  g.isValidCell x y && g.cell x y == 0

/-- `getStart`. -/
def getStart (g : MazeGenerator) : Int × Int := g.start

/-- `getEnd`. -/
def getEnd (g : MazeGenerator) : Int × Int := g.end_

end MazeGenerator

/-- What `std::shuffle` may do: each outcome is a permutation of the input. -/
def IsShuffle (shuffle : Nat → List (Int × Int) → List (Int × Int)) : Prop :=
  ∀ k l, (shuffle k l).Perm l

/-- The draws of `dist` and `dist2` lie in `[0, rows - 1]` and `[0, cols - 1]`. -/
def IsStartDraw (rows cols : Int) (s : Int × Int) : Prop :=
  0 ≤ s.1 ∧ s.1 < rows ∧ 0 ≤ s.2 ∧ s.2 < cols

/-- The shuffle that moves entry `i` to the back and keeps the others in order. -/
def moveToBack (i : Nat) (l : List (Int × Int)) : List (Int × Int) :=
  match l.get? i with
  | some x => l.eraseIdx i ++ [x]
  | none => l

/-- The shuffle whose `k`-th outcome moves entry `picks[k]` to the back. -/
def pickShuffle (picks : List Nat) (k : Nat) (l : List (Int × Int)) : List (Int × Int) :=
  moveToBack (picks.getD k 0) l

/-! ## A* search (src/MazeNavigation.cpp) -/

/-- The constant `INT_MAX` of a 32-bit `int`. -/
def INT_MAX : Int := 2147483647

/-- The record `struct Cell`.  `parent` is a pointer into the search grid,
kept as the index pair of the cell pointed to; `none` is `nullptr`. -/
structure Cell where
  x : Int
  y : Int
  walkable : Bool
  parent : Option (Int × Int)
  g : Int
  h : Int
deriving DecidableEq

/-- The constructor `Cell(x, y, walkable)`. -/
def Cell.new (x y : Int) (walkable : Bool) : Cell :=
  { x := x, y := y, walkable := walkable, parent := none, g := INT_MAX, h := 0 }

/-- `Cell::f`. -/
def Cell.f (c : Cell) : Int := c.g + c.h

/-- `heuristic`: the Manhattan distance of two cells. -/
def heuristic (a b : Cell) : Int :=
  ((a.x - b.x).natAbs : Int) + ((a.y - b.y).natAbs : Int)

/-- The cell a pointer refers to, `grid[p.1][p.2]`. -/
def deref (grid : List (List Cell)) (p : Int × Int) : Cell :=
  get2 (Cell.new 0 0 false) grid p.1 p.2

/-- The loop of `reconstruct_path`: copy the cell, move to its parent. -/
def reconstruct_loop (grid : List (List Cell)) :
    Nat → Option (Int × Int) → List Cell → Option (List Cell)
  | _, none, path => some path
  | 0, some _, _ => none
  | fuel + 1, some current, path =>
    reconstruct_loop grid fuel (deref grid current).parent (path ++ [deref grid current])

/-- `reconstruct_path`.  The fuel is one more than the `g` of the first cell,
enough whenever `g` is non-negative and falls along parent links. -/
def reconstruct_path (grid : List (List Cell)) (current : Int × Int) : Option (List Cell) :=
  (reconstruct_loop grid ((deref grid current).g.toNat + 1) (some current) []).map List.reverse

/-- The local `directions` of `a_star_search`. -/
def searchDirections : List (Int × Int) := [(0, -1), (0, 1), (-1, 0), (1, 0)]

/-- The variables of `a_star_search` that its loop changes. -/
structure SearchState where
  grid : List (List Cell)
  open_set : List (Int × Int)
  open_set_items : List (Int × Int)
deriving DecidableEq

/-- The entries of the queue whose `f` is minimal, in queue order. -/
def minEntries (grid : List (List Cell)) (open_set : List (Int × Int)) : List (Int × Int) :=
  open_set.filter fun p => open_set.all fun q => decide ((deref grid p).f ≤ (deref grid q).f)

/-- `open_set.top()` at the `k`-th pop: one of the entries of minimal `f`,
the one that `tie k` selects. -/
def top (tie : Nat → Nat) (k : Nat) (grid : List (List Cell)) (open_set : List (Int × Int)) :
    Int × Int :=
  (minEntries grid open_set).getD (tie k % (minEntries grid open_set).length) (0, 0)

/-- The three assignments to `*neighbor` of a relaxation: `parent`, `g`, and
`h` computed from the cell as it then stands. -/
def updateNeighbor (grid : List (List Cell)) (end_ current neighbor : Int × Int)
    (tentative_g_score : Int) : List (List Cell) :=
  let grid := set2 grid neighbor.1 neighbor.2
    { deref grid neighbor with parent := some current }
  let grid := set2 grid neighbor.1 neighbor.2
    { deref grid neighbor with g := tentative_g_score }
  set2 grid neighbor.1 neighbor.2
    { deref grid neighbor with h := heuristic (deref grid neighbor) (deref grid end_) }

/-- One pass of the body of `for (const auto& dir : directions)`. -/
def relax (end_ current : Int × Int) (s : SearchState) (dir : Int × Int) : SearchState :=
  let new_x := (deref s.grid current).x + dir.1
  let new_y := (deref s.grid current).y + dir.2
  if new_x ≥ 0 ∧ new_x < s.grid.length ∧ new_y ≥ 0 ∧ new_y < (s.grid.getD 0 []).length then
    let neighbor : Int × Int := (new_x, new_y)
    if !(deref s.grid neighbor).walkable || s.open_set_items.contains neighbor then s
    else
      let tentative_g_score := (deref s.grid current).g + 1
      if tentative_g_score < (deref s.grid neighbor).g then
        { grid := updateNeighbor s.grid end_ current neighbor tentative_g_score,
          open_set := s.open_set ++ [neighbor],
          open_set_items := s.open_set_items.insert neighbor }
      else s
  else s

/-- The first three statements of the loop body: `top`, `pop` and the
`erase` from `open_set_items`. -/
def popCurrent (current : Int × Int) (s : SearchState) : SearchState :=
  { s with open_set := s.open_set.erase current,
           open_set_items := s.open_set_items.erase current }

/-- The `for` loop over the four directions, after `current` was popped. -/
def expand (end_ current : Int × Int) (s : SearchState) : SearchState :=
  searchDirections.foldl (relax end_ current) s

/-- The `while (!open_set.empty())` loop of `a_star_search`; `k` counts the
pops done so far.  The result is the returned vector together with the
grid as the call leaves it. -/
def searchLoop (tie : Nat → Nat) (end_ : Int × Int) :
    Nat → Nat → SearchState → Option (List Cell × List (List Cell))
  | fuel, k, s =>
    if s.open_set.isEmpty then some ([], s.grid)
    else
      match fuel with
      | 0 => none
      | fuel + 1 =>
        let current := top tie k s.grid s.open_set
        let s := popCurrent current s
        if current = end_ then
          (reconstruct_path s.grid end_).map fun path => (path, s.grid)
        else
          searchLoop tie end_ fuel (k + 1) (expand end_ current s)

/-- The state on entry to the loop of `a_star_search`. -/
def searchInit (start end_ : Int × Int) (grid : List (List Cell)) : SearchState :=
  let grid := set2 grid start.1 start.2 { deref grid start with g := 0 }
  let grid := set2 grid start.1 start.2
    { deref grid start with h := heuristic (deref grid start) (deref grid end_) }
  { grid := grid, open_set := [start], open_set_items := [start] }

/-- The sum of the `g` fields of a grid, which bounds the pops of the loop. -/
def gSum (grid : List (List Cell)) : Nat :=
  ((cells grid.length (grid.getD 0 []).length).map fun p => (deref grid p).g.toNat).sum

/-- `a_star_search` with the grid it leaves behind. -/
def a_star_run (start end_ : Int × Int) (grid : List (List Cell)) (tie : Nat → Nat) :
    Option (List Cell × List (List Cell)) :=
  searchLoop tie end_ (2 * gSum grid + 2) 0 (searchInit start end_ grid)

/-- `a_star_search`: the returned vector. -/
def a_star_search (start end_ : Int × Int) (grid : List (List Cell)) (tie : Nat → Nat) :
    Option (List Cell) :=
  (a_star_run start end_ grid tie).map Prod.fst

/-! ## The pipeline of `main` (src/MazeMain.c++) -/

/-- The search grid that `main` builds: cell `(x, y)` is
`Cell(x, y, walkable x y)`. -/
def mkGrid (rows cols : Int) (walkable : Int → Int → Bool) : List (List Cell) :=
  (List.range rows.toNat).map fun (x : Nat) =>
    (List.range cols.toNat).map fun (y : Nat) => Cell.new (x : Int) (y : Int) (walkable x y)

/-- The computation of `main`: generate, build the grid, search from the
start to the end of the maze. -/
def mainPath (rows cols : Int) (startCell : Int × Int)
    (shuffle : Nat → List (Int × Int) → List (Int × Int)) (tie : Nat → Nat) :
    Option (List Cell) :=
  (MazeGenerator.generateMaze (MazeGenerator.new rows cols) startCell shuffle).bind fun gen =>
    a_star_search gen.getStart gen.getEnd (mkGrid rows cols gen.isCellWalkable) tie

/-- The coordinates of the cells of a path. -/
def coords (path : List Cell) : List (Int × Int) := path.map fun c => (c.x, c.y)

/-! ## Notions the statements use -/

/-- Two cells are 4-adjacent: they differ by one in exactly one coordinate. -/
def Adjacent (p q : Int × Int) : Prop :=
  (p.1 - q.1).natAbs + (p.2 - q.2).natAbs = 1

/-- The cell `q` is reached from `p` by steps between 4-adjacent cells, each
of which enters a walkable cell. -/
def Reachable (walkable : Int → Int → Bool) : Int × Int → Int × Int → Prop :=
  Relation.ReflTransGen fun p q => Adjacent p q ∧ walkable q.1 q.2 = true

/-- The number of Open cells of the maze. -/
def openCount (g : MazeGenerator) : Nat :=
  (cells g.rows g.cols).countP fun p => g.isCellWalkable p.1 p.2

/-- The number of 4-adjacent pairs of Open cells: each pair is counted at
its upper or left cell. -/
def openPairs (g : MazeGenerator) : Nat :=
  ((cells g.rows g.cols).map fun p =>
    (if g.isCellWalkable p.1 p.2 && g.isCellWalkable p.1 (p.2 + 1) then 1 else 0) +
    (if g.isCellWalkable p.1 p.2 && g.isCellWalkable (p.1 + 1) p.2 then 1 else 0)).sum

/-- Consecutive cells of a path are one orthogonal step apart. -/
def Contiguous (path : List Cell) : Prop :=
  List.Chain' (fun a b : Cell => Adjacent (a.x, a.y) (b.x, b.y)) path

/-- The sequence is a walk through the grid: consecutive cells are
4-adjacent and every cell after the first is walkable. -/
def IsWalk (walkable : Int → Int → Bool) (cs : List (Int × Int)) : Prop :=
  List.Chain' (fun a b => Adjacent a b ∧ walkable b.1 b.2 = true) cs

/-! ## Invariants of the generator -/

/-- The vector `maze` has `rows` rows of `cols` cells each. -/
def MazeGenerator.WellSized (g : MazeGenerator) : Prop :=
  g.maze.length = g.rows.toNat ∧
    ∀ i, i < g.rows.toNat → (g.maze.getD i []).length = g.cols.toNat

/-- The four neighbours of a cell, in the order of `directions`. -/
def neighbours (row col : Int) : List (Int × Int) :=
  directions.map fun dir => (row + dir.1, col + dir.2)

/-- The number `1` for `true` and `0` for `false`. -/
def bit (b : Bool) : Nat := if b then 1 else 0

/-- The number of cells of the grid that hold `1`. -/
def wallCount (g : MazeGenerator) : Nat :=
  (cells g.rows g.cols).countP fun p => g.cell p.1 p.2 == 1

/-- The invariant of the frontier loop of `generateMaze`, for the grid `g`
and the frontier `walls`. -/
structure MazeGenerator.LoopInv (g : MazeGenerator) (walls : List (Int × Int)) : Prop where
  sized : g.WellSized
  startOpen : g.isCellWalkable g.start.1 g.start.2 = true
  binary : ∀ x y, g.isValidCell x y = true → g.cell x y = 0 ∨ g.cell x y = 1
  frontierWall : ∀ w ∈ walls, g.isValidCell w.1 w.2 = true ∧ g.cell w.1 w.2 = 1
  frontierCount : ∀ w : Int × Int,
    walls.countP (fun v => decide (v = w)) ≤ g.openNeighbours w.1 w.2
  frontierFull : ∀ x y, g.isValidCell x y = true → g.cell x y = 1 →
    g.openNeighbours x y = 1 → (x, y) ∈ walls
  connected : ∀ x y, g.isCellWalkable x y = true →
    Reachable g.isCellWalkable g.start (x, y)
  tree : openPairs g + 1 = openCount g

/-- The quantity that falls in every round of the frontier loop. -/
def MazeGenerator.loopMeasure (g : MazeGenerator) (walls : List (Int × Int)) : Nat :=
  walls.length + 4 * wallCount g

/-! ## Concrete runs used as examples -/

/-- Frontier picks for a 3 by 4 maze with start `(2, 0)` that leave the end
cell `(0, 3)` and both its neighbours unopened. -/
def isolatedEndPicks : List Nat := [0, 0, 1, 0, 0, 0, 1, 3, 0, 4, 3, 1, 0, 0, 0]

/-- The generator that `isolatedEndPicks` produces. -/
def isolatedEndMaze : MazeGenerator :=
  { rows := 3, cols := 4,
    maze := [[0, 0, 1, 0], [0, 1, 0, 1], [0, 0, 0, 0]],
    start := (2, 0), end_ := (0, 3) }

/-- Frontier picks for a 2 by 2 maze with start `(0, 0)` that open `(0, 1)`
and `(1, 0)` and leave the end cell `(1, 1)` between them. -/
def cyclePicks : List Nat := [1, 0, 0, 0]

/-- The generator that `cyclePicks` produces. -/
def cycleMaze : MazeGenerator :=
  { rows := 2, cols := 2, maze := [[0, 0], [0, 0]], start := (0, 0), end_ := (1, 1) }

/-! ## Invariants of the search -/

/-- The cell `p` lies in a grid of `R` rows and `C` columns. -/
def InGrid (R C : Int) (p : Int × Int) : Prop :=
  0 ≤ p.1 ∧ p.1 < R ∧ 0 ≤ p.2 ∧ p.2 < C

/-- Walkability restricted to the cells of the grid. -/
def walkableIn (R C : Int) (walkable : Int → Int → Bool) (x y : Int) : Bool :=
  decide (0 ≤ x ∧ x < R ∧ 0 ≤ y ∧ y < C) && walkable x y

/-- The Manhattan distance of two index pairs. -/
def manhattan (p q : Int × Int) : Int :=
  ((p.1 - q.1).natAbs : Int) + ((p.2 - q.2).natAbs : Int)

/-- The search grid has `R` rows of `C` cells each. -/
def GridSized (R C : Int) (grid : List (List Cell)) : Prop :=
  (grid.length : Int) = R ∧ ∀ i : Nat, (i : Int) < R → ((grid.getD i []).length : Int) = C

/-- The record written into the neighbour `n` when it is relaxed from
`current`. -/
def relaxedCell (grid : List (List Cell)) (end_ current n : Int × Int) : Cell :=
  { deref grid n with
    parent := some current, g := (deref grid current).g + 1, h := manhattan n end_ }

/-- The effect of one pass of the direction loop that pushes the neighbour
`n` of `current`. -/
structure Pushed (R C : Int) (walk : Int → Int → Bool) (end_ current n : Int × Int)
    (s t : SearchState) : Prop where
  inGrid : InGrid R C n
  adjacent : Adjacent current n
  walkable : walk n.1 n.2 = true
  notPending : n ∉ s.open_set_items
  better : (deref s.grid current).g + 1 < (deref s.grid n).g
  sized : GridSized R C t.grid
  grid : ∀ p, InGrid R C p →
    deref t.grid p = if p = n then relaxedCell s.grid end_ current n else deref s.grid p
  queue : t.open_set = s.open_set ++ [n]
  items : t.open_set_items = s.open_set_items.insert n

/-- The invariant of the loop of `a_star_search` on a grid of `R` by `C`
cells with walkability `walk`. -/
structure SearchInv (R C : Int) (walk : Int → Int → Bool) (start end_ : Int × Int)
    (s : SearchState) : Prop where
  sized : GridSized R C s.grid
  startIn : InGrid R C start
  endIn : InGrid R C end_
  static : ∀ p, InGrid R C p → (deref s.grid p).x = p.1 ∧ (deref s.grid p).y = p.2 ∧
    (deref s.grid p).walkable = walk p.1 p.2
  items : ∀ p, p ∈ s.open_set_items ↔ p ∈ s.open_set
  nodup : s.open_set.Nodup
  nodupItems : s.open_set_items.Nodup
  pending : ∀ p ∈ s.open_set, InGrid R C p ∧ (deref s.grid p).g < INT_MAX
  grange : ∀ p, InGrid R C p → 0 ≤ (deref s.grid p).g ∧ (deref s.grid p).g ≤ INT_MAX
  startG : (deref s.grid start).g = 0 ∧ (deref s.grid start).parent = none
  parentOf : ∀ p, InGrid R C p → p ≠ start → (deref s.grid p).g < INT_MAX →
    walk p.1 p.2 = true ∧ ∃ q, (deref s.grid p).parent = some q ∧ InGrid R C q ∧
      Adjacent q p ∧ (deref s.grid q).g < (deref s.grid p).g
  reach : ∀ p, InGrid R C p → (deref s.grid p).g < INT_MAX →
    Reachable (walkableIn R C walk) start p
  hval : ∀ p, InGrid R C p → (deref s.grid p).g < INT_MAX →
    (deref s.grid p).h = manhattan p end_
  endPending : (deref s.grid end_).g < INT_MAX → end_ ∈ s.open_set

/-- The quantity that falls with every pop of the loop of `a_star_search`. -/
def searchMeasure (s : SearchState) : Nat :=
  2 * gSum s.grid + s.open_set.length

/-- The invariant between two passes of the direction loop, while the
popped cell `cur` is expanded. -/
def MidInv (R C : Int) (walk : Int → Int → Bool) (start end_ cur : Int × Int)
    (s : SearchState) : Prop :=
  SearchInv R C walk start end_ s ∧ InGrid R C cur ∧ (deref s.grid cur).g < INT_MAX ∧
    cur ∉ s.open_set

/-- The link from a cell `a` to a cell `b` whose `parent` it is. -/
def ParentLink (R C : Int) (walk : Int → Int → Bool) (grid : List (List Cell))
    (a b : Int × Int) : Prop :=
  (deref grid b).parent = some a ∧ Adjacent a b ∧ InGrid R C a ∧ InGrid R C b ∧
    walk b.1 b.2 = true ∧ (deref grid a).g < (deref grid b).g ∧ (deref grid b).g < INT_MAX

/-- A 1 by 3 grid whose middle cell is a wall. -/
def blockedRow (x y : Int) : Bool := decide (x = 0 ∧ (y = 0 ∨ y = 2))

/-- A 1 by 2 grid whose left cell is a wall. -/
def wallThenOpen (x y : Int) : Bool := decide (x = 0 ∧ y = 1)

/-- Every cell that was expanded (its `g` is set and it is not pending) has
all its walkable neighbours discovered. -/
def Closed (R C : Int) (walk : Int → Int → Bool) (s : SearchState) : Prop :=
  ∀ p, InGrid R C p → (deref s.grid p).g < INT_MAX → p ∉ s.open_set →
    ∀ n, InGrid R C n → Adjacent p n → walk n.1 n.2 = true → (deref s.grid n).g < INT_MAX

/-- The same, the cell `cur` under expansion apart. -/
def ClosedExcept (R C : Int) (walk : Int → Int → Bool) (cur : Int × Int) (s : SearchState) :
    Prop :=
  ∀ p, InGrid R C p → (deref s.grid p).g < INT_MAX → p ∉ s.open_set → p ≠ cur →
    ∀ n, InGrid R C n → Adjacent p n → walk n.1 n.2 = true → (deref s.grid n).g < INT_MAX

/-- The number of cells whose `g` is set. -/
def setCount (R C : Int) (grid : List (List Cell)) : Nat :=
  (cells R C).countP fun p => decide ((deref grid p).g < INT_MAX)

/-- Every `g` that is set is below the number of cells whose `g` is set. -/
def GBound (R C : Int) (s : SearchState) : Prop :=
  ∀ p, InGrid R C p → (deref s.grid p).g < INT_MAX →
    (deref s.grid p).g + 1 ≤ (setCount R C s.grid : Int)

/-- The walkability of the grid `.....` / `.#.#.` / `...#.`. -/
def detourWalk (x y : Int) : Bool :=
  (([[true, true, true, true, true],
     [true, false, true, false, true],
     [true, true, true, false, true]] : List (List Bool)).getD x.toNat []).getD y.toNat false

/-- The invariant of the search on a grid without walls, from `(0, 0)`:
no `g` is below the distance `x + y` from the start, every expanded cell has
exactly that `g`, and every discovered cell hangs on an expanded parent with
`g` one less. -/
structure OpenGridInv (R C : Int) (s : SearchState) : Prop where
  lower : ∀ p, InGrid R C p → (deref s.grid p).g < INT_MAX → p.1 + p.2 ≤ (deref s.grid p).g
  expanded : ∀ p, InGrid R C p → (deref s.grid p).g < INT_MAX → p ∉ s.open_set →
    (deref s.grid p).g = p.1 + p.2
  parentExp : ∀ p, InGrid R C p → p ≠ (0, 0) → (deref s.grid p).g < INT_MAX →
    ∃ q, (deref s.grid p).parent = some q ∧ InGrid R C q ∧ q ∉ s.open_set ∧
      (deref s.grid q).g = q.1 + q.2 ∧ (deref s.grid p).g = (deref s.grid q).g + 1

/-- The `while (!walls.empty())` loop of `generateMaze` with its rounds
counted: the same loop as `frontierLoop`, which also hands back the number
`k` of rounds done when the frontier is found empty. -/
def MazeGenerator.frontierRounds (shuffle : Nat → List (Int × Int) → List (Int × Int)) :
    Nat → Nat → MazeGenerator → List (Int × Int) → Option (MazeGenerator × Nat)
  | fuel, k, g, walls =>
    if walls.isEmpty then some (g, k)
    else
      match fuel with
      | 0 => none
      | fuel + 1 =>
        let shuffled := shuffle k walls
        let wall := shuffled.getLastD (0, 0)
        let walls := shuffled.dropLast
        let row := wall.1
        let col := wall.2
        if g.isValidWall row col then
          let g := g.setCell row col 0
          frontierRounds shuffle fuel (k + 1) g (g.addWalls row col walls)
        else
          frontierRounds shuffle fuel (k + 1) g walls

/-- A cell whose `g` is still `INT_MAX` has no parent. -/
def NoParentUnset (R C : Int) (s : SearchState) : Prop :=
  ∀ p, InGrid R C p → (deref s.grid p).g = INT_MAX → (deref s.grid p).parent = none

/-! ## The generator with checked indexing -/

/-- What stops a checked run of the generator short of its result. -/
inductive Fault where
  | outOfRange
  | outOfFuel
deriving DecidableEq

/-- The test that `maze.at(row).at(col)` makes: `row` indexes a row of the
vector and `col` indexes a cell of that row. -/
def MazeGenerator.inRange (g : MazeGenerator) (row col : Int) : Bool :=
  decide (0 ≤ row) && decide (row.toNat < g.maze.length) && decide (0 ≤ col) &&
    decide (col.toNat < (g.maze.getD row.toNat []).length)

/-- The read `maze[row][col]` with the index checked. -/
def MazeGenerator.cellAt (g : MazeGenerator) (row col : Int) : Except Fault Int :=
  if g.inRange row col then Except.ok (g.cell row col) else Except.error Fault.outOfRange

/-- The assignment `maze[row][col] = v` with the index checked. -/
def MazeGenerator.setCellAt (g : MazeGenerator) (row col : Int) (v : Int) :
    Except Fault MazeGenerator :=
  if g.inRange row col then Except.ok (g.setCell row col v) else Except.error Fault.outOfRange

/-- `addWalls` with checked reads; `&&` reads the grid only when
`isValidCell` holds. -/
def MazeGenerator.addWallsAt (g : MazeGenerator) (row col : Int) (walls : List (Int × Int)) :
    Except Fault (List (Int × Int)) :=
  directions.foldlM
    (fun w dir =>
      let newRow := row + dir.1
      let newCol := col + dir.2
      if g.isValidCell newRow newCol then
        (g.cellAt newRow newCol).map fun v => if v == 1 then w ++ [(newRow, newCol)] else w
      else Except.ok w)
    walls

/-- The counter of `isValidWall` with checked reads. -/
def MazeGenerator.openNeighboursAt (g : MazeGenerator) (row col : Int) : Except Fault Nat :=
  directions.foldlM
    (fun count dir =>
      let newRow := row + dir.1
      let newCol := col + dir.2
      if g.isValidCell newRow newCol then
        (g.cellAt newRow newCol).map fun v => if v == 0 then count + 1 else count
      else Except.ok count)
    0

/-- `isValidWall` with checked reads. -/
def MazeGenerator.isValidWallAt (g : MazeGenerator) (row col : Int) : Except Fault Bool :=
  (g.openNeighboursAt row col).map fun count => count == 1

/-- The loop of `generateMaze` with checked reads and writes. -/
def MazeGenerator.frontierLoopAt (shuffle : Nat → List (Int × Int) → List (Int × Int)) :
    Nat → Nat → MazeGenerator → List (Int × Int) → Except Fault MazeGenerator
  | fuel, k, g, walls =>
    if walls.isEmpty then Except.ok g
    else
      match fuel with
      | 0 => Except.error Fault.outOfFuel
      | fuel + 1 =>
        let shuffled := shuffle k walls
        let wall := shuffled.getLastD (0, 0)
        let walls := shuffled.dropLast
        let row := wall.1
        let col := wall.2
        match g.isValidWallAt row col with
        | Except.error e => Except.error e
        | Except.ok true =>
          match g.setCellAt row col 0 with
          | Except.error e => Except.error e
          | Except.ok g =>
            match g.addWallsAt row col walls with
            | Except.error e => Except.error e
            | Except.ok walls => frontierLoopAt shuffle fuel (k + 1) g walls
        | Except.ok false => frontierLoopAt shuffle fuel (k + 1) g walls

/-- The statements of `generateMaze` before its loop, with checked reads
and writes. -/
def MazeGenerator.beforeLoopAt (g : MazeGenerator) (startCell : Int × Int) :
    Except Fault (MazeGenerator × List (Int × Int)) :=
  let g : MazeGenerator := { g with start := startCell }
  match g.setCellAt g.start.1 g.start.2 0 with
  | Except.error e => Except.error e
  | Except.ok g =>
    match g.addWallsAt g.start.1 g.start.2 [] with
    | Except.error e => Except.error e
    | Except.ok walls => Except.ok (g, walls)

/-- The last two statements of `generateMaze`, with the write checked. -/
def MazeGenerator.setEndAt (g : MazeGenerator) : Except Fault MazeGenerator :=
  let g : MazeGenerator := { g with end_ := (g.rows - 1 - g.start.1, g.cols - 1 - g.start.2) }
  g.setCellAt g.end_.1 g.end_.2 0

/-- `generateMaze` with checked reads and writes. -/
def MazeGenerator.generateMazeAt (g : MazeGenerator) (startCell : Int × Int)
    (shuffle : Nat → List (Int × Int) → List (Int × Int)) : Except Fault MazeGenerator :=
  match g.beforeLoopAt startCell with
  | Except.error e => Except.error e
  | Except.ok p =>
    match MazeGenerator.frontierLoopAt shuffle (4 * g.rows * g.cols).toNat 0 p.1 p.2 with
    | Except.error e => Except.error e
    | Except.ok g => g.setEndAt

/-- A simple path from `a` to `b`: a walk through walkable cells that
starts at the walkable cell `a`, ends at `b` and visits no cell twice. -/
def SimplePath (walkable : Int → Int → Bool) (a b : Int × Int) (cs : List (Int × Int)) : Prop :=
  cs.head? = some a ∧ cs.getLast? = some b ∧ walkable a.1 a.2 = true ∧
    IsWalk walkable cs ∧ cs.Nodup

/-- The walkable cells form a tree under 4-adjacency: between any two of
them there is at most one simple path. -/
def TreeShaped (walkable : Int → Int → Bool) : Prop :=
  ∀ (a b : Int × Int) (cs ds : List (Int × Int)),
    SimplePath walkable a b cs → SimplePath walkable a b ds → cs = ds

/-! ## Lists and two-dimensional vectors -/

theorem mem_cells {rows cols : Int} {p : Int × Int} :
    p ∈ cells rows cols ↔ 0 ≤ p.1 ∧ p.1 < rows ∧ 0 ≤ p.2 ∧ p.2 < cols := by
  obtain ⟨a, b⟩ := p
  simp only [cells, List.mem_map, Prod.mk.injEq, Prod.exists, List.pair_mem_product,
    List.mem_range]
  constructor
  · rintro ⟨i, j, ⟨hi, hj⟩, rfl, rfl⟩
    omega
  · rintro ⟨h1, h2, h3, h4⟩
    exact ⟨a.toNat, b.toNat, ⟨by omega, by omega⟩, by omega, by omega⟩

theorem nodup_cells (rows cols : Int) : (cells rows cols).Nodup := by
  unfold cells
  refine List.Nodup.map ?_ (List.Nodup.product (List.nodup_range _) (List.nodup_range _))
  rintro ⟨a, b⟩ ⟨c, d⟩ h
  simp only [Prod.mk.injEq, Nat.cast_inj] at h
  simp [h.1, h.2]

theorem length_cells (rows cols : Int) :
    (cells rows cols).length = rows.toNat * cols.toNat := by
  rw [cells, List.length_map]
  show ((List.range rows.toNat) ×ˢ (List.range cols.toNat)).length = _
  rw [List.length_product, List.length_range, List.length_range]

/-- Changing a function at one entry of a duplicate-free list moves the sum
by the change at that entry. -/
theorem sum_map_update {α : Type} (l : List α) (hl : l.Nodup) (x : α) (hx : x ∈ l)
    (f f' : α → Nat) (h : ∀ y ∈ l, y ≠ x → f' y = f y) :
    (l.map f').sum + f x = (l.map f).sum + f' x := by
  induction l with
  | nil => simp at hx
  | cons a l ih =>
    rw [List.nodup_cons] at hl
    simp only [List.map_cons, List.sum_cons]
    by_cases hax : a = x
    · subst hax
      have : l.map f' = l.map f := by
        apply List.map_congr_left
        intro y hy
        exact h y (List.mem_cons_of_mem _ hy) (fun e => hl.1 (e ▸ hy))
      rw [this]
      omega
    · have hx' : x ∈ l := by
        rcases List.mem_cons.1 hx with e | e
        · exact absurd e.symm hax
        · exact e
      have := ih hl.2 hx' (fun y hy => h y (List.mem_cons_of_mem _ hy))
      rw [h a (List.mem_cons_self _ _) hax]
      omega

/-- A function that vanishes off one entry sums to its value there. -/
theorem sum_map_single {α : Type} [DecidableEq α] (l : List α) (hl : l.Nodup) (x : α)
    (f : α → Nat) (h : ∀ y ∈ l, y ≠ x → f y = 0) :
    (l.map f).sum = if x ∈ l then f x else 0 := by
  induction l with
  | nil => simp
  | cons a l ih =>
    rw [List.nodup_cons] at hl
    have ih2 := ih hl.2 (fun y hy => h y (List.mem_cons_of_mem _ hy))
    simp only [List.map_cons, List.sum_cons, List.mem_cons]
    by_cases hax : a = x
    · subst hax
      have : (l.map f).sum = 0 := by
        rw [ih2]
        simp [hl.1]
      simp [this]
    · rw [h a (List.mem_cons_self _ _) hax, ih2]
      have : (x = a) = False := by
        simp only [eq_iff_iff, iff_false]
        exact fun e => hax e.symm
      simp [this]

theorem sum_map_add {α : Type} (l : List α) (f g : α → Nat) :
    (l.map fun y => f y + g y).sum = (l.map f).sum + (l.map g).sum := by
  induction l with
  | nil => simp
  | cons a l ih =>
    simp only [List.map_cons, List.sum_cons, ih]
    omega

theorem countP_eq_sum {α : Type} (l : List α) (P : α → Bool) :
    l.countP P = (l.map fun y => if P y then 1 else 0).sum := by
  induction l with
  | nil => simp
  | cons a l ih =>
    simp only [List.countP_cons, List.map_cons, List.sum_cons, ih]
    omega

/-- Reading a two-dimensional vector after one write. -/
theorem get2_set2 {α : Type} (d : α) (m : List (List α)) (r c r2 c2 : Int) (v : α)
    (hr : 0 ≤ r) (hc : 0 ≤ c) (hr2 : 0 ≤ r2) (hc2 : 0 ≤ c2)
    (hrm : r.toNat < m.length) (hcm : c.toNat < (m.getD r.toNat []).length) :
    get2 d (set2 m r c v) r2 c2 = if r2 = r ∧ c2 = c then v else get2 d m r2 c2 := by
  unfold get2 set2
  by_cases h1 : r2 = r
  · subst h1
    by_cases h2 : c2 = c
    · subst h2
      simp only [List.getD_eq_getElem?_getD, List.getElem?_eq_getElem hrm, Option.getD_some] at hcm
      simp [List.getD_eq_getElem?_getD, List.getElem?_set, hrm, hcm]
    · have : c.toNat ≠ c2.toNat := by omega
      simp [List.getD_eq_getElem?_getD, List.getElem?_set, hrm, h2, this]
  · have : r.toNat ≠ r2.toNat := by omega
    simp [List.getD_eq_getElem?_getD, List.getElem?_set, h1, this]

theorem length_set2 {α : Type} (m : List (List α)) (r c : Int) (v : α) :
    (set2 m r c v).length = m.length := by
  simp [set2]

theorem length_row_set2 {α : Type} (m : List (List α)) (r c : Int) (v : α) (i : Nat) :
    ((set2 m r c v).getD i []).length = (m.getD i []).length := by
  unfold set2
  by_cases h : r.toNat = i
  · subst h
    by_cases h2 : r.toNat < m.length
    · simp [List.getD_eq_getElem?_getD, List.getElem?_set, h2]
    · have hn : m[r.toNat]? = none := List.getElem?_eq_none (by omega)
      simp [List.getD_eq_getElem?_getD, List.getElem?_set, h2, hn]
  · simp [List.getD_eq_getElem?_getD, List.getElem?_set, h]

/-! ## The generator: cells, neighbours, frontier -/

namespace MazeGenerator

theorem isValidCell_iff (g : MazeGenerator) (r c : Int) :
    g.isValidCell r c = true ↔ 0 ≤ r ∧ r < g.rows ∧ 0 ≤ c ∧ c < g.cols := by
  simp [isValidCell, and_assoc]

theorem isValidCell_setCell (g : MazeGenerator) (r c v x y : Int) :
    (g.setCell r c v).isValidCell x y = g.isValidCell x y := rfl

theorem wellSized_new (r c : Int) : (MazeGenerator.new r c).WellSized := by
  constructor
  · simp [MazeGenerator.new]
  · intro i hi
    simp only [MazeGenerator.new] at hi ⊢
    simp [List.getD_eq_getElem?_getD, List.getElem?_replicate, hi]

theorem wellSized_setCell (g : MazeGenerator) (h : g.WellSized) (r c v : Int) :
    (g.setCell r c v).WellSized := by
  constructor
  · simpa [setCell, length_set2] using h.1
  · intro i hi
    simp only [setCell] at hi ⊢
    rw [length_row_set2]
    exact h.2 i hi

theorem cell_setCell (g : MazeGenerator) (h : g.WellSized) (r c v x y : Int)
    (hv : g.isValidCell r c = true) (hx : 0 ≤ x) (hy : 0 ≤ y) :
    (g.setCell r c v).cell x y = if x = r ∧ y = c then v else g.cell x y := by
  rw [isValidCell_iff] at hv
  unfold cell setCell
  simp only
  apply get2_set2 _ _ _ _ _ _ _ hv.1 hv.2.2.1 hx hy
  · rw [h.1]; omega
  · rw [h.2 _ (by omega)]; omega

theorem isCellWalkable_setCell (g : MazeGenerator) (h : g.WellSized) (r c x y : Int)
    (hv : g.isValidCell r c = true) :
    (g.setCell r c 0).isCellWalkable x y =
      (decide (x = r ∧ y = c) || g.isCellWalkable x y) := by
  unfold isCellWalkable
  rw [isValidCell_setCell]
  by_cases hxy : g.isValidCell x y = true
  · have h2 := (isValidCell_iff g x y).1 hxy
    rw [cell_setCell g h r c 0 x y hv h2.1 h2.2.2.1, hxy]
    by_cases e : x = r ∧ y = c
    · simp [e]
    · simp [e]
  · have hne : ¬ (x = r ∧ y = c) := by
      rintro ⟨rfl, rfl⟩
      exact hxy hv
    simp only [Bool.not_eq_true] at hxy
    simp [hxy, hne]

theorem isCellWalkable_valid (g : MazeGenerator) (x y : Int)
    (h : g.isCellWalkable x y = true) : g.isValidCell x y = true := by
  unfold isCellWalkable at h
  simp only [Bool.and_eq_true] at h
  exact h.1

theorem openNeighbours_eq (g : MazeGenerator) (r c : Int) :
    g.openNeighbours r c =
      bit (g.isCellWalkable (r - 1) c) + bit (g.isCellWalkable (r + 1) c) +
      bit (g.isCellWalkable r (c - 1)) + bit (g.isCellWalkable r (c + 1)) := by
  simp only [openNeighbours, directions, List.foldl, isCellWalkable, bit, Int.add_zero,
    Int.add_neg_one, Int.reduceNeg]
  split_ifs <;> omega

theorem foldl_append_filter (P : Int × Int → Bool) (r c : Int) (ds walls : List (Int × Int)) :
    ds.foldl (fun w dir => if P (r + dir.1, c + dir.2) then w ++ [(r + dir.1, c + dir.2)] else w)
      walls = walls ++ (ds.map fun dir => (r + dir.1, c + dir.2)).filter P := by
  induction ds generalizing walls with
  | nil => simp
  | cons d ds ih =>
    simp only [List.foldl_cons, List.map_cons, List.filter_cons]
    rw [ih]
    split_ifs <;> simp

theorem addWalls_eq (g : MazeGenerator) (r c : Int) (walls : List (Int × Int)) :
    g.addWalls r c walls =
      walls ++ (neighbours r c).filter fun p => g.isValidCell p.1 p.2 && g.cell p.1 p.2 == 1 := by
  unfold addWalls neighbours
  exact foldl_append_filter (fun p => g.isValidCell p.1 p.2 && g.cell p.1 p.2 == 1) r c _ _

end MazeGenerator

theorem mem_neighbours {r c : Int} {p : Int × Int} :
    p ∈ neighbours r c ↔
      p = (r - 1, c) ∨ p = (r + 1, c) ∨ p = (r, c - 1) ∨ p = (r, c + 1) := by
  simp [neighbours, directions, Int.add_neg_one]

theorem mem_neighbours_iff_adjacent {r c : Int} {p : Int × Int} :
    p ∈ neighbours r c ↔ Adjacent (r, c) p := by
  obtain ⟨a, b⟩ := p
  rw [mem_neighbours]
  simp only [Prod.mk.injEq, Adjacent]
  omega

theorem mem_neighbours_symm {r c x y : Int} :
    (x, y) ∈ neighbours r c ↔ (r, c) ∈ neighbours x y := by
  simp only [mem_neighbours, Prod.mk.injEq]
  constructor <;> intro h <;> omega

theorem nodup_neighbours (r c : Int) : (neighbours r c).Nodup := by
  simp only [neighbours, directions, List.map, List.nodup_cons, List.mem_cons, Prod.mk.injEq,
    List.mem_singleton, List.not_mem_nil, not_false_eq_true, List.nodup_nil, and_true,
    or_false, true_and]
  refine ⟨?_, ?_, ?_⟩ <;> omega

theorem not_mem_neighbours_self (r c : Int) : (r, c) ∉ neighbours r c := by
  simp only [mem_neighbours, Prod.mk.injEq]
  omega

theorem adjacent_symm {p q : Int × Int} (h : Adjacent p q) : Adjacent q p := by
  unfold Adjacent at *
  omega

theorem bit_le_one (b : Bool) : bit b ≤ 1 := by
  cases b <;> simp [bit]

theorem bit_eq_one {b : Bool} : bit b = 1 ↔ b = true := by
  cases b <;> simp [bit]

theorem bit_eq_zero {b : Bool} : bit b = 0 ↔ b = false := by
  cases b <;> simp [bit]

namespace MazeGenerator

theorem bit_walkable_setCell (g : MazeGenerator) (h : g.WellSized) (r c x y : Int)
    (hv : g.isValidCell r c = true) (hw : g.isCellWalkable r c = false) :
    bit ((g.setCell r c 0).isCellWalkable x y) =
      bit (g.isCellWalkable x y) + bit (decide (x = r ∧ y = c)) := by
  rw [isCellWalkable_setCell g h r c _ _ hv]
  by_cases e : x = r ∧ y = c
  · obtain ⟨rfl, rfl⟩ := e
    simp [hw, bit]
  · simp [e, bit]

/-- Opening a cell that was not Open adds one to the Open-neighbour count of
each of its neighbours and changes no other count. -/
theorem openNeighbours_setCell (g : MazeGenerator) (h : g.WellSized) (r c x y : Int)
    (hv : g.isValidCell r c = true) (hw : g.isCellWalkable r c = false) :
    (g.setCell r c 0).openNeighbours x y =
      g.openNeighbours x y + bit (decide ((r, c) ∈ neighbours x y)) := by
  rw [openNeighbours_eq, openNeighbours_eq]
  simp only [bit_walkable_setCell g h r c _ _ hv hw]
  have key : bit (decide ((r, c) ∈ neighbours x y)) =
      bit (decide (x - 1 = r ∧ y = c)) + bit (decide (x + 1 = r ∧ y = c)) +
      bit (decide (x = r ∧ y - 1 = c)) + bit (decide (x = r ∧ y + 1 = c)) := by
    simp only [mem_neighbours, Prod.mk.injEq, bit, decide_eq_true_eq]
    split_ifs <;> omega
  omega

end MazeGenerator

namespace MazeGenerator

theorem openCount_setCell (g : MazeGenerator) (h : g.WellSized) (r c : Int)
    (hv : g.isValidCell r c = true) (hw : g.isCellWalkable r c = false) :
    openCount (g.setCell r c 0) = openCount g + 1 := by
  unfold openCount
  rw [countP_eq_sum, countP_eq_sum]
  have hmem : (r, c) ∈ cells g.rows g.cols := mem_cells.2 ((isValidCell_iff g r c).1 hv)
  have := sum_map_update (cells g.rows g.cols) (nodup_cells _ _) (r, c) hmem
    (fun p => if g.isCellWalkable p.1 p.2 then 1 else 0)
    (fun p => if (g.setCell r c 0).isCellWalkable p.1 p.2 then 1 else 0)
    (by
      rintro ⟨a, b⟩ _ hne
      have : ¬ (a = r ∧ b = c) := fun e => hne (by rw [e.1, e.2])
      simp [isCellWalkable_setCell g h r c a b hv, this])
  simp only [hw, isCellWalkable_setCell g h r c r c hv] at this
  simp only [setCell] at this ⊢
  simpa using this

theorem wallCount_setCell (g : MazeGenerator) (h : g.WellSized) (r c : Int)
    (hv : g.isValidCell r c = true) (hw : g.cell r c = 1) :
    wallCount (g.setCell r c 0) + 1 = wallCount g := by
  unfold wallCount
  rw [countP_eq_sum, countP_eq_sum]
  have hv2 := (isValidCell_iff g r c).1 hv
  have hmem : (r, c) ∈ cells g.rows g.cols := mem_cells.2 hv2
  have := sum_map_update (cells g.rows g.cols) (nodup_cells _ _) (r, c) hmem
    (fun p => if g.cell p.1 p.2 == 1 then 1 else 0)
    (fun p => if (g.setCell r c 0).cell p.1 p.2 == 1 then 1 else 0)
    (by
      rintro ⟨a, b⟩ hab hne
      have hne2 : ¬ (a = r ∧ b = c) := fun e => hne (by rw [e.1, e.2])
      have h2 := mem_cells.1 hab
      simp [cell_setCell g h r c 0 a b hv h2.1 h2.2.2.1, hne2])
  simp only [hw, cell_setCell g h r c 0 r c hv hv2.1 hv2.2.2.1] at this
  simp only [setCell] at this ⊢
  simpa using this

/-- Opening a cell that was not Open adds as many adjacent Open pairs as the
cell has Open neighbours. -/
theorem openPairs_setCell (g : MazeGenerator) (h : g.WellSized) (r c : Int)
    (hv : g.isValidCell r c = true) (hw : g.isCellWalkable r c = false) :
    openPairs (g.setCell r c 0) = openPairs g + g.openNeighbours r c := by
  have hv2 := (isValidCell_iff g r c).1 hv
  have hmem : (r, c) ∈ cells g.rows g.cols := mem_cells.2 hv2
  have hnd := nodup_cells g.rows g.cols
  -- the change of each summand
  have hpt : ∀ p : Int × Int,
      (if (g.setCell r c 0).isCellWalkable p.1 p.2 &&
          (g.setCell r c 0).isCellWalkable p.1 (p.2 + 1) then 1 else 0) +
      (if (g.setCell r c 0).isCellWalkable p.1 p.2 &&
          (g.setCell r c 0).isCellWalkable (p.1 + 1) p.2 then 1 else 0) =
      ((if g.isCellWalkable p.1 p.2 && g.isCellWalkable p.1 (p.2 + 1) then 1 else 0) +
        (if g.isCellWalkable p.1 p.2 && g.isCellWalkable (p.1 + 1) p.2 then 1 else 0)) +
      ((if p = (r, c) then
          bit (g.isCellWalkable r (c + 1)) + bit (g.isCellWalkable (r + 1) c) else 0) +
        ((if p = (r, c - 1) then bit (g.isCellWalkable p.1 p.2) else 0) +
          (if p = (r - 1, c) then bit (g.isCellWalkable p.1 p.2) else 0))) := by
    rintro ⟨a, b⟩
    simp only [isCellWalkable_setCell g h r c _ _ hv, Prod.mk.injEq]
    by_cases e1 : a = r ∧ b = c
    · obtain ⟨rfl, rfl⟩ := e1
      have n1 : ¬ (b + 1 = b) := by omega
      have n2 : ¬ (a + 1 = a) := by omega
      have n3 : ¬ (b = b - 1) := by omega
      have n4 : ¬ (a = a - 1) := by omega
      simp [hw, bit, n1, n2, n3, n4]
    · by_cases e2 : a = r ∧ b = c - 1
      · obtain ⟨rfl, rfl⟩ := e2
        have n1 : ¬ (c - 1 = c) := by omega
        have n2 : ¬ (a + 1 = a) := by omega
        have n4 : ¬ (a = a - 1) := by omega
        have hw2 : g.isCellWalkable a (c - 1 + 1) = false := by
          rw [show c - 1 + 1 = c by omega]; exact hw
        simp only [bit, n1, n2, n4, hw2, hw, false_and, and_false, and_true, true_and,
          false_or, or_false, decide_False, decide_True, Bool.false_or, Bool.or_false,
          Bool.and_eq_true, if_true, if_false, Bool.false_eq_true, and_self, add_zero, zero_add,
          Bool.true_or, Bool.and_true, Bool.and_false]
        split_ifs <;> first | rfl | simp_all
      · by_cases e3 : a = r - 1 ∧ b = c
        · obtain ⟨rfl, rfl⟩ := e3
          have n1 : ¬ (r - 1 = r) := by omega
          have n2 : ¬ (b + 1 = b) := by omega
          have n3 : ¬ (b = b - 1) := by omega
          have hw2 : g.isCellWalkable (r - 1 + 1) b = false := by
            rw [show r - 1 + 1 = r by omega]; exact hw
          simp only [bit, n1, n2, n3, hw2, hw, false_and, and_false, and_true, true_and,
            false_or, or_false, decide_False, decide_True, Bool.false_or, Bool.or_false,
            Bool.and_eq_true, if_true, if_false, Bool.false_eq_true, and_self, add_zero,
            zero_add, Bool.true_or, Bool.and_true, Bool.and_false]
          split_ifs <;> first | rfl | simp_all
        · have n1 : ¬ (a = r ∧ b + 1 = c) := fun e => e2 ⟨e.1, by omega⟩
          have n2 : ¬ (a + 1 = r ∧ b = c) := fun e => e3 ⟨by omega, e.2⟩
          simp [e1, e2, e3, n1, n2]
  -- the three sums of the correction terms
  have s1 := sum_map_single (cells g.rows g.cols) hnd (r, c)
    (fun p => if p = (r, c) then
      bit (g.isCellWalkable r (c + 1)) + bit (g.isCellWalkable (r + 1) c) else 0)
    (fun y _ hy => by simp [hy])
  have s2 := sum_map_single (cells g.rows g.cols) hnd (r, c - 1)
    (fun p => if p = (r, c - 1) then bit (g.isCellWalkable p.1 p.2) else 0)
    (fun y _ hy => by simp [hy])
  have s3 := sum_map_single (cells g.rows g.cols) hnd (r - 1, c)
    (fun p => if p = (r - 1, c) then bit (g.isCellWalkable p.1 p.2) else 0)
    (fun y _ hy => by simp [hy])
  have o2 : (if (r, c - 1) ∈ cells g.rows g.cols then bit (g.isCellWalkable r (c - 1)) else 0) =
      bit (g.isCellWalkable r (c - 1)) := by
    by_cases hm : (r, c - 1) ∈ cells g.rows g.cols
    · simp [hm]
    · have : g.isCellWalkable r (c - 1) = false := by
        by_contra hc
        simp only [Bool.not_eq_false] at hc
        exact hm (mem_cells.2 ((isValidCell_iff g _ _).1 (isCellWalkable_valid g _ _ hc)))
      simp [hm, this, bit]
  have o3 : (if (r - 1, c) ∈ cells g.rows g.cols then bit (g.isCellWalkable (r - 1) c) else 0) =
      bit (g.isCellWalkable (r - 1) c) := by
    by_cases hm : (r - 1, c) ∈ cells g.rows g.cols
    · simp [hm]
    · have : g.isCellWalkable (r - 1) c = false := by
        by_contra hc
        simp only [Bool.not_eq_false] at hc
        exact hm (mem_cells.2 ((isValidCell_iff g _ _).1 (isCellWalkable_valid g _ _ hc)))
      simp [hm, this, bit]
  simp only [if_true, hmem] at s1 s2 s3
  rw [o2] at s2
  rw [o3] at s3
  unfold openPairs
  show ((cells g.rows g.cols).map _).sum = _
  simp only [hpt]
  rw [sum_map_add, sum_map_add, sum_map_add, sum_map_add, s1, s2, s3, openNeighbours_eq]
  omega

end MazeGenerator

theorem reachable_mono {w1 w2 : Int → Int → Bool} (h : ∀ x y, w1 x y = true → w2 x y = true)
    {p q : Int × Int} (hr : Reachable w1 p q) : Reachable w2 p q := by
  unfold Reachable at *
  exact Relation.ReflTransGen.mono (fun a b hab => ⟨hab.1, h _ _ hab.2⟩) hr

theorem reachable_step {w : Int → Int → Bool} {p q r : Int × Int} (h : Reachable w p q)
    (ha : Adjacent q r) (hw : w r.1 r.2 = true) : Reachable w p r :=
  Relation.ReflTransGen.tail h ⟨ha, hw⟩

namespace MazeGenerator

theorem not_walkable_of_wall (g : MazeGenerator) (r c : Int) (h : g.cell r c = 1) :
    g.isCellWalkable r c = false := by
  simp [isCellWalkable, h]

theorem LoopInv.skip {g : MazeGenerator} {walls rest : List (Int × Int)} {wall : Int × Int}
    (inv : g.LoopInv walls) (hp : walls.Perm (wall :: rest))
    (hv : g.isValidWall wall.1 wall.2 = false) : g.LoopInv rest where
  sized := inv.sized
  startOpen := inv.startOpen
  binary := inv.binary
  frontierWall := fun w hw => inv.frontierWall w (hp.mem_iff.2 (List.mem_cons_of_mem _ hw))
  frontierCount := fun w => by
    have h1 := inv.frontierCount w
    rw [hp.countP_eq, List.countP_cons] at h1
    omega
  frontierFull := fun x y h1 h2 h3 => by
    have hm := hp.mem_iff.1 (inv.frontierFull x y h1 h2 h3)
    rcases List.mem_cons.1 hm with e | e
    · exfalso
      rw [← e] at hv
      simp [isValidWall, h3] at hv
    · exact e
  connected := inv.connected
  tree := inv.tree

theorem exists_open_neighbour (g : MazeGenerator) (r c : Int) (h : 0 < g.openNeighbours r c) :
    ∃ p : Int × Int, Adjacent p (r, c) ∧ g.isCellWalkable p.1 p.2 = true := by
  rw [openNeighbours_eq] at h
  by_cases h1 : g.isCellWalkable (r - 1) c = true
  · exact ⟨(r - 1, c), by unfold Adjacent; simp, h1⟩
  by_cases h2 : g.isCellWalkable (r + 1) c = true
  · exact ⟨(r + 1, c), by unfold Adjacent; simp, h2⟩
  by_cases h3 : g.isCellWalkable r (c - 1) = true
  · exact ⟨(r, c - 1), by unfold Adjacent; simp, h3⟩
  by_cases h4 : g.isCellWalkable r (c + 1) = true
  · exact ⟨(r, c + 1), by unfold Adjacent; simp, h4⟩
  simp only [Bool.not_eq_true] at h1 h2 h3 h4
  simp [h1, h2, h3, h4, bit] at h

theorem countP_eq_le_one {α : Type} [DecidableEq α] (l : List α) (hl : l.Nodup) (w : α) :
    l.countP (fun v => decide (v = w)) ≤ 1 := by
  induction l with
  | nil => simp
  | cons a l ih =>
    rw [List.nodup_cons] at hl
    rw [List.countP_cons]
    by_cases e : a = w
    · subst e
      have h0 : l.countP (fun v => decide (v = a)) = 0 := by
        rw [List.countP_eq_zero]
        intro x hx
        simp only [decide_eq_true_eq]
        exact fun e => hl.1 (e ▸ hx)
      simp [h0]
    · have := ih hl.2
      simp only [e, decide_False]
      simpa using this

theorem countP_eq_of_not_mem {α : Type} [DecidableEq α] (l : List α) (w : α) (h : w ∉ l) :
    l.countP (fun v => decide (v = w)) = 0 := by
  rw [List.countP_eq_zero]
  intro x hx
  simp only [decide_eq_true_eq]
  exact fun e => h (e ▸ hx)

theorem count_filter_neighbours_le (P : Int × Int → Bool) (r c : Int) (w : Int × Int) :
    ((neighbours r c).filter P).countP (fun v => decide (v = w)) ≤ 1 :=
  le_trans (List.Sublist.countP_le _ (List.filter_sublist _))
    (countP_eq_le_one _ (nodup_neighbours r c) w)

theorem count_filter_neighbours_zero (P : Int × Int → Bool) (r c : Int) (w : Int × Int)
    (h : w ∉ neighbours r c) :
    ((neighbours r c).filter P).countP (fun v => decide (v = w)) = 0 :=
  countP_eq_of_not_mem _ w (fun hm => h (List.mem_filter.1 hm).1)

theorem LoopInv.open {g : MazeGenerator} {walls rest : List (Int × Int)} {wall : Int × Int}
    (inv : g.LoopInv walls) (hp : walls.Perm (wall :: rest))
    (hv : g.isValidWall wall.1 wall.2 = true) :
    (g.setCell wall.1 wall.2 0).LoopInv
      ((g.setCell wall.1 wall.2 0).addWalls wall.1 wall.2 rest) := by
  obtain ⟨r, c⟩ := wall
  simp only at hv ⊢
  have hon : g.openNeighbours r c = 1 := by simpa [isValidWall] using hv
  have hwall := inv.frontierWall (r, c) (hp.mem_iff.2 (List.mem_cons_self _ _))
  simp only at hwall
  have hvalid := hwall.1
  have hnw : g.isCellWalkable r c = false := not_walkable_of_wall g r c hwall.2
  have hv2 := (isValidCell_iff g r c).1 hvalid
  have hnotin : (r, c) ∉ rest := by
    intro hin
    have h1 := inv.frontierCount (r, c)
    rw [hp.countP_eq, List.countP_cons] at h1
    have : 0 < rest.countP (fun v => decide (v = (r, c))) :=
      List.countP_pos_iff.2 ⟨(r, c), hin, by simp⟩
    simp only [decide_True, if_true] at h1
    omega
  have hcell : ∀ x y, g.isValidCell x y = true →
      (g.setCell r c 0).cell x y = if x = r ∧ y = c then 0 else g.cell x y := by
    intro x y hxy
    have h2 := (isValidCell_iff g x y).1 hxy
    exact cell_setCell g inv.sized r c 0 x y hvalid h2.1 h2.2.2.1
  have hwalk : ∀ x y, g.isCellWalkable x y = true →
      (g.setCell r c 0).isCellWalkable x y = true := by
    intro x y hxy
    rw [isCellWalkable_setCell g inv.sized r c x y hvalid, hxy]
    simp
  refine ⟨wellSized_setCell g inv.sized r c 0, ?_, ?_, ?_, ?_, ?_, ?_, ?_⟩
  · exact hwalk _ _ inv.startOpen
  · intro x y hxy
    rw [isValidCell_setCell] at hxy
    rw [hcell x y hxy]
    split_ifs
    · exact Or.inl rfl
    · exact inv.binary x y hxy
  · intro w hw
    rw [addWalls_eq, List.mem_append] at hw
    rcases hw with hw | hw
    · have h1 := inv.frontierWall w (hp.mem_iff.2 (List.mem_cons_of_mem _ hw))
      refine ⟨h1.1, ?_⟩
      rw [hcell _ _ h1.1]
      have : ¬ (w.1 = r ∧ w.2 = c) := by
        rintro ⟨e1, e2⟩
        apply hnotin
        rw [← e1, ← e2]
        exact hw
      simp [this, h1.2]
    · have := (List.mem_filter.1 hw).2
      simpa using this
  · intro w
    rw [addWalls_eq, List.countP_append]
    have h1 := inv.frontierCount w
    rw [hp.countP_eq, List.countP_cons] at h1
    rw [openNeighbours_setCell g inv.sized r c w.1 w.2 hvalid hnw]
    by_cases hm : w ∈ neighbours r c
    · have h2 := count_filter_neighbours_le
        (fun p => (g.setCell r c 0).isValidCell p.1 p.2 && (g.setCell r c 0).cell p.1 p.2 == 1)
        r c w
      have h3 : (r, c) ∈ neighbours w.1 w.2 := mem_neighbours_symm.1 hm
      simp only [h3, decide_True, bit, if_true]
      omega
    · have h2 := count_filter_neighbours_zero
        (fun p => (g.setCell r c 0).isValidCell p.1 p.2 && (g.setCell r c 0).cell p.1 p.2 == 1)
        r c w hm
      omega
  · intro x y h1 h2 h3
    rw [isValidCell_setCell] at h1
    rw [hcell x y h1] at h2
    have hne : ¬ (x = r ∧ y = c) := by
      intro e
      simp [e] at h2
    simp only [hne, if_false] at h2
    rw [openNeighbours_setCell g inv.sized r c x y hvalid hnw] at h3
    rw [addWalls_eq, List.mem_append]
    by_cases hnb : (r, c) ∈ neighbours x y
    · right
      rw [List.mem_filter]
      refine ⟨mem_neighbours_symm.2 hnb, ?_⟩
      simp only [isValidCell_setCell, h1, hcell x y h1, hne, if_false, h2]
      simp
    · left
      simp only [hnb, decide_False, bit] at h3
      have hm := hp.mem_iff.1 (inv.frontierFull x y h1 h2 (by simpa using h3))
      rcases List.mem_cons.1 hm with e | e
      · exfalso
        apply hne
        simp only [Prod.mk.injEq] at e
        exact e
      · exact e
  · intro x y hxy
    rw [isCellWalkable_setCell g inv.sized r c x y hvalid] at hxy
    simp only [Bool.or_eq_true, decide_eq_true_eq] at hxy
    rcases hxy with ⟨rfl, rfl⟩ | hxy
    · obtain ⟨p, hadj, hp2⟩ := exists_open_neighbour g x y (by omega)
      have hr : Reachable (g.setCell x y 0).isCellWalkable g.start p :=
        reachable_mono hwalk (inv.connected p.1 p.2 hp2)
      refine reachable_step hr hadj ?_
      rw [isCellWalkable_setCell g inv.sized x y x y hvalid]
      simp
    · exact reachable_mono hwalk (inv.connected x y hxy)
  · rw [openPairs_setCell g inv.sized r c hvalid hnw, openCount_setCell g inv.sized r c hvalid hnw,
      hon]
    have := inv.tree
    omega

theorem loopMeasure_skip {g : MazeGenerator} {walls rest : List (Int × Int)} {wall : Int × Int}
    (hp : walls.Perm (wall :: rest)) : g.loopMeasure rest + 1 = g.loopMeasure walls := by
  unfold loopMeasure
  rw [hp.length_eq, List.length_cons]
  omega

theorem loopMeasure_open {g : MazeGenerator} {walls rest : List (Int × Int)} {wall : Int × Int}
    (inv : g.LoopInv walls) (hp : walls.Perm (wall :: rest)) :
    (g.setCell wall.1 wall.2 0).loopMeasure
      ((g.setCell wall.1 wall.2 0).addWalls wall.1 wall.2 rest) + 1 ≤ g.loopMeasure walls := by
  have hwall := inv.frontierWall wall (hp.mem_iff.2 (List.mem_cons_self _ _))
  have h1 := wallCount_setCell g inv.sized wall.1 wall.2 hwall.1 hwall.2
  unfold loopMeasure
  rw [hp.length_eq, List.length_cons, addWalls_eq, List.length_append]
  have h2 : ((neighbours wall.1 wall.2).filter fun p =>
      (g.setCell wall.1 wall.2 0).isValidCell p.1 p.2 &&
        (g.setCell wall.1 wall.2 0).cell p.1 p.2 == 1).length ≤ 4 := by
    refine le_trans (List.length_filter_le _ _) ?_
    simp [neighbours, directions]
  omega

end MazeGenerator

namespace MazeGenerator

theorem frontierLoop_spec (shuffle : Nat → List (Int × Int) → List (Int × Int))
    (hs : IsShuffle shuffle) :
    ∀ (fuel k : Nat) (g : MazeGenerator) (walls : List (Int × Int)),
      g.LoopInv walls → g.loopMeasure walls ≤ fuel →
      ∃ g2, frontierLoop shuffle fuel k g walls = some g2 ∧ g2.LoopInv [] ∧
        g2.rows = g.rows ∧ g2.cols = g.cols ∧ g2.start = g.start ∧ g2.end_ = g.end_ := by
  intro fuel
  induction fuel with
  | zero =>
    intro k g walls inv hm
    have hw : walls = [] := by
      unfold loopMeasure at hm
      exact List.length_eq_zero.1 (by omega)
    subst hw
    exact ⟨g, by simp [frontierLoop], inv, rfl, rfl, rfl, rfl⟩
  | succ fuel ih =>
    intro k g walls inv hm
    by_cases hw : walls = []
    · subst hw
      exact ⟨g, by simp [frontierLoop], inv, rfl, rfl, rfl, rfl⟩
    · have hperm := hs k walls
      have hne : shuffle k walls ≠ [] := fun e => hw (by simpa [e] using hperm.symm)
      have hsplit : shuffle k walls =
          (shuffle k walls).dropLast ++ [(shuffle k walls).getLastD (0, 0)] := by
        conv_lhs => rw [← List.dropLast_append_getLast hne]
        rw [List.getLastD_eq_getLast?, List.getLast?_eq_getLast _ hne]
        rfl
      have hp : walls.Perm ((shuffle k walls).getLastD (0, 0) :: (shuffle k walls).dropLast) := by
        refine hperm.symm.trans ?_
        conv_lhs => rw [hsplit]
        exact List.perm_append_comm
      have hemp : walls.isEmpty = false := by
        cases walls with
        | nil => exact absurd rfl hw
        | cons a l => rfl
      rw [frontierLoop]
      simp only [hemp, Bool.false_eq_true, if_false]
      by_cases hv : g.isValidWall ((shuffle k walls).getLastD (0, 0)).1
          ((shuffle k walls).getLastD (0, 0)).2 = true
      · simp only [hv, if_true]
        have inv2 := inv.open hp hv
        have hm2 := loopMeasure_open inv hp
        obtain ⟨g2, h1, h2, h3, h4, h5, h6⟩ := ih (k + 1) _ _ inv2 (by omega)
        exact ⟨g2, h1, h2, h3, h4, h5, h6⟩
      · simp only [hv, if_false]
        simp only [Bool.not_eq_true] at hv
        have inv2 := inv.skip hp hv
        have hm2 := loopMeasure_skip (g := g) hp
        obtain ⟨g2, h1, h2, h3, h4, h5, h6⟩ := ih (k + 1) _ _ inv2 (by omega)
        exact ⟨g2, h1, h2, h3, h4, h5, h6⟩

theorem cell_new (r c x y : Int) : (MazeGenerator.new r c).cell x y = 1 := by
  unfold cell get2 MazeGenerator.new
  simp only [List.getD_eq_getElem?_getD, List.getElem?_replicate]
  by_cases h1 : x.toNat < r.toNat
  · by_cases h2 : y.toNat < c.toNat
    · simp [h1, h2]
    · simp [h1, h2]
  · simp [h1]

theorem isCellWalkable_new (r c x y : Int) :
    (MazeGenerator.new r c).isCellWalkable x y = false := by
  simp [isCellWalkable, cell_new]

/-- The counts depend on the grid only through `isCellWalkable`. -/
theorem counts_congr (g1 g2 : MazeGenerator) (hr : g1.rows = g2.rows) (hc : g1.cols = g2.cols)
    (h : ∀ x y, g1.isCellWalkable x y = g2.isCellWalkable x y) :
    openCount g1 = openCount g2 ∧ openPairs g1 = openPairs g2 ∧
      ∀ x y, g1.openNeighbours x y = g2.openNeighbours x y := by
  refine ⟨?_, ?_, ?_⟩
  · unfold openCount
    simp only [hr, hc, h]
  · unfold openPairs
    simp only [hr, hc, h]
  · intro x y
    simp only [openNeighbours_eq, h]

end MazeGenerator

namespace MazeGenerator

theorem openNeighbours_new (r c x y : Int) : (MazeGenerator.new r c).openNeighbours x y = 0 := by
  rw [openNeighbours_eq]
  simp [isCellWalkable_new, bit]

theorem openCount_new (r c : Int) : openCount (MazeGenerator.new r c) = 0 := by
  unfold openCount
  rw [List.countP_eq_zero]
  intro p _
  simp [isCellWalkable_new]

theorem openPairs_new (r c : Int) : openPairs (MazeGenerator.new r c) = 0 := by
  unfold openPairs
  simp [isCellWalkable_new]

theorem wallCount_new (r c : Int) : wallCount (MazeGenerator.new r c) = r.toNat * c.toNat := by
  unfold wallCount
  rw [List.countP_eq_length.2]
  · exact length_cells _ _
  · intro p _
    simp [cell_new]

/-- The invariant holds on entry to the frontier loop, and the fuel of
`afterLoop` covers the measure. -/
theorem beforeLoop_inv (rows cols : Int) (s : Int × Int) (hs : IsStartDraw rows cols s) :
    (beforeLoop (MazeGenerator.new rows cols) s).1.LoopInv
        (beforeLoop (MazeGenerator.new rows cols) s).2 ∧
      (beforeLoop (MazeGenerator.new rows cols) s).1.loopMeasure
        (beforeLoop (MazeGenerator.new rows cols) s).2 ≤ (4 * rows * cols).toNat ∧
      (beforeLoop (MazeGenerator.new rows cols) s).1.rows = rows ∧
      (beforeLoop (MazeGenerator.new rows cols) s).1.cols = cols ∧
      (beforeLoop (MazeGenerator.new rows cols) s).1.start = s := by
  obtain ⟨r, c⟩ := s
  unfold IsStartDraw at hs
  simp only at hs
  -- the generator with `start` recorded behaves as the fresh one
  set g0 : MazeGenerator := { MazeGenerator.new rows cols with start := (r, c) } with hg0
  have hsz : g0.WellSized := wellSized_new rows cols
  have hcell0 : ∀ x y, g0.cell x y = 1 := cell_new rows cols
  have hw0 : ∀ x y, g0.isCellWalkable x y = false := isCellWalkable_new rows cols
  have hon0 : ∀ x y, g0.openNeighbours x y = 0 := openNeighbours_new rows cols
  have hvalid : g0.isValidCell r c = true := by
    rw [isValidCell_iff]
    exact hs
  have hb : beforeLoop (MazeGenerator.new rows cols) (r, c) =
      (g0.setCell r c 0, (g0.setCell r c 0).addWalls r c []) := rfl
  rw [hb]
  simp only
  have hcell : ∀ x y, g0.isValidCell x y = true →
      (g0.setCell r c 0).cell x y = if x = r ∧ y = c then 0 else 1 := by
    intro x y hxy
    have h2 := (isValidCell_iff g0 x y).1 hxy
    rw [cell_setCell g0 hsz r c 0 x y hvalid h2.1 h2.2.2.1, hcell0]
  have hwalk : ∀ x y, (g0.setCell r c 0).isCellWalkable x y = decide (x = r ∧ y = c) := by
    intro x y
    rw [isCellWalkable_setCell g0 hsz r c x y hvalid, hw0]
    simp
  have hon : ∀ x y, (g0.setCell r c 0).openNeighbours x y =
      bit (decide ((r, c) ∈ neighbours x y)) := by
    intro x y
    rw [openNeighbours_setCell g0 hsz r c x y hvalid (hw0 r c), hon0]
    simp
  refine ⟨⟨wellSized_setCell g0 hsz r c 0, ?_, ?_, ?_, ?_, ?_, ?_, ?_⟩, ?_, rfl, rfl, rfl⟩
  · show (g0.setCell r c 0).isCellWalkable r c = true
    rw [hwalk]
    simp
  · intro x y hxy
    rw [isValidCell_setCell] at hxy
    rw [hcell x y hxy]
    split_ifs
    · exact Or.inl rfl
    · exact Or.inr rfl
  · intro w hw
    rw [addWalls_eq, List.nil_append] at hw
    simpa using (List.mem_filter.1 hw).2
  · intro w
    rw [addWalls_eq, List.nil_append, hon]
    by_cases hm : w ∈ neighbours r c
    · have h2 := count_filter_neighbours_le
        (fun p => (g0.setCell r c 0).isValidCell p.1 p.2 && (g0.setCell r c 0).cell p.1 p.2 == 1)
        r c w
      have h3 : (r, c) ∈ neighbours w.1 w.2 := mem_neighbours_symm.1 hm
      simp only [h3, decide_True, bit, if_true]
      exact h2
    · have h2 := count_filter_neighbours_zero
        (fun p => (g0.setCell r c 0).isValidCell p.1 p.2 && (g0.setCell r c 0).cell p.1 p.2 == 1)
        r c w hm
      omega
  · intro x y h1 h2 h3
    rw [hon] at h3
    have hnb : (r, c) ∈ neighbours x y := by
      by_contra hc
      simp [hc, bit] at h3
    rw [addWalls_eq, List.nil_append, List.mem_filter]
    refine ⟨mem_neighbours_symm.2 hnb, ?_⟩
    simp only [h1, h2]
    simp
  · intro x y hxy
    rw [hwalk] at hxy
    simp only [decide_eq_true_eq] at hxy
    obtain ⟨rfl, rfl⟩ := hxy
    exact Relation.ReflTransGen.refl
  · rw [openPairs_setCell g0 hsz r c hvalid (hw0 r c), openCount_setCell g0 hsz r c hvalid (hw0 r c),
      hon0]
    have h1 : openPairs g0 = 0 := openPairs_new rows cols
    have h2 : openCount g0 = 0 := openCount_new rows cols
    omega
  · unfold loopMeasure
    have h1 := wallCount_setCell g0 hsz r c hvalid (hcell0 r c)
    have h2 : wallCount g0 = rows.toNat * cols.toNat := wallCount_new rows cols
    rw [addWalls_eq, List.nil_append]
    have h3 : ((neighbours r c).filter fun p =>
        (g0.setCell r c 0).isValidCell p.1 p.2 && (g0.setCell r c 0).cell p.1 p.2 == 1).length
        ≤ 4 := by
      refine le_trans (List.length_filter_le _ _) ?_
      simp [neighbours, directions]
    have h4 : (4 * rows * cols).toNat = 4 * (rows.toNat * cols.toNat) := by
      have e1 : rows = (rows.toNat : Int) := (Int.toNat_of_nonneg (by omega)).symm
      have e2 : cols = (cols.toNat : Int) := (Int.toNat_of_nonneg (by omega)).symm
      rw [e1, e2]
      simp only [Int.toNat_ofNat]
      have : (4 : Int) * (rows.toNat : Int) * (cols.toNat : Int) =
          ((4 * (rows.toNat * cols.toNat) : Nat) : Int) := by
        push_cast
        ring
      rw [this, Int.toNat_ofNat]
    omega

end MazeGenerator

namespace MazeGenerator

/-- The frontier loop of `generateMaze` ends, and its invariant holds then. -/
theorem afterLoop_spec (rows cols : Int) (s : Int × Int) (hs : IsStartDraw rows cols s)
    (shuffle : Nat → List (Int × Int) → List (Int × Int)) (hsh : IsShuffle shuffle) :
    ∃ g1, afterLoop (MazeGenerator.new rows cols) s shuffle = some g1 ∧ g1.LoopInv [] ∧
      g1.rows = rows ∧ g1.cols = cols ∧ g1.start = s := by
  obtain ⟨inv, hm, h1, h2, h3⟩ := beforeLoop_inv rows cols s hs
  obtain ⟨g1, e, inv1, e1, e2, e3, _⟩ :=
    frontierLoop_spec shuffle hsh (4 * rows * cols).toNat 0 _ _ inv hm
  refine ⟨g1, ?_, inv1, e1.trans h1, e2.trans h2, e3.trans h3⟩
  unfold afterLoop
  exact e

/-- The end cell chosen by `setEnd` lies in the grid. -/
theorem end_valid (g1 : MazeGenerator) (rows cols : Int) (s : Int × Int)
    (hs : IsStartDraw rows cols s) (h1 : g1.rows = rows) (h2 : g1.cols = cols)
    (h3 : g1.start = s) :
    g1.isValidCell (g1.rows - 1 - g1.start.1) (g1.cols - 1 - g1.start.2) = true := by
  unfold IsStartDraw at hs
  rw [isValidCell_iff, h1, h2, h3]
  omega

/-- Walkability after `setEnd`: the end cell is added to the Open cells. -/
theorem isCellWalkable_setEnd (g1 : MazeGenerator) (hsz : g1.WellSized)
    (hv : g1.isValidCell (g1.rows - 1 - g1.start.1) (g1.cols - 1 - g1.start.2) = true)
    (x y : Int) :
    (setEnd g1).isCellWalkable x y =
      (decide (x = g1.rows - 1 - g1.start.1 ∧ y = g1.cols - 1 - g1.start.2) ||
        g1.isCellWalkable x y) :=
  isCellWalkable_setCell { g1 with end_ := (g1.rows - 1 - g1.start.1, g1.cols - 1 - g1.start.2) }
    hsz _ _ x y hv

end MazeGenerator

/-- C3 (start and end validity): after `generateMaze` on a fresh `rows` by
`cols` generator, whatever start cell is drawn and however the frontier is
shuffled, `getStart()` and `getEnd()` lie inside the grid and
`isCellWalkable` holds of both.  (A start cell can be drawn only when
`rows` and `cols` are at least one, so `IsStartDraw` carries that bound.) -/
theorem generateMaze_start_end_valid (rows cols : Int) (s : Int × Int)
    (shuffle : Nat → List (Int × Int) → List (Int × Int))
    (hs : IsStartDraw rows cols s) (hsh : IsShuffle shuffle) :
    ∃ g, MazeGenerator.generateMaze (MazeGenerator.new rows cols) s shuffle = some g ∧
      (0 ≤ g.getStart.1 ∧ g.getStart.1 < rows ∧ 0 ≤ g.getStart.2 ∧ g.getStart.2 < cols) ∧
      (0 ≤ g.getEnd.1 ∧ g.getEnd.1 < rows ∧ 0 ≤ g.getEnd.2 ∧ g.getEnd.2 < cols) ∧
      g.isCellWalkable g.getStart.1 g.getStart.2 = true ∧
      g.isCellWalkable g.getEnd.1 g.getEnd.2 = true := by
  obtain ⟨g1, e, inv, h1, h2, h3⟩ := MazeGenerator.afterLoop_spec rows cols s hs shuffle hsh
  have hv := MazeGenerator.end_valid g1 rows cols s hs h1 h2 h3
  have hw := MazeGenerator.isCellWalkable_setEnd g1 inv.sized hv
  refine ⟨MazeGenerator.setEnd g1, ?_, ?_, ?_, ?_, ?_⟩
  · unfold MazeGenerator.generateMaze
    rw [e]
    rfl
  · show 0 ≤ g1.start.1 ∧ g1.start.1 < rows ∧ 0 ≤ g1.start.2 ∧ g1.start.2 < cols
    rw [h3]
    exact hs
  · show 0 ≤ g1.rows - 1 - g1.start.1 ∧ g1.rows - 1 - g1.start.1 < rows ∧
      0 ≤ g1.cols - 1 - g1.start.2 ∧ g1.cols - 1 - g1.start.2 < cols
    rw [MazeGenerator.isValidCell_iff, h1, h2] at hv
    rw [h1, h2]
    exact hv
  · show (MazeGenerator.setEnd g1).isCellWalkable g1.start.1 g1.start.2 = true
    rw [hw, inv.startOpen]
    simp
  · show (MazeGenerator.setEnd g1).isCellWalkable (g1.rows - 1 - g1.start.1)
      (g1.cols - 1 - g1.start.2) = true
    rw [hw]
    simp

theorem isShuffle_id : IsShuffle (fun _ l => l) := fun _ l => List.Perm.refl l

/-- C3 applied to a 2 by 3 grid with start cell `(1, 2)` and the shuffle that
leaves the frontier in place. -/
theorem generateMaze_start_end_valid_witness :
    ∃ g, MazeGenerator.generateMaze (MazeGenerator.new 2 3) (1, 2) (fun _ l => l) = some g ∧
      (0 ≤ g.getStart.1 ∧ g.getStart.1 < 2 ∧ 0 ≤ g.getStart.2 ∧ g.getStart.2 < 3) ∧
      (0 ≤ g.getEnd.1 ∧ g.getEnd.1 < 2 ∧ 0 ≤ g.getEnd.2 ∧ g.getEnd.2 < 3) ∧
      g.isCellWalkable g.getStart.1 g.getStart.2 = true ∧
      g.isCellWalkable g.getEnd.1 g.getEnd.2 = true :=
  generateMaze_start_end_valid 2 3 (1, 2) (fun _ l => l)
    (by unfold IsStartDraw; decide) isShuffle_id

theorem reachable_walkable {w : Int → Int → Bool} {p q : Int × Int} (h : Reachable w p q) :
    q = p ∨ w q.1 q.2 = true := by
  unfold Reachable at h
  rcases Relation.ReflTransGen.cases_tail h with e | ⟨c, _, hc⟩
  · exact Or.inl e
  · exact Or.inr hc.2

/-- The last step of a path that moves at all. -/
theorem reachable_last_step {w : Int → Int → Bool} {p q : Int × Int} (h : Reachable w p q)
    (hne : q ≠ p) : ∃ c, (c = p ∨ w c.1 c.2 = true) ∧ Adjacent c q ∧ w q.1 q.2 = true := by
  unfold Reachable at h
  rcases Relation.ReflTransGen.cases_tail h with e | ⟨c, hc1, hc2⟩
  · exact absurd e hne
  · exact ⟨c, reachable_walkable hc1, hc2.1, hc2.2⟩

theorem adjacent_cases {c : Int × Int} {x y : Int} (h : Adjacent c (x, y)) :
    c = (x - 1, y) ∨ c = (x + 1, y) ∨ c = (x, y - 1) ∨ c = (x, y + 1) := by
  obtain ⟨a, b⟩ := c
  unfold Adjacent at h
  simp only [Prod.mk.injEq]
  simp only at h
  omega

theorem moveToBack_perm (i : Nat) (l : List (Int × Int)) : (moveToBack i l).Perm l := by
  unfold moveToBack
  induction l generalizing i with
  | nil => simp
  | cons a l ih =>
    cases i with
    | zero =>
      simp only [List.get?_cons_zero, List.eraseIdx_cons_zero]
      exact List.perm_append_singleton a l
    | succ i =>
      simp only [List.get?_cons_succ, List.eraseIdx_cons_succ]
      have := ih i
      cases h : l.get? i with
      | none => exact List.Perm.refl _
      | some x =>
        rw [h] at this
        simp only at this ⊢
        exact List.Perm.cons a this

theorem isShuffle_pickShuffle (picks : List Nat) : IsShuffle (pickShuffle picks) :=
  fun _ l => moveToBack_perm _ l

namespace MazeGenerator

theorem openNeighbours_pos_of_adjacent (g : MazeGenerator) (c : Int × Int) (x y : Int)
    (ha : Adjacent c (x, y)) (hw : g.isCellWalkable c.1 c.2 = true) :
    0 < g.openNeighbours x y := by
  rw [openNeighbours_eq]
  rcases adjacent_cases ha with rfl | rfl | rfl | rfl <;> simp only at hw <;>
    simp [hw, bit]

end MazeGenerator

/-- Reachability after `setEnd`, for a grid as the frontier loop leaves it:
an Open cell is reachable from the start exactly when it is not the end
cell, or has an Open neighbour, or is the start. -/
theorem setEnd_reachable (g1 : MazeGenerator) (inv : g1.LoopInv [])
    (hv : g1.isValidCell (g1.rows - 1 - g1.start.1) (g1.cols - 1 - g1.start.2) = true)
    (x y : Int) (hxy : (MazeGenerator.setEnd g1).isCellWalkable x y = true) :
    Reachable (MazeGenerator.setEnd g1).isCellWalkable (MazeGenerator.setEnd g1).getStart (x, y) ↔
      ((x, y) ≠ (MazeGenerator.setEnd g1).getEnd ∨
        0 < (MazeGenerator.setEnd g1).openNeighbours x y ∨
        (x, y) = (MazeGenerator.setEnd g1).getStart) := by
  have hw := MazeGenerator.isCellWalkable_setEnd g1 inv.sized hv
  have hmono : ∀ x y, g1.isCellWalkable x y = true →
      (MazeGenerator.setEnd g1).isCellWalkable x y = true := by
    intro x y hxy
    rw [hw, hxy]
    simp
  have hstart : (MazeGenerator.setEnd g1).getStart = g1.start := rfl
  have hend : (MazeGenerator.setEnd g1).getEnd =
      (g1.rows - 1 - g1.start.1, g1.cols - 1 - g1.start.2) := rfl
  -- every cell the loop opened stays reachable
  have hold : ∀ x y, g1.isCellWalkable x y = true →
      Reachable (MazeGenerator.setEnd g1).isCellWalkable g1.start (x, y) :=
    fun x y hxy => reachable_mono hmono (inv.connected x y hxy)
  rw [hstart, hend]
  constructor
  · intro hreach
    by_cases hst : (x, y) = g1.start
    · exact Or.inr (Or.inr hst)
    · obtain ⟨c, hc, hadj, _⟩ := reachable_last_step hreach hst
      have hcw : (MazeGenerator.setEnd g1).isCellWalkable c.1 c.2 = true := by
        rcases hc with rfl | hc
        · exact hmono _ _ inv.startOpen
        · exact hc
      exact Or.inr (Or.inl
        (MazeGenerator.openNeighbours_pos_of_adjacent _ c x y hadj hcw))
  · intro hcase
    have hxy2 := hxy
    rw [hw] at hxy2
    simp only [Bool.or_eq_true, decide_eq_true_eq] at hxy2
    rcases hcase with hne | hpos | hst
    · rcases hxy2 with ⟨rfl, rfl⟩ | hxy2
      · exact absurd rfl hne
      · exact hold x y hxy2
    · rcases hxy2 with ⟨rfl, rfl⟩ | hxy2
      · obtain ⟨p, hadj, hp⟩ := MazeGenerator.exists_open_neighbour _ _ _ hpos
        have hp1 : g1.isCellWalkable p.1 p.2 = true := by
          rw [hw] at hp
          simp only [Bool.or_eq_true, decide_eq_true_eq] at hp
          rcases hp with ⟨e1, e2⟩ | hp
          · exfalso
            unfold Adjacent at hadj
            rw [e1, e2] at hadj
            simp at hadj
          · exact hp
        exact reachable_step (hold p.1 p.2 hp1) hadj hxy
      · exact hold x y hxy2
    · rw [hst]
      exact Relation.ReflTransGen.refl

/-- C1, amended: after `generateMaze`, an Open cell is reachable from
`getStart()` through Open cells exactly when it is not an end cell that was
forced Open away from every Open cell: every Open cell other than
`getEnd()` is reachable, and `getEnd()` is reachable if and only if it has an
Open neighbour or is the start cell. -/
theorem generateMaze_open_cells_reachable (rows cols : Int) (s : Int × Int)
    (shuffle : Nat → List (Int × Int) → List (Int × Int))
    (hs : IsStartDraw rows cols s) (hsh : IsShuffle shuffle) :
    ∃ g, MazeGenerator.generateMaze (MazeGenerator.new rows cols) s shuffle = some g ∧
      ∀ x y, g.isCellWalkable x y = true →
        (Reachable g.isCellWalkable g.getStart (x, y) ↔
          ((x, y) ≠ g.getEnd ∨ 0 < g.openNeighbours x y ∨ (x, y) = g.getStart)) := by
  obtain ⟨g1, e, inv, h1, h2, h3⟩ := MazeGenerator.afterLoop_spec rows cols s hs shuffle hsh
  have hv := MazeGenerator.end_valid g1 rows cols s hs h1 h2 h3
  refine ⟨MazeGenerator.setEnd g1, ?_, fun x y hxy => setEnd_reachable g1 inv hv x y hxy⟩
  unfold MazeGenerator.generateMaze
  rw [e]
  rfl

/-- C1 amended, applied to a 2 by 3 grid with start cell `(1, 2)` and the
shuffle that leaves the frontier in place. -/
theorem generateMaze_open_cells_reachable_witness :
    ∃ g, MazeGenerator.generateMaze (MazeGenerator.new 2 3) (1, 2) (fun _ l => l) = some g ∧
      ∀ x y, g.isCellWalkable x y = true →
        (Reachable g.isCellWalkable g.getStart (x, y) ↔
          ((x, y) ≠ g.getEnd ∨ 0 < g.openNeighbours x y ∨ (x, y) = g.getStart)) :=
  generateMaze_open_cells_reachable 2 3 (1, 2) (fun _ l => l)
    (by unfold IsStartDraw; decide) isShuffle_id

set_option maxRecDepth 100000 in
theorem generateMaze_isolatedEnd :
    MazeGenerator.generateMaze (MazeGenerator.new 3 4) (2, 0) (pickShuffle isolatedEndPicks) =
      some isolatedEndMaze := by
  decide!

/-- C1 fails as stated: on a 3 by 4 grid with start cell `(2, 0)` there is an
order of frontier pops after which the loop has opened neither the end cell
`(0, 3)` nor its neighbours `(0, 2)` and `(1, 3)`; the end cell is then forced
Open and is an Open cell that cannot be reached from `getStart()`. -/
theorem generateMaze_open_cells_not_connected :
    IsStartDraw 3 4 (2, 0) ∧ IsShuffle (pickShuffle isolatedEndPicks) ∧
    ∃ g, MazeGenerator.generateMaze (MazeGenerator.new 3 4) (2, 0)
        (pickShuffle isolatedEndPicks) = some g ∧
      g.isCellWalkable 0 3 = true ∧ ¬ Reachable g.isCellWalkable g.getStart (0, 3) := by
  refine ⟨by unfold IsStartDraw; decide, isShuffle_pickShuffle _, isolatedEndMaze,
    generateMaze_isolatedEnd, by decide, ?_⟩
  intro h
  obtain ⟨c, hc, hadj, _⟩ := reachable_last_step h (by decide)
  have hcw : isolatedEndMaze.isCellWalkable c.1 c.2 = true := by
    rcases hc with rfl | hc
    · decide
    · exact hc
  rcases adjacent_cases hadj with rfl | rfl | rfl | rfl <;> revert hcw <;> decide

set_option maxRecDepth 100000 in
theorem generateMaze_cycle :
    MazeGenerator.generateMaze (MazeGenerator.new 2 2) (0, 0) (pickShuffle cyclePicks) =
      some cycleMaze := by
  decide!

/-- C2 fails as stated: on a 2 by 2 grid with start cell `(0, 0)`, when the
loop opens `(0, 1)` and `(1, 0)` it cannot open the end cell `(1, 1)`, which
has two Open neighbours; forcing it Open leaves four Open cells with four
adjacent pairs, a cycle. -/
theorem generateMaze_open_pairs_not_tree :
    IsStartDraw 2 2 (0, 0) ∧ IsShuffle (pickShuffle cyclePicks) ∧
    ∃ g, MazeGenerator.generateMaze (MazeGenerator.new 2 2) (0, 0)
        (pickShuffle cyclePicks) = some g ∧
      openCount g = 4 ∧ openPairs g = 4 ∧ openPairs g ≠ openCount g - 1 :=
  ⟨by unfold IsStartDraw; decide, isShuffle_pickShuffle _, cycleMaze, generateMaze_cycle,
    by decide, by decide, by decide⟩

/-- C2, amended: after `generateMaze` the number of 4-adjacent pairs of
Open cells is (number of Open cells - 1) exactly when the frontier loop
itself opened the end cell.  When the loop left the end cell a wall, forcing
it Open adds one Open cell and as many pairs as it has Open neighbours, and
that number is never one. -/
theorem generateMaze_open_pairs (rows cols : Int) (s : Int × Int)
    (shuffle : Nat → List (Int × Int) → List (Int × Int))
    (hs : IsStartDraw rows cols s) (hsh : IsShuffle shuffle) :
    ∃ g1 g, MazeGenerator.afterLoop (MazeGenerator.new rows cols) s shuffle = some g1 ∧
      MazeGenerator.generateMaze (MazeGenerator.new rows cols) s shuffle = some g ∧
      (openPairs g + 1 = openCount g ↔ g1.isCellWalkable g.getEnd.1 g.getEnd.2 = true) ∧
      (g1.isCellWalkable g.getEnd.1 g.getEnd.2 = false →
        openPairs g + 2 = openCount g + g.openNeighbours g.getEnd.1 g.getEnd.2 ∧
        g.openNeighbours g.getEnd.1 g.getEnd.2 ≠ 1) := by
  obtain ⟨g1, e, inv, h1, h2, h3⟩ := MazeGenerator.afterLoop_spec rows cols s hs shuffle hsh
  have hv := MazeGenerator.end_valid g1 rows cols s hs h1 h2 h3
  have hw := MazeGenerator.isCellWalkable_setEnd g1 inv.sized hv
  have hend : (MazeGenerator.setEnd g1).getEnd =
      (g1.rows - 1 - g1.start.1, g1.cols - 1 - g1.start.2) := rfl
  refine ⟨g1, MazeGenerator.setEnd g1, e, ?_, ?_⟩
  · unfold MazeGenerator.generateMaze
    rw [e]
    rfl
  rw [hend]
  simp only
  set er := g1.rows - 1 - g1.start.1 with her
  set ec := g1.cols - 1 - g1.start.2 with hec
  by_cases hopen : g1.isCellWalkable er ec = true
  · -- the loop opened the end cell: `setEnd` changes no cell
    have hsame : ∀ x y, (MazeGenerator.setEnd g1).isCellWalkable x y = g1.isCellWalkable x y := by
      intro x y
      rw [hw]
      by_cases hxy : x = er ∧ y = ec
      · rw [hxy.1, hxy.2, hopen]
        simp
      · simp [hxy]
    obtain ⟨c1, c2, _⟩ := MazeGenerator.counts_congr (MazeGenerator.setEnd g1) g1 rfl rfl hsame
    rw [c1, c2]
    refine ⟨⟨fun _ => hopen, fun _ => inv.tree⟩, ?_⟩
    intro hf
    rw [hopen] at hf
    exact absurd hf (by decide)
  · -- the loop left the end cell a wall
    simp only [Bool.not_eq_true] at hopen
    have hcell : g1.cell er ec = 1 := by
      rcases inv.binary er ec hv with h0 | h1
      · exfalso
        have : g1.isCellWalkable er ec = true := by
          simp [MazeGenerator.isCellWalkable, hv, h0]
        rw [hopen] at this
        exact absurd this (by decide)
      · exact h1
    have hcount : openCount (MazeGenerator.setEnd g1) = openCount g1 + 1 :=
      MazeGenerator.openCount_setCell
        { g1 with end_ := (g1.rows - 1 - g1.start.1, g1.cols - 1 - g1.start.2) }
        inv.sized er ec hv hopen
    have hpairs : openPairs (MazeGenerator.setEnd g1) = openPairs g1 + g1.openNeighbours er ec :=
      MazeGenerator.openPairs_setCell
        { g1 with end_ := (g1.rows - 1 - g1.start.1, g1.cols - 1 - g1.start.2) }
        inv.sized er ec hv hopen
    have hnb : (MazeGenerator.setEnd g1).openNeighbours er ec = g1.openNeighbours er ec := by
      have := MazeGenerator.openNeighbours_setCell
        { g1 with end_ := (g1.rows - 1 - g1.start.1, g1.cols - 1 - g1.start.2) }
        inv.sized er ec er ec hv hopen
      have hself : (er, ec) ∉ neighbours er ec := not_mem_neighbours_self er ec
      simp only [hself, decide_False, bit] at this
      exact this
    have hne1 : g1.openNeighbours er ec ≠ 1 := by
      intro h
      have := inv.frontierFull er ec hv hcell h
      simp at this
    have htree := inv.tree
    rw [hcount, hpairs, hnb]
    refine ⟨⟨fun h => ?_, fun h => ?_⟩, fun _ => ⟨by omega, hne1⟩⟩
    · exfalso
      omega
    · rw [hopen] at h
      exact absurd h (by decide)

/-- C2 amended, applied to a 2 by 3 grid with start cell `(1, 2)` and the
shuffle that leaves the frontier in place. -/
theorem generateMaze_open_pairs_witness :
    ∃ g1 g, MazeGenerator.afterLoop (MazeGenerator.new 2 3) (1, 2) (fun _ l => l) = some g1 ∧
      MazeGenerator.generateMaze (MazeGenerator.new 2 3) (1, 2) (fun _ l => l) = some g ∧
      (openPairs g + 1 = openCount g ↔ g1.isCellWalkable g.getEnd.1 g.getEnd.2 = true) ∧
      (g1.isCellWalkable g.getEnd.1 g.getEnd.2 = false →
        openPairs g + 2 = openCount g + g.openNeighbours g.getEnd.1 g.getEnd.2 ∧
        g.openNeighbours g.getEnd.1 g.getEnd.2 ≠ 1) :=
  generateMaze_open_pairs 2 3 (1, 2) (fun _ l => l)
    (by unfold IsStartDraw; decide) isShuffle_id

/-! ## The search: cells, queue, one relaxation -/

theorem inGrid_iff_mem_cells {R C : Int} {p : Int × Int} : InGrid R C p ↔ p ∈ cells R C :=
  mem_cells.symm

theorem gridSized_set2 {R C : Int} {grid : List (List Cell)} (h : GridSized R C grid)
    (r c : Int) (v : Cell) : GridSized R C (set2 grid r c v) := by
  refine ⟨by rw [length_set2]; exact h.1, ?_⟩
  intro i hi
  rw [length_row_set2]
  exact h.2 i hi

theorem deref_set2 {R C : Int} {grid : List (List Cell)} (h : GridSized R C grid)
    {n p : Int × Int} (hn : InGrid R C n) (hp : InGrid R C p) (v : Cell) :
    deref (set2 grid n.1 n.2 v) p = if p = n then v else deref grid p := by
  unfold InGrid at hn hp
  unfold deref
  have h1 := h.1
  have h2 := h.2 n.1.toNat (by omega)
  rw [get2_set2 _ _ _ _ _ _ _ hn.1 hn.2.2.1 hp.1 hp.2.2.1 (by omega) (by omega)]
  obtain ⟨a, b⟩ := p
  obtain ⟨c, d⟩ := n
  simp only [Prod.mk.injEq]

theorem gridSized_cells {R C : Int} {grid : List (List Cell)} (h : GridSized R C grid)
    (hR : 0 < R) : cells grid.length (grid.getD 0 []).length = cells R C := by
  have h2 := h.2 0 (by simpa using hR)
  rw [h.1, h2]

theorem heuristic_eq (a b : Cell) : heuristic a b = manhattan (a.x, a.y) (b.x, b.y) := rfl

theorem manhattan_self (p : Int × Int) : manhattan p p = 0 := by
  simp [manhattan]

theorem adjacent_of_direction {p dir : Int × Int} (h : dir ∈ searchDirections) :
    Adjacent p (p.1 + dir.1, p.2 + dir.2) := by
  obtain ⟨a, b⟩ := dir
  simp only [searchDirections, List.mem_cons, Prod.mk.injEq, List.mem_singleton,
    List.not_mem_nil, or_false] at h
  unfold Adjacent
  simp only
  omega

theorem direction_of_adjacent {p n : Int × Int} (h : Adjacent p n) :
    ∃ dir ∈ searchDirections, n = (p.1 + dir.1, p.2 + dir.2) := by
  obtain ⟨a, b⟩ := p
  obtain ⟨c, d⟩ := n
  unfold Adjacent at h
  simp only at h
  have : (c = a ∧ d = b - 1) ∨ (c = a ∧ d = b + 1) ∨ (c = a - 1 ∧ d = b) ∨
      (c = a + 1 ∧ d = b) := by omega
  rcases this with ⟨rfl, rfl⟩ | ⟨rfl, rfl⟩ | ⟨rfl, rfl⟩ | ⟨rfl, rfl⟩
  · exact ⟨(0, -1), by simp [searchDirections], by simp; omega⟩
  · exact ⟨(0, 1), by simp [searchDirections], by simp⟩
  · exact ⟨(-1, 0), by simp [searchDirections], by simp; omega⟩
  · exact ⟨(1, 0), by simp [searchDirections], by simp⟩

theorem adjacent_ne {p q : Int × Int} (h : Adjacent p q) : p ≠ q := by
  rintro rfl
  simp [Adjacent] at h

theorem inGrid_pos {R C : Int} {p : Int × Int} (h : InGrid R C p) : 0 < R ∧ 0 < C := by
  unfold InGrid at h
  omega

theorem gridSized_updateNeighbor {R C : Int} {grid : List (List Cell)} (h : GridSized R C grid)
    (end_ cur n : Int × Int) (t : Int) : GridSized R C (updateNeighbor grid end_ cur n t) := by
  unfold updateNeighbor
  exact gridSized_set2 (gridSized_set2 (gridSized_set2 h _ _ _) _ _ _) _ _ _

/-- The grid after the three assignments of a relaxation. -/
theorem deref_updateNeighbor {R C : Int} {grid : List (List Cell)} (h : GridSized R C grid)
    {end_ cur n p : Int × Int} (hn : InGrid R C n) (hp : InGrid R C p) (he : InGrid R C end_)
    (hxy : ∀ q, InGrid R C q → (deref grid q).x = q.1 ∧ (deref grid q).y = q.2) :
    deref (updateNeighbor grid end_ cur n ((deref grid cur).g + 1)) p =
      if p = n then relaxedCell grid end_ cur n else deref grid p := by
  unfold updateNeighbor
  simp only
  have h1 := gridSized_set2 h n.1 n.2 { deref grid n with parent := some cur }
  have d1 : ∀ q, InGrid R C q →
      deref (set2 grid n.1 n.2 { deref grid n with parent := some cur }) q =
        if q = n then { deref grid n with parent := some cur } else deref grid q :=
    fun q hq => deref_set2 h hn hq _
  rw [d1 n hn, if_pos rfl]
  have h2 := gridSized_set2 h1 n.1 n.2
    { deref grid n with parent := some cur, g := (deref grid cur).g + 1 }
  have d2 : ∀ q, InGrid R C q →
      deref (set2 (set2 grid n.1 n.2 { deref grid n with parent := some cur }) n.1 n.2
          { deref grid n with parent := some cur, g := (deref grid cur).g + 1 }) q =
        if q = n then { deref grid n with parent := some cur, g := (deref grid cur).g + 1 }
        else deref grid q := by
    intro q hq
    rw [deref_set2 h1 hn hq, d1 q hq]
    split_ifs <;> rfl
  rw [d2 n hn, if_pos rfl, d2 end_ he, deref_set2 h2 hn hp, d2 p hp]
  by_cases hpn : p = n
  · rw [if_pos hpn, if_pos hpn]
    unfold relaxedCell
    congr 1
    rw [heuristic_eq]
    obtain ⟨nx, ny⟩ := hxy n hn
    by_cases hen : end_ = n
    · rw [if_pos hen]
      simp only [nx, ny]
      rw [hen]
    · rw [if_neg hen]
      obtain ⟨ex, ey⟩ := hxy end_ he
      simp only [nx, ny, ex, ey]
  · simp only [hpn, if_false]

/-- What one pass of the direction loop does: nothing, for one of four
reasons, or a push of the neighbour. -/
theorem relax_effect {R C : Int} {walk : Int → Int → Bool} {start end_ : Int × Int}
    {s : SearchState} (inv : SearchInv R C walk start end_ s) {cur dir : Int × Int}
    (hcur : InGrid R C cur) (hd : dir ∈ searchDirections) :
    (relax end_ cur s dir = s ∧
      (¬ InGrid R C (cur.1 + dir.1, cur.2 + dir.2) ∨
        walk (cur.1 + dir.1) (cur.2 + dir.2) = false ∨
        (cur.1 + dir.1, cur.2 + dir.2) ∈ s.open_set_items ∨
        (deref s.grid (cur.1 + dir.1, cur.2 + dir.2)).g ≤ (deref s.grid cur).g + 1)) ∨
    Pushed R C walk end_ cur (cur.1 + dir.1, cur.2 + dir.2) s (relax end_ cur s dir) := by
  obtain ⟨hx, hy, _⟩ := inv.static cur hcur
  have hpos := inGrid_pos hcur
  have hlen := inv.sized.1
  have hrow := inv.sized.2 0 (by simpa using hpos.1)
  unfold relax
  simp only [hx, hy]
  by_cases hin : InGrid R C (cur.1 + dir.1, cur.2 + dir.2)
  · have hcond : cur.1 + dir.1 ≥ 0 ∧ cur.1 + dir.1 < (s.grid.length : Int) ∧
        cur.2 + dir.2 ≥ 0 ∧ cur.2 + dir.2 < ((s.grid.getD 0 []).length : Int) := by
      unfold InGrid at hin
      simp only at hin
      omega
    rw [if_pos hcond]
    obtain ⟨nx, ny, nw⟩ := inv.static _ hin
    simp only at nx ny nw
    by_cases hw : walk (cur.1 + dir.1) (cur.2 + dir.2) = true
    · by_cases hm : (cur.1 + dir.1, cur.2 + dir.2) ∈ s.open_set_items
      · left
        refine ⟨?_, Or.inr (Or.inr (Or.inl hm))⟩
        simp [hm]
      · have hguard : ¬ ((!(deref s.grid (cur.1 + dir.1, cur.2 + dir.2)).walkable ||
            s.open_set_items.contains (cur.1 + dir.1, cur.2 + dir.2)) = true) := by
          simp [nw, hw, hm]
        rw [if_neg hguard]
        by_cases hb : (deref s.grid cur).g + 1 < (deref s.grid (cur.1 + dir.1, cur.2 + dir.2)).g
        · right
          rw [if_pos hb]
          exact
            { inGrid := hin
              adjacent := adjacent_of_direction hd
              walkable := hw
              notPending := hm
              better := hb
              sized := gridSized_updateNeighbor inv.sized _ _ _ _
              grid := fun p hp =>
                deref_updateNeighbor inv.sized hin hp inv.endIn
                  (fun q hq => ⟨(inv.static q hq).1, (inv.static q hq).2.1⟩)
              queue := rfl
              items := rfl }
        · left
          rw [if_neg hb]
          exact ⟨rfl, Or.inr (Or.inr (Or.inr (by omega)))⟩
    · left
      simp only [Bool.not_eq_true] at hw
      refine ⟨?_, Or.inr (Or.inl hw)⟩
      simp [nw, hw]
  · have hcond : ¬ (cur.1 + dir.1 ≥ 0 ∧ cur.1 + dir.1 < (s.grid.length : Int) ∧
        cur.2 + dir.2 ≥ 0 ∧ cur.2 + dir.2 < ((s.grid.getD 0 []).length : Int)) := by
      unfold InGrid at hin
      simp only at hin
      omega
    rw [if_neg hcond]
    exact Or.inl ⟨rfl, Or.inl hin⟩

theorem relaxedCell_fields (grid : List (List Cell)) (end_ cur n : Int × Int) :
    (relaxedCell grid end_ cur n).x = (deref grid n).x ∧
    (relaxedCell grid end_ cur n).y = (deref grid n).y ∧
    (relaxedCell grid end_ cur n).walkable = (deref grid n).walkable ∧
    (relaxedCell grid end_ cur n).parent = some cur ∧
    (relaxedCell grid end_ cur n).g = (deref grid cur).g + 1 ∧
    (relaxedCell grid end_ cur n).h = manhattan n end_ :=
  ⟨rfl, rfl, rfl, rfl, rfl, rfl⟩

/-- A push changes the `g` of the pushed cell only, and lowers it. -/
theorem Pushed.g_eq {R C : Int} {walk : Int → Int → Bool} {end_ cur n : Int × Int}
    {s t : SearchState} (hp : Pushed R C walk end_ cur n s t) {p : Int × Int}
    (hin : InGrid R C p) :
    (deref t.grid p).g = if p = n then (deref s.grid cur).g + 1 else (deref s.grid p).g := by
  rw [hp.grid p hin]
  split_ifs <;> rfl

theorem Pushed.g_le {R C : Int} {walk : Int → Int → Bool} {end_ cur n : Int × Int}
    {s t : SearchState} (hp : Pushed R C walk end_ cur n s t) {p : Int × Int}
    (hin : InGrid R C p) : (deref t.grid p).g ≤ (deref s.grid p).g := by
  rw [hp.g_eq hin]
  split_ifs with h
  · have := hp.better
    rw [h]
    omega
  · exact le_refl _

theorem Pushed.mem_queue {R C : Int} {walk : Int → Int → Bool} {end_ cur n : Int × Int}
    {s t : SearchState} (hp : Pushed R C walk end_ cur n s t) (p : Int × Int) :
    p ∈ t.open_set ↔ p ∈ s.open_set ∨ p = n := by
  rw [hp.queue]
  simp

/-- The invariant survives a push from a cell `cur` of the grid whose `g` is
set. -/
theorem SearchInv.pushed {R C : Int} {walk : Int → Int → Bool} {start end_ cur n : Int × Int}
    {s t : SearchState} (inv : SearchInv R C walk start end_ s)
    (hp : Pushed R C walk end_ cur n s t) (hcur : InGrid R C cur)
    (hg : (deref s.grid cur).g < INT_MAX) : SearchInv R C walk start end_ t := by
  have hnq : n ∉ s.open_set := fun h => hp.notPending ((inv.items n).2 h)
  have hcn : cur ≠ n := adjacent_ne hp.adjacent
  have hgc := inv.grange cur hcur
  have hgn := inv.grange n hp.inGrid
  have hbet := hp.better
  have hns : n ≠ start := by
    rintro rfl
    rw [inv.startG.1] at hbet
    omega
  have hsame : ∀ p, InGrid R C p → p ≠ n → deref t.grid p = deref s.grid p := by
    intro p hin hne
    rw [hp.grid p hin, if_neg hne]
  have hnew : deref t.grid n = relaxedCell s.grid end_ cur n := by
    rw [hp.grid n hp.inGrid, if_pos rfl]
  obtain ⟨f1, f2, f3, f4, f5, f6⟩ := relaxedCell_fields s.grid end_ cur n
  refine
    { sized := hp.sized
      startIn := inv.startIn
      endIn := inv.endIn
      static := ?_
      items := ?_
      nodup := ?_
      nodupItems := ?_
      pending := ?_
      grange := ?_
      startG := ?_
      parentOf := ?_
      reach := ?_
      hval := ?_
      endPending := ?_ }
  · intro p hin
    by_cases hpn : p = n
    · subst hpn
      rw [hnew, f1, f2, f3]
      exact inv.static p hin
    · rw [hsame p hin hpn]
      exact inv.static p hin
  · intro p
    rw [hp.items, hp.queue, List.mem_insert_iff, List.mem_append, List.mem_singleton, inv.items p]
    exact or_comm
  · rw [hp.queue]
    refine List.Nodup.append inv.nodup (List.nodup_singleton n) ?_
    intro a ha hb
    rw [List.mem_singleton] at hb
    exact hnq (hb ▸ ha)
  · rw [hp.items, List.insert_of_not_mem hp.notPending]
    exact List.nodup_cons.2 ⟨hp.notPending, inv.nodupItems⟩
  · intro p hpq
    rcases (hp.mem_queue p).1 hpq with h | h
    · have := inv.pending p h
      refine ⟨this.1, lt_of_le_of_lt (hp.g_le this.1) this.2⟩
    · subst h
      refine ⟨hp.inGrid, ?_⟩
      rw [hnew, f5]
      omega
  · intro p hin
    by_cases hpn : p = n
    · subst hpn
      rw [hnew, f5]
      omega
    · rw [hsame p hin hpn]
      exact inv.grange p hin
  · rw [hsame start inv.startIn (fun e => hns e.symm)]
    exact inv.startG
  · intro p hin hne hset
    by_cases hpn : p = n
    · subst hpn
      refine ⟨hp.walkable, cur, ?_, hcur, hp.adjacent, ?_⟩
      · rw [hnew, f4]
      · rw [hsame cur hcur hcn, hnew, f5]
        omega
    · rw [hsame p hin hpn] at hset ⊢
      obtain ⟨hw, q, hq1, hq2, hq3, hq4⟩ := inv.parentOf p hin hne hset
      exact ⟨hw, q, hq1, hq2, hq3, lt_of_le_of_lt (hp.g_le hq2) hq4⟩
  · intro p hin hset
    by_cases hpn : p = n
    · subst hpn
      refine reachable_step (inv.reach cur hcur hg) hp.adjacent ?_
      have := hp.inGrid
      unfold InGrid at this
      simp [walkableIn, hp.walkable, this]
    · rw [hsame p hin hpn] at hset
      exact inv.reach p hin hset
  · intro p hin hset
    by_cases hpn : p = n
    · subst hpn
      rw [hnew, f6]
    · rw [hsame p hin hpn] at hset ⊢
      exact inv.hval p hin hset
  · intro hset
    rw [hp.mem_queue]
    by_cases hen : end_ = n
    · exact Or.inr hen
    · rw [hsame end_ inv.endIn hen] at hset
      exact Or.inl (inv.endPending hset)

/-- The invariant survives the pop of a cell other than the end. -/
theorem SearchInv.pop_inv {R C : Int} {walk : Int → Int → Bool} {start end_ cur : Int × Int}
    {s : SearchState} (inv : SearchInv R C walk start end_ s) (hne : cur ≠ end_) :
    SearchInv R C walk start end_ (popCurrent cur s) :=
  { sized := inv.sized
    startIn := inv.startIn
    endIn := inv.endIn
    static := inv.static
    items := fun p => by
      show p ∈ s.open_set_items.erase cur ↔ p ∈ s.open_set.erase cur
      rw [inv.nodupItems.mem_erase_iff, inv.nodup.mem_erase_iff, inv.items p]
    nodup := inv.nodup.erase cur
    nodupItems := inv.nodupItems.erase cur
    pending := fun p hp => inv.pending p (List.mem_of_mem_erase hp)
    grange := inv.grange
    startG := inv.startG
    parentOf := inv.parentOf
    reach := inv.reach
    hval := inv.hval
    endPending := fun h => by
      show end_ ∈ s.open_set.erase cur
      rw [inv.nodup.mem_erase_iff]
      exact ⟨fun e => hne e.symm, inv.endPending h⟩ }

theorem not_mem_pop {R C : Int} {walk : Int → Int → Bool} {start end_ : Int × Int}
    {s : SearchState} (inv : SearchInv R C walk start end_ s) (cur : Int × Int) :
    cur ∉ (popCurrent cur s).open_set := by
  show cur ∉ s.open_set.erase cur
  rw [inv.nodup.mem_erase_iff]
  exact fun h => h.1 rfl

theorem searchMeasure_pop (s : SearchState) {cur : Int × Int} (h : cur ∈ s.open_set) :
    searchMeasure (popCurrent cur s) + 1 = searchMeasure s := by
  unfold searchMeasure popCurrent
  simp only
  rw [List.length_erase_of_mem h]
  have : 0 < s.open_set.length := List.length_pos_of_mem h
  omega

theorem searchMeasure_pushed {R C : Int} {walk : Int → Int → Bool} {start end_ cur n : Int × Int}
    {s t : SearchState} (inv : SearchInv R C walk start end_ s)
    (hp : Pushed R C walk end_ cur n s t) (hcur : InGrid R C cur) :
    searchMeasure t + 1 ≤ searchMeasure s := by
  unfold searchMeasure gSum
  have hpos := inGrid_pos hcur
  rw [gridSized_cells hp.sized hpos.1, gridSized_cells inv.sized hpos.1, hp.queue]
  have hsum := sum_map_update (cells R C) (nodup_cells R C) n
    (inGrid_iff_mem_cells.1 hp.inGrid)
    (fun p => (deref s.grid p).g.toNat) (fun p => (deref t.grid p).g.toNat)
    (by
      intro y hy hne
      simp only
      rw [hp.grid y (inGrid_iff_mem_cells.2 hy), if_neg hne])
  simp only at hsum
  have hgc := inv.grange cur hcur
  have hgn := inv.grange n hp.inGrid
  have hbet := hp.better
  have hnew : (deref t.grid n).g = (deref s.grid cur).g + 1 := by
    rw [hp.g_eq hp.inGrid, if_pos rfl]
  rw [hnew] at hsum
  simp only [List.length_append, List.length_singleton]
  omega

/-! ## The search: the queue, one expansion, the loop -/

theorem exists_min_entry (f : Int × Int → Int) :
    ∀ l : List (Int × Int), l ≠ [] → ∃ p ∈ l, ∀ q ∈ l, f p ≤ f q := by
  intro l
  induction l with
  | nil => intro h; exact absurd rfl h
  | cons a l ih =>
    intro _
    by_cases hl : l = []
    · subst hl
      exact ⟨a, List.mem_cons_self _ _, fun q hq => by
        rw [List.mem_singleton] at hq
        rw [hq]⟩
    · obtain ⟨p, hp, hmin⟩ := ih hl
      by_cases hap : f a ≤ f p
      · refine ⟨a, List.mem_cons_self _ _, fun q hq => ?_⟩
        rcases List.mem_cons.1 hq with e | e
        · rw [e]
        · exact le_trans hap (hmin q e)
      · refine ⟨p, List.mem_cons_of_mem _ hp, fun q hq => ?_⟩
        rcases List.mem_cons.1 hq with e | e
        · rw [e]; omega
        · exact hmin q e

theorem mem_minEntries {grid : List (List Cell)} {open_set : List (Int × Int)} {p : Int × Int} :
    p ∈ minEntries grid open_set ↔
      p ∈ open_set ∧ ∀ q ∈ open_set, (deref grid p).f ≤ (deref grid q).f := by
  simp [minEntries, List.mem_filter, List.all_eq_true]

/-- The popped entry is in the queue and no entry has a smaller `f`. -/
theorem top_spec (tie : Nat → Nat) (k : Nat) (grid : List (List Cell))
    (open_set : List (Int × Int)) (h : open_set ≠ []) :
    top tie k grid open_set ∈ open_set ∧
      ∀ q ∈ open_set, (deref grid (top tie k grid open_set)).f ≤ (deref grid q).f := by
  obtain ⟨p, hp, hmin⟩ := exists_min_entry (fun p => (deref grid p).f) open_set h
  have hpm : p ∈ minEntries grid open_set := mem_minEntries.2 ⟨hp, hmin⟩
  have hlen : 0 < (minEntries grid open_set).length := List.length_pos_of_mem hpm
  have hidx : tie k % (minEntries grid open_set).length < (minEntries grid open_set).length :=
    Nat.mod_lt _ hlen
  have htop : top tie k grid open_set ∈ minEntries grid open_set := by
    unfold top
    rw [List.getD_eq_getElem _ _ hidx]
    exact List.getElem_mem _
  exact mem_minEntries.1 htop

/-- A property kept by every pass of the direction loop is kept by the whole
loop. -/
theorem expand_induction (end_ cur : Int × Int) (Q : SearchState → Prop)
    (h : ∀ s dir, dir ∈ searchDirections → Q s → Q (relax end_ cur s dir))
    (s : SearchState) (hs : Q s) : Q (expand end_ cur s) := by
  unfold expand
  have key : ∀ ds : List (Int × Int), (∀ d ∈ ds, d ∈ searchDirections) →
      ∀ s, Q s → Q (ds.foldl (relax end_ cur) s) := by
    intro ds
    induction ds with
    | nil => intro _ s hs; exact hs
    | cons d ds ih =>
      intro hsub s hs
      rw [List.foldl_cons]
      exact ih (fun e he => hsub e (List.mem_cons_of_mem _ he)) _
        (h s d (hsub d (List.mem_cons_self _ _)) hs)
  exact key searchDirections (fun d hd => hd) s hs

/-- The loop of `a_star_search` ends, either with an empty queue or with the
pop of the end cell, and a property kept by every round holds then. -/
theorem searchLoop_rule (tie : Nat → Nat) (end_ : Int × Int) (P : SearchState → Prop)
    (hstep : ∀ s k, P s → s.open_set ≠ [] → top tie k s.grid s.open_set ≠ end_ →
      P (expand end_ (top tie k s.grid s.open_set) (popCurrent (top tie k s.grid s.open_set) s)) ∧
      searchMeasure
        (expand end_ (top tie k s.grid s.open_set) (popCurrent (top tie k s.grid s.open_set) s))
        < searchMeasure s) :
    ∀ (fuel k : Nat) (s : SearchState), P s → searchMeasure s ≤ fuel →
      (∃ s2, P s2 ∧ s2.open_set = [] ∧ searchLoop tie end_ fuel k s = some ([], s2.grid)) ∨
      (∃ s2 k2, P s2 ∧ s2.open_set ≠ [] ∧ top tie k2 s2.grid s2.open_set = end_ ∧
        searchLoop tie end_ fuel k s =
          (reconstruct_path s2.grid end_).map fun path => (path, s2.grid)) := by
  intro fuel
  induction fuel with
  | zero =>
    intro k s hP hm
    have hq : s.open_set = [] := by
      unfold searchMeasure at hm
      exact List.length_eq_zero.1 (by omega)
    exact Or.inl ⟨s, hP, hq, by rw [searchLoop]; simp [hq]⟩
  | succ fuel ih =>
    intro k s hP hm
    by_cases hq : s.open_set = []
    · exact Or.inl ⟨s, hP, hq, by rw [searchLoop]; simp [hq]⟩
    · have hemp : s.open_set.isEmpty = false := by
        cases h : s.open_set with
        | nil => exact absurd h hq
        | cons a l => rfl
      rw [searchLoop]
      simp only [hemp, Bool.false_eq_true, if_false]
      by_cases he : top tie k s.grid s.open_set = end_
      · rw [if_pos he]
        exact Or.inr ⟨s, k, hP, hq, he, rfl⟩
      · rw [if_neg he]
        obtain ⟨hP2, hm2⟩ := hstep s k hP hq he
        exact ih (k + 1) _ hP2 (by omega)

theorem MidInv.relax_mid {R C : Int} {walk : Int → Int → Bool} {start end_ cur : Int × Int}
    {s : SearchState} (h : MidInv R C walk start end_ cur s) {dir : Int × Int}
    (hd : dir ∈ searchDirections) :
    MidInv R C walk start end_ cur (relax end_ cur s dir) ∧
      searchMeasure (relax end_ cur s dir) ≤ searchMeasure s := by
  obtain ⟨inv, hcur, hg, hnq⟩ := h
  rcases relax_effect inv hcur hd with ⟨e, _⟩ | hp
  · rw [e]
    exact ⟨⟨inv, hcur, hg, hnq⟩, le_refl _⟩
  · refine ⟨⟨inv.pushed hp hcur hg, hcur, lt_of_le_of_lt (hp.g_le hcur) hg, ?_⟩, ?_⟩
    · rw [hp.mem_queue]
      rintro (h | h)
      · exact hnq h
      · exact adjacent_ne hp.adjacent h
    · have := searchMeasure_pushed inv hp hcur
      omega

theorem MidInv.after_pop {R C : Int} {walk : Int → Int → Bool} {start end_ cur : Int × Int}
    {s : SearchState} (inv : SearchInv R C walk start end_ s) (hq : cur ∈ s.open_set)
    (hne : cur ≠ end_) : MidInv R C walk start end_ cur (popCurrent cur s) :=
  ⟨inv.pop_inv hne, (inv.pending cur hq).1, (inv.pending cur hq).2, not_mem_pop inv cur⟩

/-- One round of the loop keeps the invariant and lowers the measure. -/
theorem SearchInv.round {R C : Int} {walk : Int → Int → Bool} {start end_ cur : Int × Int}
    {s : SearchState} (inv : SearchInv R C walk start end_ s) (hq : cur ∈ s.open_set)
    (hne : cur ≠ end_) :
    MidInv R C walk start end_ cur (expand end_ cur (popCurrent cur s)) ∧
      searchMeasure (expand end_ cur (popCurrent cur s)) < searchMeasure s := by
  have hm := searchMeasure_pop s hq
  have := expand_induction end_ cur
    (fun t => MidInv R C walk start end_ cur t ∧
      searchMeasure t ≤ searchMeasure (popCurrent cur s))
    (fun t dir hd ht => ⟨(ht.1.relax_mid hd).1, le_trans (ht.1.relax_mid hd).2 ht.2⟩)
    (popCurrent cur s) ⟨MidInv.after_pop inv hq hne, le_refl _⟩
  exact ⟨this.1, by omega⟩

/-! ## The search: a fresh grid -/

theorem gridSized_mkGrid {R C : Int} (hR : 0 ≤ R) (hC : 0 ≤ C) (walk : Int → Int → Bool) :
    GridSized R C (mkGrid R C walk) := by
  constructor
  · simp only [mkGrid, List.length_map, List.length_range]
    omega
  · intro i hi
    have hi2 : i < R.toNat := by omega
    simp only [mkGrid, List.getD_eq_getElem?_getD, List.getElem?_map, List.getElem?_range hi2,
      Option.map_some', Option.getD_some, List.length_map, List.length_range]
    omega

theorem deref_mkGrid {R C : Int} (walk : Int → Int → Bool) {p : Int × Int}
    (h : InGrid R C p) : deref (mkGrid R C walk) p = Cell.new p.1 p.2 (walk p.1 p.2) := by
  unfold InGrid at h
  have h1 : p.1.toNat < R.toNat := by omega
  have h2 : p.2.toNat < C.toNat := by omega
  have e1 : ((p.1.toNat : Nat) : Int) = p.1 := Int.toNat_of_nonneg h.1
  have e2 : ((p.2.toNat : Nat) : Int) = p.2 := Int.toNat_of_nonneg h.2.2.1
  simp only [deref, get2, mkGrid, List.getD_eq_getElem?_getD, List.getElem?_map,
    List.getElem?_range h1, List.getElem?_range h2, Option.map_some', Option.getD_some, e1, e2]

/-- The grid on entry to the loop: the start cell has `g = 0` and its `h`,
every other cell is as constructed. -/
theorem deref_searchInit {R C : Int} (walk : Int → Int → Bool) {start end_ p : Int × Int}
    (hs : InGrid R C start) (he : InGrid R C end_) (hp : InGrid R C p) :
    deref (searchInit start end_ (mkGrid R C walk)).grid p =
      if p = start then
        { x := start.1, y := start.2, walkable := walk start.1 start.2, parent := none,
          g := 0, h := manhattan start end_ }
      else Cell.new p.1 p.2 (walk p.1 p.2) := by
  have hpos := inGrid_pos hs
  have h0 := gridSized_mkGrid (le_of_lt hpos.1) (le_of_lt hpos.2) walk
  unfold searchInit
  simp only
  have d1 : ∀ q, InGrid R C q →
      deref (set2 (mkGrid R C walk) start.1 start.2
          { deref (mkGrid R C walk) start with g := 0 }) q =
        if q = start then { Cell.new start.1 start.2 (walk start.1 start.2) with g := 0 }
        else Cell.new q.1 q.2 (walk q.1 q.2) := by
    intro q hq
    rw [deref_set2 h0 hs hq, deref_mkGrid walk hs, deref_mkGrid walk hq]
  have h1 := gridSized_set2 h0 start.1 start.2 { deref (mkGrid R C walk) start with g := 0 }
  rw [deref_set2 h1 hs hp, d1 start hs, if_pos rfl, d1 end_ he, d1 p hp]
  by_cases hps : p = start
  · simp only [hps, if_true]
    rw [heuristic_eq]
    by_cases hes : end_ = start
    · rw [if_pos hes, hes]
      rfl
    · rw [if_neg hes]
      rfl
  · simp only [hps, if_false]

theorem gridSized_searchInit {R C : Int} (walk : Int → Int → Bool) (start end_ : Int × Int)
    (hR : 0 ≤ R) (hC : 0 ≤ C) : GridSized R C (searchInit start end_ (mkGrid R C walk)).grid := by
  unfold searchInit
  exact gridSized_set2 (gridSized_set2 (gridSized_mkGrid hR hC walk) _ _ _) _ _ _

/-- The invariant holds on entry to the loop of `a_star_search` on a fresh
grid, and the fuel of `a_star_run` covers the measure. -/
theorem searchInit_inv {R C : Int} (walk : Int → Int → Bool) {start end_ : Int × Int}
    (hs : InGrid R C start) (he : InGrid R C end_) :
    SearchInv R C walk start end_ (searchInit start end_ (mkGrid R C walk)) ∧
      searchMeasure (searchInit start end_ (mkGrid R C walk)) ≤
        2 * gSum (mkGrid R C walk) + 2 := by
  have hpos := inGrid_pos hs
  have hsz := gridSized_searchInit walk start end_ (le_of_lt hpos.1) (le_of_lt hpos.2)
  have hd : ∀ p, InGrid R C p →
      deref (searchInit start end_ (mkGrid R C walk)).grid p =
        if p = start then
          { x := start.1, y := start.2, walkable := walk start.1 start.2, parent := none,
            g := 0, h := manhattan start end_ }
        else Cell.new p.1 p.2 (walk p.1 p.2) := fun p hp => deref_searchInit walk hs he hp
  have hq : (searchInit start end_ (mkGrid R C walk)).open_set = [start] := rfl
  have hi : (searchInit start end_ (mkGrid R C walk)).open_set_items = [start] := rfl
  have hset : ∀ p, InGrid R C p →
      (deref (searchInit start end_ (mkGrid R C walk)).grid p).g < INT_MAX → p = start := by
    intro p hp hg
    by_contra hne
    rw [hd p hp, if_neg hne] at hg
    simp [Cell.new] at hg
  constructor
  · refine
      { sized := hsz
        startIn := hs
        endIn := he
        static := ?_
        items := ?_
        nodup := ?_
        nodupItems := ?_
        pending := ?_
        grange := ?_
        startG := ?_
        parentOf := ?_
        reach := ?_
        hval := ?_
        endPending := ?_ }
    · intro p hp
      rw [hd p hp]
      split_ifs with h
      · rw [h]
        exact ⟨rfl, rfl, rfl⟩
      · exact ⟨rfl, rfl, rfl⟩
    · intro p
      rw [hq, hi]
    · rw [hq]
      exact List.nodup_singleton _
    · rw [hi]
      exact List.nodup_singleton _
    · intro p hp
      rw [hq, List.mem_singleton] at hp
      subst hp
      refine ⟨hs, ?_⟩
      rw [hd p hs, if_pos rfl]
      show (0 : Int) < INT_MAX
      decide
    · intro p hp
      rw [hd p hp]
      split_ifs
      · simp only [INT_MAX]
        omega
      · simp only [Cell.new, INT_MAX]
        omega
    · rw [hd start hs, if_pos rfl]
      exact ⟨rfl, rfl⟩
    · intro p hp hne hg
      exact absurd (hset p hp hg) hne
    · intro p hp hg
      rw [hset p hp hg]
      exact Relation.ReflTransGen.refl
    · intro p hp hg
      have := hset p hp hg
      subst this
      rw [hd p hs, if_pos rfl]
    · intro hg
      rw [hq, hset end_ he hg]
      exact List.mem_singleton_self _
  · unfold searchMeasure gSum
    have h0 := gridSized_mkGrid (le_of_lt hpos.1) (le_of_lt hpos.2) walk
    rw [gridSized_cells hsz hpos.1, gridSized_cells h0 hpos.1, hq]
    have hsum := sum_map_update (cells R C) (nodup_cells R C) start
      (inGrid_iff_mem_cells.1 hs)
      (fun p => (deref (mkGrid R C walk) p).g.toNat)
      (fun p => (deref (searchInit start end_ (mkGrid R C walk)).grid p).g.toNat)
      (by
        intro y hy hne
        simp only
        rw [hd y (inGrid_iff_mem_cells.2 hy), if_neg hne,
          deref_mkGrid walk (inGrid_iff_mem_cells.2 hy)])
    simp only at hsum
    rw [hd start hs, if_pos rfl] at hsum
    simp only [Int.toNat_zero, List.length_singleton] at hsum ⊢
    omega

/-! ## The search: `reconstruct_path` -/

theorem reconstruct_loop_none (grid : List (List Cell)) (fuel : Nat) (path : List Cell) :
    reconstruct_loop grid fuel none path = some path := by
  cases fuel <;> rfl

theorem reconstruct_loop_some (grid : List (List Cell)) (fuel : Nat) (cur : Int × Int)
    (path : List Cell) :
    reconstruct_loop grid (fuel + 1) (some cur) path =
      reconstruct_loop grid fuel (deref grid cur).parent (path ++ [deref grid cur]) := rfl

/-- Following parent links from a cell whose `g` is set ends at the start
cell within `g + 1` steps. -/
theorem reconstruct_loop_spec {R C : Int} {walk : Int → Int → Bool} {start end_ : Int × Int}
    {s : SearchState} (inv : SearchInv R C walk start end_ s) :
    ∀ (n : Nat) (p : Int × Int), InGrid R C p → (deref s.grid p).g < INT_MAX →
      (deref s.grid p).g ≤ n → ∀ fuel, n < fuel → ∀ acc : List Cell,
      ∃ chain : List (Int × Int),
        reconstruct_loop s.grid fuel (some p) acc =
          some (acc ++ (chain.map (deref s.grid)).reverse) ∧
        chain.head? = some start ∧ chain.getLast? = some p ∧
        List.Chain' (ParentLink R C walk s.grid) chain := by
  intro n
  induction n with
  | zero =>
    intro p hp hset hle fuel hf acc
    have hps : p = start := by
      by_contra hne
      obtain ⟨_, q, _, hq, _, hlt⟩ := inv.parentOf p hp hne hset
      have := (inv.grange q hq).1
      omega
    subst hps
    obtain ⟨fuel, rfl⟩ : ∃ m, fuel = m + 1 := ⟨fuel - 1, by omega⟩
    refine ⟨[p], ?_, rfl, rfl, List.chain'_singleton _⟩
    rw [reconstruct_loop_some, inv.startG.2, reconstruct_loop_none]
    rfl
  | succ n ih =>
    intro p hp hset hle fuel hf acc
    obtain ⟨fuel, rfl⟩ : ∃ m, fuel = m + 1 := ⟨fuel - 1, by omega⟩
    by_cases hps : p = start
    · subst hps
      refine ⟨[p], ?_, rfl, rfl, List.chain'_singleton _⟩
      rw [reconstruct_loop_some, inv.startG.2, reconstruct_loop_none]
      rfl
    · obtain ⟨hw, q, hpar, hq, hadj, hlt⟩ := inv.parentOf p hp hps hset
      obtain ⟨chain, h1, h2, h3, h4⟩ :=
        ih q hq (by omega) (by omega) fuel (by omega) (acc ++ [deref s.grid p])
      refine ⟨chain ++ [p], ?_, ?_, ?_, ?_⟩
      · rw [reconstruct_loop_some, hpar, h1]
        simp
      · cases chain with
        | nil => simp at h2
        | cons a l => simpa using h2
      · simp
      · rw [List.chain'_append]
        refine ⟨h4, List.chain'_singleton _, ?_⟩
        intro a ha b hb
        rw [h3] at ha
        simp only [List.head?_cons, Option.mem_def, Option.some.injEq] at ha hb
        subst ha hb
        exact ⟨hpar, hadj, hq, hp, hw, hlt, hset⟩

/-- `reconstruct_path` from a cell whose `g` is set returns the cells of a
chain of parent links from the start cell to that cell. -/
theorem reconstruct_path_spec {R C : Int} {walk : Int → Int → Bool} {start end_ : Int × Int}
    {s : SearchState} (inv : SearchInv R C walk start end_ s) {p : Int × Int}
    (hp : InGrid R C p) (hset : (deref s.grid p).g < INT_MAX) :
    ∃ chain : List (Int × Int),
      reconstruct_path s.grid p = some (chain.map (deref s.grid)) ∧
      chain.head? = some start ∧ chain.getLast? = some p ∧
      List.Chain' (ParentLink R C walk s.grid) chain := by
  have hg := (inv.grange p hp).1
  obtain ⟨chain, h1, h2, h3, h4⟩ :=
    reconstruct_loop_spec inv (deref s.grid p).g.toNat p hp hset (by omega)
      ((deref s.grid p).g.toNat + 1) (by omega) []
  refine ⟨chain, ?_, h2, h3, h4⟩
  unfold reconstruct_path
  rw [h1]
  simp

theorem chain_inGrid {R C : Int} {walk : Int → Int → Bool} {grid : List (List Cell)} :
    ∀ (chain : List (Int × Int)) (a : Int × Int), InGrid R C a → chain.head? = some a →
      List.Chain' (ParentLink R C walk grid) chain → ∀ q ∈ chain, InGrid R C q := by
  intro chain
  induction chain with
  | nil => intro a _ _ _ q hq; simp at hq
  | cons b l ih =>
    intro a ha hhead hch q hq
    simp only [List.head?_cons, Option.some.injEq] at hhead
    subst hhead
    rcases List.mem_cons.1 hq with e | e
    · rw [e]; exact ha
    · cases l with
      | nil => simp at e
      | cons c l2 =>
        have hlink : ParentLink R C walk grid b c := (List.chain'_cons.1 hch).1
        exact ih c hlink.2.2.2.1 rfl (List.chain'_cons.1 hch).2 q e

/-- The cells that `reconstruct_path` copies carry their own coordinates. -/
theorem coords_map_deref {R C : Int} {walk : Int → Int → Bool} {start end_ : Int × Int}
    {s : SearchState} (inv : SearchInv R C walk start end_ s) (chain : List (Int × Int))
    (h : ∀ q ∈ chain, InGrid R C q) : coords (chain.map (deref s.grid)) = chain := by
  unfold coords
  rw [List.map_map]
  conv_rhs => rw [← List.map_id chain]
  apply List.map_congr_left
  intro q hq
  obtain ⟨hx, hy, _⟩ := inv.static q (h q hq)
  simp [hx, hy]

theorem contiguous_of_chain {R C : Int} {walk : Int → Int → Bool} {start end_ : Int × Int}
    {s : SearchState} (inv : SearchInv R C walk start end_ s) (chain : List (Int × Int))
    (h : List.Chain' (ParentLink R C walk s.grid) chain) :
    Contiguous (chain.map (deref s.grid)) := by
  unfold Contiguous
  rw [List.chain'_map]
  refine List.Chain'.imp ?_ h
  intro a b hab
  obtain ⟨ax, ay, _⟩ := inv.static a hab.2.2.1
  obtain ⟨bx, by_, _⟩ := inv.static b hab.2.2.2.1
  rw [ax, ay, bx, by_]
  exact hab.2.1

theorem isWalk_of_chain {R C : Int} {walk : Int → Int → Bool} {grid : List (List Cell)}
    (chain : List (Int × Int)) (h : List.Chain' (ParentLink R C walk grid) chain) :
    IsWalk (walkableIn R C walk) chain := by
  unfold IsWalk
  refine List.Chain'.imp ?_ h
  intro a b hab
  refine ⟨hab.2.1, ?_⟩
  have := hab.2.2.2.1
  unfold InGrid at this
  simp [walkableIn, hab.2.2.2.2.1, this]

/-- How `a_star_run` on a fresh grid ends, for a property `P` of the loop
states that holds on entry and that every round keeps: with the queue empty
and an empty result, or with the pop of the end cell and the cells of a
chain of parent links from the start cell to the end cell. -/
theorem a_star_rule {R C : Int} (walk : Int → Int → Bool) {start end_ : Int × Int}
    (tie : Nat → Nat) (P : SearchState → Prop)
    (hP : ∀ s, P s → SearchInv R C walk start end_ s)
    (hinit : P (searchInit start end_ (mkGrid R C walk)))
    (hstep : ∀ s cur, P s → cur ∈ s.open_set → cur ≠ end_ →
      (∀ q ∈ s.open_set, (deref s.grid cur).f ≤ (deref s.grid q).f) →
      P (expand end_ cur (popCurrent cur s))) :
    (∃ s, P s ∧ s.open_set = [] ∧
      a_star_run start end_ (mkGrid R C walk) tie = some ([], s.grid)) ∨
    (∃ s chain, P s ∧ end_ ∈ s.open_set ∧
      (∀ q ∈ s.open_set, (deref s.grid end_).f ≤ (deref s.grid q).f) ∧
      a_star_run start end_ (mkGrid R C walk) tie = some (chain.map (deref s.grid), s.grid) ∧
      chain.head? = some start ∧ chain.getLast? = some end_ ∧
      List.Chain' (ParentLink R C walk s.grid) chain) := by
  have hi := hP _ hinit
  have hfuel := (searchInit_inv walk hi.startIn hi.endIn).2
  have hrule := searchLoop_rule tie end_ P
    (fun s k hs hq hne => by
      obtain ⟨hmem, hmin⟩ := top_spec tie k s.grid s.open_set hq
      exact ⟨hstep s _ hs hmem hne hmin, ((hP s hs).round hmem hne).2⟩)
    (2 * gSum (mkGrid R C walk) + 2) 0 _ hinit hfuel
  unfold a_star_run
  rcases hrule with ⟨s, hs, hq, hres⟩ | ⟨s, k, hs, hq, htop, hres⟩
  · exact Or.inl ⟨s, hs, hq, hres⟩
  · obtain ⟨hmem, hmin⟩ := top_spec tie k s.grid s.open_set hq
    rw [htop] at hmem hmin
    have inv := hP s hs
    obtain ⟨chain, h1, h2, h3, h4⟩ :=
      reconstruct_path_spec inv (inv.pending end_ hmem).1 (inv.pending end_ hmem).2
    refine Or.inr ⟨s, chain, hs, hmem, hmin, ?_, h2, h3, h4⟩
    rw [hres, h1]
    rfl

/-! ## The search: contiguity and the not-found result -/

/-- The outcome of `a_star_run` on a fresh grid under the basic invariant. -/
theorem a_star_outcome {R C : Int} (walk : Int → Int → Bool) {start end_ : Int × Int}
    (tie : Nat → Nat) (hs : InGrid R C start) (he : InGrid R C end_) :
    (∃ s, SearchInv R C walk start end_ s ∧ s.open_set = [] ∧
      a_star_run start end_ (mkGrid R C walk) tie = some ([], s.grid)) ∨
    (∃ s chain, SearchInv R C walk start end_ s ∧ end_ ∈ s.open_set ∧
      (∀ q ∈ s.open_set, (deref s.grid end_).f ≤ (deref s.grid q).f) ∧
      a_star_run start end_ (mkGrid R C walk) tie = some (chain.map (deref s.grid), s.grid) ∧
      chain.head? = some start ∧ chain.getLast? = some end_ ∧
      List.Chain' (ParentLink R C walk s.grid) chain) :=
  a_star_rule walk tie (SearchInv R C walk start end_) (fun _ h => h)
    (searchInit_inv walk hs he).1
    (fun _ _ inv hmem hne _ => (inv.round hmem hne).1.1)

/-- C7 (path contiguity): on every fresh `R` by `C` grid, for every start
and end cell of the grid and however ties are broken, `a_star_search`
returns, and every two consecutive cells of the returned sequence are one
orthogonal step apart. -/
theorem a_star_search_contiguous (R C : Int) (walk : Int → Int → Bool) (start end_ : Int × Int)
    (tie : Nat → Nat) (hs : InGrid R C start) (he : InGrid R C end_) :
    ∃ path, a_star_search start end_ (mkGrid R C walk) tie = some path ∧ Contiguous path := by
  unfold a_star_search
  rcases a_star_outcome walk tie hs he with ⟨s, _, _, hres⟩ | ⟨s, chain, inv, _, _, hres, _, _, hch⟩
  · exact ⟨[], by rw [hres]; rfl, List.chain'_nil⟩
  · exact ⟨chain.map (deref s.grid), by rw [hres]; rfl, contiguous_of_chain inv chain hch⟩

set_option maxRecDepth 100000 in
/-- C7 applied to the 3 by 3 grid with every cell walkable, from `(0, 0)` to
`(2, 2)`: the search returns the five cells `(0, 0)`, `(0, 1)`, `(0, 2)`,
`(1, 2)`, `(2, 2)`, a sequence with four consecutive pairs and a turn. -/
theorem a_star_search_contiguous_witness :
    (a_star_search (0, 0) (2, 2) (mkGrid 3 3 fun _ _ => true) (fun _ => 0)).map coords =
      some [(0, 0), (0, 1), (0, 2), (1, 2), (2, 2)] ∧
    ∃ path, a_star_search (0, 0) (2, 2) (mkGrid 3 3 fun _ _ => true) (fun _ => 0) = some path ∧
      Contiguous path :=
  ⟨by decide!,
    a_star_search_contiguous 3 3 (fun _ _ => true) (0, 0) (2, 2) (fun _ => 0)
      (by unfold InGrid; decide) (by unfold InGrid; decide)⟩

/-- C8 (not found): on every fresh `R` by `C` grid, if the end cell cannot be
reached from the start cell through 4-adjacent walkable cells of the grid,
`a_star_search` returns the empty sequence, however ties are broken.  (An
unreachable end cell differs from the start cell; the walkability of the
start cell plays no part.) -/
theorem a_star_search_not_found (R C : Int) (walk : Int → Int → Bool) (start end_ : Int × Int)
    (tie : Nat → Nat) (hs : InGrid R C start) (he : InGrid R C end_)
    (hun : ¬ Reachable (walkableIn R C walk) start end_) :
    a_star_search start end_ (mkGrid R C walk) tie = some [] := by
  unfold a_star_search
  rcases a_star_outcome walk tie hs he with ⟨s, _, _, hres⟩ | ⟨s, chain, inv, hmem, _, _, _, _, _⟩
  · rw [hres]; rfl
  · exact absurd (inv.reach end_ he (inv.pending end_ hmem).2) hun

theorem blockedRow_unreachable : ¬ Reachable (walkableIn 1 3 blockedRow) (0, 0) (0, 2) := by
  intro h
  obtain ⟨c, hc, hadj, _⟩ := reachable_last_step h (by decide)
  have hcw : c = (0, 0) ∨ walkableIn 1 3 blockedRow c.1 c.2 = true := hc
  rcases adjacent_cases hadj with rfl | rfl | rfl | rfl <;> revert hcw <;> decide

/-- C8 applied to the 1 by 3 grid with a wall in the middle: the end `(0, 2)`
is walkable and cut off from the start `(0, 0)`. -/
theorem a_star_search_not_found_witness :
    a_star_search (0, 0) (0, 2) (mkGrid 1 3 blockedRow) (fun _ => 0) = some [] :=
  a_star_search_not_found 1 3 blockedRow (0, 0) (0, 2) (fun _ => 0)
    (by unfold InGrid; decide) (by unfold InGrid; decide) blockedRow_unreachable

set_option maxRecDepth 100000 in
/-- C9 fails as stated: on the 1 by 2 grid whose cell `(0, 0)` is a wall and
whose cell `(0, 1)` is walkable, the search from the wall `(0, 0)` to
`(0, 1)` returns the two-cell path, not the empty result: the start cell is
pushed without a test of its `walkable` flag. -/
theorem a_star_search_unwalkable_start :
    (deref (mkGrid 1 2 wallThenOpen) (0, 0)).walkable = false ∧
    (a_star_search (0, 0) (0, 1) (mkGrid 1 2 wallThenOpen) (fun _ => 0)).map coords =
      some [(0, 0), (0, 1)] := by
  decide!

/-- C9, amended: on every fresh `R` by `C` grid, `a_star_search` returns the
empty result whenever the end cell is not walkable and is not the start
cell, however ties are broken and whether or not the start cell is
walkable. -/
theorem a_star_search_unwalkable_end (R C : Int) (walk : Int → Int → Bool)
    (start end_ : Int × Int) (tie : Nat → Nat) (hs : InGrid R C start) (he : InGrid R C end_)
    (hw : walk end_.1 end_.2 = false) (hne : end_ ≠ start) :
    a_star_search start end_ (mkGrid R C walk) tie = some [] := by
  unfold a_star_search
  rcases a_star_outcome walk tie hs he with ⟨s, _, _, hres⟩ | ⟨s, chain, inv, hmem, _, _, _, _, _⟩
  · rw [hres]; rfl
  · have := (inv.parentOf end_ he hne (inv.pending end_ hmem).2).1
    rw [hw] at this
    exact absurd this (by decide)

/-- C9 amended, applied to the 1 by 3 grid with a wall in the middle, from
`(0, 0)` to the wall `(0, 1)`. -/
theorem a_star_search_unwalkable_end_witness :
    a_star_search (0, 0) (0, 1) (mkGrid 1 3 blockedRow) (fun _ => 0) = some [] :=
  a_star_search_unwalkable_end 1 3 blockedRow (0, 0) (0, 1) (fun _ => 0)
    (by unfold InGrid; decide) (by unfold InGrid; decide) (by decide) (by decide)

/-! ## The search: every reachable cell is discovered -/

theorem relax_g_le {R C : Int} {walk : Int → Int → Bool} {start end_ cur : Int × Int}
    {s : SearchState} (h : MidInv R C walk start end_ cur s) {dir : Int × Int}
    (hd : dir ∈ searchDirections) {p : Int × Int} (hp : InGrid R C p) :
    (deref (relax end_ cur s dir).grid p).g ≤ (deref s.grid p).g := by
  rcases relax_effect h.1 h.2.1 hd with ⟨e, _⟩ | hpush
  · rw [e]
  · exact hpush.g_le hp

theorem relax_mem_queue {R C : Int} {walk : Int → Int → Bool} {start end_ cur : Int × Int}
    {s : SearchState} (h : MidInv R C walk start end_ cur s) {dir : Int × Int}
    (hd : dir ∈ searchDirections) {p : Int × Int} (hp : p ∈ s.open_set) :
    p ∈ (relax end_ cur s dir).open_set := by
  rcases relax_effect h.1 h.2.1 hd with ⟨e, _⟩ | hpush
  · rw [e]; exact hp
  · exact (hpush.mem_queue p).2 (Or.inl hp)

/-- After the pass for a direction, the neighbour in that direction has its
`g` set, if it is a walkable cell of the grid. -/
theorem relax_sets {R C : Int} {walk : Int → Int → Bool} {start end_ cur : Int × Int}
    {s : SearchState} (h : MidInv R C walk start end_ cur s) {dir : Int × Int}
    (hd : dir ∈ searchDirections) (hb : (deref s.grid cur).g + 1 < INT_MAX)
    (hin : InGrid R C (cur.1 + dir.1, cur.2 + dir.2))
    (hw : walk (cur.1 + dir.1) (cur.2 + dir.2) = true) :
    (deref (relax end_ cur s dir).grid (cur.1 + dir.1, cur.2 + dir.2)).g < INT_MAX := by
  rcases relax_effect h.1 h.2.1 hd with ⟨e, hr⟩ | hpush
  · rw [e]
    rcases hr with h1 | h1 | h1 | h1
    · exact absurd hin h1
    · rw [hw] at h1
      exact absurd h1 (by decide)
    · exact (h.1.pending _ ((h.1.items _).1 h1)).2
    · omega
  · rw [hpush.g_eq hin, if_pos rfl]
    exact hb

theorem closedExcept_relax {R C : Int} {walk : Int → Int → Bool} {start end_ cur : Int × Int}
    {s : SearchState} (h : MidInv R C walk start end_ cur s)
    (hc : ClosedExcept R C walk cur s) {dir : Int × Int} (hd : dir ∈ searchDirections) :
    ClosedExcept R C walk cur (relax end_ cur s dir) := by
  rcases relax_effect h.1 h.2.1 hd with ⟨e, _⟩ | hpush
  · rw [e]; exact hc
  · intro p hp hset hnq hne n hn hadj hw
    have hpm : p ≠ (cur.1 + dir.1, cur.2 + dir.2) :=
      fun e => hnq ((hpush.mem_queue p).2 (Or.inr e))
    have hnq2 : p ∉ s.open_set := fun e => hnq ((hpush.mem_queue p).2 (Or.inl e))
    rw [hpush.g_eq hp, if_neg hpm] at hset
    exact lt_of_le_of_lt (hpush.g_le hn) (hc p hp hset hnq2 hne n hn hadj hw)

/-- The direction loop, pass by pass: the invariant is kept, no `g` rises,
no entry leaves the queue, and every walkable neighbour of `cur` in a
direction of the list has its `g` set in the end. -/
theorem foldl_relax_spec {R C : Int} {walk : Int → Int → Bool} {start end_ cur : Int × Int} :
    ∀ (ds : List (Int × Int)), (∀ d ∈ ds, d ∈ searchDirections) → ∀ s : SearchState,
      MidInv R C walk start end_ cur s → ClosedExcept R C walk cur s →
      (deref s.grid cur).g + 1 < INT_MAX →
      MidInv R C walk start end_ cur (ds.foldl (relax end_ cur) s) ∧
      ClosedExcept R C walk cur (ds.foldl (relax end_ cur) s) ∧
      (∀ p, InGrid R C p →
        (deref (ds.foldl (relax end_ cur) s).grid p).g ≤ (deref s.grid p).g) ∧
      (∀ d ∈ ds, InGrid R C (cur.1 + d.1, cur.2 + d.2) → walk (cur.1 + d.1) (cur.2 + d.2) = true →
        (deref (ds.foldl (relax end_ cur) s).grid (cur.1 + d.1, cur.2 + d.2)).g < INT_MAX) := by
  intro ds
  induction ds with
  | nil =>
    intro _ s hm hc _
    exact ⟨hm, hc, fun _ _ => le_refl _, fun d hd => by simp at hd⟩
  | cons d ds ih =>
    intro hsub s hm hc hb
    have hd := hsub d (List.mem_cons_self _ _)
    have hm1 := (hm.relax_mid hd).1
    have hc1 := closedExcept_relax hm hc hd
    have hle1 : ∀ p, InGrid R C p → (deref (relax end_ cur s d).grid p).g ≤ (deref s.grid p).g :=
      fun p hp => relax_g_le hm hd hp
    have hb1 : (deref (relax end_ cur s d).grid cur).g + 1 < INT_MAX := by
      have := hle1 cur hm.2.1
      omega
    obtain ⟨r1, r2, r3, r4⟩ :=
      ih (fun e he => hsub e (List.mem_cons_of_mem _ he)) _ hm1 hc1 hb1
    rw [List.foldl_cons]
    refine ⟨r1, r2, fun p hp => le_trans (r3 p hp) (hle1 p hp), ?_⟩
    intro e he hin hw
    rcases List.mem_cons.1 he with rfl | he
    · exact lt_of_le_of_lt (r3 _ hin) (relax_sets hm hd hb hin hw)
    · exact r4 e he hin hw

/-- One round of the loop closes the popped cell. -/
theorem Closed.round_closed {R C : Int} {walk : Int → Int → Bool} {start end_ cur : Int × Int}
    {s : SearchState} (inv : SearchInv R C walk start end_ s) (hc : Closed R C walk s)
    (hq : cur ∈ s.open_set) (hne : cur ≠ end_) (hb : (deref s.grid cur).g + 1 < INT_MAX) :
    Closed R C walk (expand end_ cur (popCurrent cur s)) := by
  have hm := MidInv.after_pop inv hq hne
  have hce : ClosedExcept R C walk cur (popCurrent cur s) := by
    intro p hp hset hnq hpc n hn hadj hw
    refine hc p hp hset ?_ n hn hadj hw
    intro hmem
    apply hnq
    show p ∈ s.open_set.erase cur
    rw [inv.nodup.mem_erase_iff]
    exact ⟨hpc, hmem⟩
  obtain ⟨_, r2, _, r4⟩ :=
    foldl_relax_spec searchDirections (fun d hd => hd) (popCurrent cur s) hm hce hb
  intro p hp hset hnq n hn hadj hw
  by_cases hpc : p = cur
  · subst hpc
    obtain ⟨d, hd, rfl⟩ := direction_of_adjacent hadj
    exact r4 d hd hn hw
  · exact r2 p hp hset hnq hpc n hn hadj hw

theorem setCount_pushed {R C : Int} {walk : Int → Int → Bool} {end_ cur n : Int × Int}
    {s t : SearchState} (hp : Pushed R C walk end_ cur n s t)
    (hlt : (deref s.grid cur).g + 1 < INT_MAX) :
    setCount R C t.grid =
      setCount R C s.grid + if (deref s.grid n).g < INT_MAX then 0 else 1 := by
  unfold setCount
  rw [countP_eq_sum, countP_eq_sum]
  have hsum := sum_map_update (cells R C) (nodup_cells R C) n
    (inGrid_iff_mem_cells.1 hp.inGrid)
    (fun p => if decide ((deref s.grid p).g < INT_MAX) then 1 else 0)
    (fun p => if decide ((deref t.grid p).g < INT_MAX) then 1 else 0)
    (by
      intro y hy hne
      simp only
      rw [hp.grid y (inGrid_iff_mem_cells.2 hy), if_neg hne])
  simp only at hsum
  have hnew : (deref t.grid n).g < INT_MAX := by
    rw [hp.g_eq hp.inGrid, if_pos rfl]
    exact hlt
  simp only [hnew, decide_True, if_true, decide_eq_true_eq] at hsum ⊢
  split_ifs at hsum ⊢ <;> omega

theorem GBound.relax_bound {R C : Int} {walk : Int → Int → Bool} {start end_ cur : Int × Int}
    {s : SearchState} (h : MidInv R C walk start end_ cur s) (hb : GBound R C s)
    (hRC : R * C < INT_MAX) {dir : Int × Int} (hd : dir ∈ searchDirections) :
    GBound R C (relax end_ cur s dir) := by
  rcases relax_effect h.1 h.2.1 hd with ⟨e, _⟩ | hpush
  · rw [e]; exact hb
  · have hcb := hb cur h.2.1 h.2.2.1
    have hcnt : (setCount R C s.grid : Int) ≤ R * C := by
      have h1 : setCount R C s.grid ≤ (cells R C).length := List.countP_le_length _
      rw [length_cells] at h1
      have hpos := inGrid_pos h.2.1
      have e1 : R = (R.toNat : Int) := (Int.toNat_of_nonneg (by omega)).symm
      have e2 : C = (C.toNat : Int) := (Int.toNat_of_nonneg (by omega)).symm
      rw [e1, e2]
      exact_mod_cast h1
    have hlt : (deref s.grid cur).g + 1 < INT_MAX := by omega
    have hsc := setCount_pushed hpush hlt
    intro p hp hset
    rw [hpush.g_eq hp] at hset ⊢
    have hbet := hpush.better
    have hgn := h.1.grange _ hpush.inGrid
    split_ifs at hset ⊢ with hpn
    · by_cases hns : (deref s.grid (cur.1 + dir.1, cur.2 + dir.2)).g < INT_MAX
      · have := hb _ hpush.inGrid hns
        rw [hsc, if_pos hns]
        push_cast
        omega
      · rw [hsc, if_neg hns]
        push_cast
        omega
    · have := hb p hp hset
      rw [hsc]
      push_cast
      split_ifs <;> omega

theorem setCount_le {R C : Int} (hR : 0 ≤ R) (hC : 0 ≤ C) (grid : List (List Cell)) :
    (setCount R C grid : Int) ≤ R * C := by
  have h1 : setCount R C grid ≤ (cells R C).length := List.countP_le_length _
  rw [length_cells] at h1
  have e1 : R = (R.toNat : Int) := (Int.toNat_of_nonneg hR).symm
  have e2 : C = (C.toNat : Int) := (Int.toNat_of_nonneg hC).symm
  rw [e1, e2]
  exact_mod_cast h1

/-- With the queue empty, every cell that can be reached from the start has
been discovered. -/
theorem reachable_set {R C : Int} {walk : Int → Int → Bool} {start end_ : Int × Int}
    {s : SearchState} (inv : SearchInv R C walk start end_ s) (hc : Closed R C walk s)
    (hq : s.open_set = []) {p : Int × Int} (h : Reachable (walkableIn R C walk) start p) :
    InGrid R C p ∧ (deref s.grid p).g < INT_MAX := by
  unfold Reachable at h
  induction h with
  | refl =>
    refine ⟨inv.startIn, ?_⟩
    rw [inv.startG.1]
    decide
  | tail _ hbc ih =>
    obtain ⟨hadj, hw⟩ := hbc
    simp only [walkableIn, Bool.and_eq_true, decide_eq_true_eq] at hw
    have hin : InGrid R C _ := hw.1
    exact ⟨hin, hc _ ih.1 ih.2 (by rw [hq]; simp) _ hin hadj hw.2⟩

/-- The invariant of the loop used for completeness, on entry. -/
theorem searchInit_closed {R C : Int} (walk : Int → Int → Bool) {start end_ : Int × Int}
    (hs : InGrid R C start) (he : InGrid R C end_) :
    Closed R C walk (searchInit start end_ (mkGrid R C walk)) ∧
      GBound R C (searchInit start end_ (mkGrid R C walk)) := by
  have hset : ∀ p, InGrid R C p →
      (deref (searchInit start end_ (mkGrid R C walk)).grid p).g < INT_MAX → p = start := by
    intro p hp hg
    by_contra hne
    rw [deref_searchInit walk hs he hp, if_neg hne] at hg
    simp [Cell.new] at hg
  have hg0 : (deref (searchInit start end_ (mkGrid R C walk)).grid start).g = 0 := by
    rw [deref_searchInit walk hs he hs, if_pos rfl]
  constructor
  · intro p hp hg hnq
    exfalso
    apply hnq
    rw [hset p hp hg]
    exact List.mem_singleton_self _
  · intro p hp hg
    rw [hset p hp hg, hg0]
    have : 0 < setCount R C (searchInit start end_ (mkGrid R C walk)).grid := by
      unfold setCount
      rw [List.countP_pos_iff]
      refine ⟨start, inGrid_iff_mem_cells.1 hs, ?_⟩
      rw [hg0]
      decide
    omega

/-- How `a_star_search` ends on a fresh grid with fewer than `INT_MAX`
cells: with the empty result, and then the end cell cannot be reached from
the start cell, or with the cells of a chain of parent links from the start
cell to the end cell, and then it can. -/
theorem a_star_outcome_complete {R C : Int} (walk : Int → Int → Bool) {start end_ : Int × Int}
    (tie : Nat → Nat) (hs : InGrid R C start) (he : InGrid R C end_) (hRC : R * C < INT_MAX) :
    (a_star_search start end_ (mkGrid R C walk) tie = some [] ∧
      ¬ Reachable (walkableIn R C walk) start end_) ∨
    (∃ s chain, SearchInv R C walk start end_ s ∧
      a_star_search start end_ (mkGrid R C walk) tie = some (chain.map (deref s.grid)) ∧
      chain.head? = some start ∧ chain.getLast? = some end_ ∧
      List.Chain' (ParentLink R C walk s.grid) chain ∧
      Reachable (walkableIn R C walk) start end_) := by
  have hpos := inGrid_pos hs
  have hrule := a_star_rule walk tie
    (fun s => SearchInv R C walk start end_ s ∧ Closed R C walk s ∧ GBound R C s)
    (fun _ h => h.1)
    ⟨(searchInit_inv walk hs he).1, (searchInit_closed walk hs he).1,
      (searchInit_closed walk hs he).2⟩
    (fun s cur hP hmem hne _ => by
      obtain ⟨inv, hc, hb⟩ := hP
      have hcur := inv.pending cur hmem
      have hlt : (deref s.grid cur).g + 1 < INT_MAX := by
        have h1 := hb cur hcur.1 hcur.2
        have h2 := setCount_le (le_of_lt hpos.1) (le_of_lt hpos.2) s.grid
        omega
      refine ⟨(inv.round hmem hne).1.1, hc.round_closed inv hmem hne hlt, ?_⟩
      exact (expand_induction end_ cur
        (fun t => MidInv R C walk start end_ cur t ∧ GBound R C t)
        (fun t dir hd ht => ⟨(ht.1.relax_mid hd).1, ht.2.relax_bound ht.1 hRC hd⟩)
        (popCurrent cur s) ⟨MidInv.after_pop inv hmem hne, hb⟩).2)
  unfold a_star_search
  rcases hrule with ⟨s, ⟨inv, hc, _⟩, hq, hres⟩ |
    ⟨s, chain, ⟨inv, _, _⟩, hmem, _, hres, h1, h2, hch⟩
  · refine Or.inl ⟨by rw [hres]; rfl, fun hreach => ?_⟩
    have hend := (reachable_set inv hc hq hreach).2
    have := inv.endPending hend
    rw [hq] at this
    simp at this
  · exact Or.inr ⟨s, chain, inv, by rw [hres]; rfl, h1, h2, hch,
      inv.reach end_ he (inv.pending end_ hmem).2⟩

/-- C4 (a path is found whenever one exists): on every fresh `R` by `C`
grid with fewer than `INT_MAX` cells, if the end cell can be reached from the
start cell through 4-adjacent walkable cells of the grid, then, however ties
are broken, `a_star_search` returns a non-empty sequence whose first cell
is the start and whose last cell is the end, and which is a walk through
walkable cells. -/
theorem a_star_search_finds_path (R C : Int) (walk : Int → Int → Bool) (start end_ : Int × Int)
    (tie : Nat → Nat) (hs : InGrid R C start) (he : InGrid R C end_)
    (hRC : R * C < INT_MAX) (hreach : Reachable (walkableIn R C walk) start end_) :
    ∃ path, a_star_search start end_ (mkGrid R C walk) tie = some path ∧ path ≠ [] ∧
      (coords path).head? = some start ∧ (coords path).getLast? = some end_ ∧
      IsWalk (walkableIn R C walk) (coords path) := by
  rcases a_star_outcome_complete walk tie hs he hRC with ⟨_, hun⟩ |
    ⟨s, chain, inv, hres, h1, h2, hch, _⟩
  · exact absurd hreach hun
  · have hin := chain_inGrid chain start hs h1 hch
    refine ⟨chain.map (deref s.grid), hres, ?_, ?_⟩
    · intro hnil
      rw [List.map_eq_nil_iff] at hnil
      rw [hnil] at h1
      simp at h1
    · rw [coords_map_deref inv chain hin]
      exact ⟨h1, h2, isWalk_of_chain chain hch⟩

/-- C4 applied to the 2 by 2 grid with every cell walkable, from `(0, 0)` to
`(1, 1)`. -/
theorem a_star_search_finds_path_witness :
    ∃ path, a_star_search (0, 0) (1, 1) (mkGrid 2 2 fun _ _ => true) (fun _ => 0) = some path ∧
      path ≠ [] ∧ (coords path).head? = some (0, 0) ∧ (coords path).getLast? = some (1, 1) ∧
      IsWalk (walkableIn 2 2 fun _ _ => true) (coords path) :=
  a_star_search_finds_path 2 2 (fun _ _ => true) (0, 0) (1, 1) (fun _ => 0)
    (by unfold InGrid; decide) (by unfold InGrid; decide) (by decide)
    (Relation.ReflTransGen.tail
      (Relation.ReflTransGen.single (b := (0, 1)) ⟨by unfold Adjacent; decide, by decide⟩)
      ⟨by unfold Adjacent; decide, by decide⟩)

/-! ## The search: a result that is not shortest -/

set_option maxRecDepth 100000 in
/-- C5 fails on the code: on the 3 by 5 grid `.....` / `.#.#.` / `...#.`,
from `(1, 0)` to `(2, 4)`, the search returns a path of 10 cells although a
walk of 8 cells along the top row exists.  The cell `(0, 2)` is first
reached with `g = 5` through `(1, 2)`; when `(0, 1)`, with `g = 2`, is
expanded, `(0, 2)` is still pending and is skipped, so its `g` is never
lowered to 3. -/
theorem a_star_search_not_shortest :
    (a_star_search (1, 0) (2, 4) (mkGrid 3 5 detourWalk) (fun _ => 0)).map coords =
      some [(1, 0), (2, 0), (2, 1), (2, 2), (1, 2), (0, 2), (0, 3), (0, 4), (1, 4), (2, 4)] ∧
    IsWalk (walkableIn 3 5 detourWalk)
      [(1, 0), (0, 0), (0, 1), (0, 2), (0, 3), (0, 4), (1, 4), (2, 4)] := by
  constructor
  · decide!
  · unfold IsWalk
    simp only [List.chain'_cons, List.chain'_singleton, and_true]
    unfold Adjacent
    decide

/-! ## The search on a grid without walls -/

theorem manhattan_corner {R C : Int} {p : Int × Int} (h : InGrid R C p) :
    manhattan p (R - 1, C - 1) = (R - 1 - p.1) + (C - 1 - p.2) := by
  unfold InGrid at h
  unfold manhattan
  simp only
  omega

/-- From an expanded cell one finds a pending cell whose `g` is its distance
from the start: follow forward neighbours, and the parent of a pending
neighbour whose `g` is too large, towards the far corner, which is never
expanded. -/
theorem openGrid_pending_of_expanded {R C : Int} {s : SearchState}
    (inv : SearchInv R C (fun _ _ => true) (0, 0) (R - 1, C - 1) s)
    (hc : Closed R C (fun _ _ => true) s) (ho : OpenGridInv R C s) :
    ∀ (k : Nat) (c : Int × Int), InGrid R C c → (deref s.grid c).g < INT_MAX →
      c ∉ s.open_set → (R + C - 2) - (c.1 + c.2) ≤ k →
      ∃ p ∈ s.open_set, (deref s.grid p).g = p.1 + p.2 := by
  intro k
  induction k with
  | zero =>
    intro c hin hset hnq hk
    exfalso
    have hce : c = (R - 1, C - 1) := by
      unfold InGrid at hin
      obtain ⟨a, b⟩ := c
      simp only [Prod.mk.injEq] at hin hk ⊢
      omega
    rw [hce] at hset hnq
    exact hnq (inv.endPending hset)
  | succ k ih =>
    intro c hin hset hnq hk
    have hce : c ≠ (R - 1, C - 1) := by
      intro e
      rw [e] at hset hnq
      exact hnq (inv.endPending hset)
    -- a forward neighbour of `c`
    obtain ⟨n, hn, hadj, hdn⟩ : ∃ n : Int × Int, InGrid R C n ∧ Adjacent c n ∧
        n.1 + n.2 = c.1 + c.2 + 1 := by
      obtain ⟨a, b⟩ := c
      unfold InGrid at hin
      simp only at hin
      have hab : a < R - 1 ∨ b < C - 1 := by
        by_contra hcon
        apply hce
        simp only [Prod.mk.injEq]
        omega
      rcases hab with h1 | h1
      · refine ⟨(a + 1, b), ?_, ?_, ?_⟩
        · unfold InGrid; simp only; omega
        · unfold Adjacent; simp
        · simp only; omega
      · refine ⟨(a, b + 1), ?_, ?_, ?_⟩
        · unfold InGrid; simp only; omega
        · unfold Adjacent; simp
        · simp only; omega
    have hnset := hc c hin hset hnq n hn hadj rfl
    by_cases hnq2 : n ∈ s.open_set
    · by_cases hopt : (deref s.grid n).g = n.1 + n.2
      · exact ⟨n, hnq2, hopt⟩
      · have hlow := ho.lower n hn hnset
        have hn0 : n ≠ (0, 0) := by
          intro e
          rw [e] at hdn
          unfold InGrid at hin
          simp only at hdn
          omega
        obtain ⟨q, _, hq, hqn, hqg, hqp⟩ := ho.parentExp n hn hn0 hnset
        have hqset : (deref s.grid q).g < INT_MAX := by omega
        exact ih q hq hqset hqn (by omega)
    · exact ih n hn hnset hnq2 (by omega)

/-- Until the end cell is popped, some pending cell has the distance from
the start as its `g`. -/
theorem openGrid_pending_optimal {R C : Int} {s : SearchState}
    (inv : SearchInv R C (fun _ _ => true) (0, 0) (R - 1, C - 1) s)
    (hc : Closed R C (fun _ _ => true) s) (ho : OpenGridInv R C s) :
    ∃ p ∈ s.open_set, (deref s.grid p).g = p.1 + p.2 := by
  by_cases h0 : ((0, 0) : Int × Int) ∈ s.open_set
  · exact ⟨(0, 0), h0, by rw [inv.startG.1]; rfl⟩
  · have hin := inv.startIn
    have hset : (deref s.grid (0, 0)).g < INT_MAX := by
      rw [inv.startG.1]
      decide
    have hk : (R + C - 2) - ((0 : Int) + 0) ≤ ((R + C - 2).toNat : Int) := by
      unfold InGrid at hin
      simp only at hin
      omega
    exact openGrid_pending_of_expanded inv hc ho (R + C - 2).toNat (0, 0) hin hset h0 hk

/-- The popped cell has the distance from the start as its `g`. -/
theorem openGrid_top_optimal {R C : Int} {s : SearchState}
    (inv : SearchInv R C (fun _ _ => true) (0, 0) (R - 1, C - 1) s)
    (hc : Closed R C (fun _ _ => true) s) (ho : OpenGridInv R C s) {cur : Int × Int}
    (hmem : cur ∈ s.open_set)
    (hmin : ∀ q ∈ s.open_set, (deref s.grid cur).f ≤ (deref s.grid q).f) :
    (deref s.grid cur).g = cur.1 + cur.2 := by
  obtain ⟨p, hp, hpg⟩ := openGrid_pending_optimal inv hc ho
  have hle := hmin p hp
  have hcur := inv.pending cur hmem
  have hpp := inv.pending p hp
  have hlow := ho.lower cur hcur.1 hcur.2
  unfold Cell.f at hle
  rw [inv.hval cur hcur.1 hcur.2, inv.hval p hpp.1 hpp.2, manhattan_corner hcur.1,
    manhattan_corner hpp.1, hpg] at hle
  omega

theorem adjacent_sum_le {p q : Int × Int} (h : Adjacent p q) : q.1 + q.2 ≤ p.1 + p.2 + 1 := by
  unfold Adjacent at h
  omega

/-- A pass of the direction loop keeps the invariant of the grid without
walls. -/
theorem OpenGridInv.relax_open {R C : Int} {start end_ cur : Int × Int} {s : SearchState}
    (h : MidInv R C (fun _ _ => true) start end_ cur s) (ho : OpenGridInv R C s)
    {dir : Int × Int} (hd : dir ∈ searchDirections) :
    OpenGridInv R C (relax end_ cur s dir) := by
  rcases relax_effect h.1 h.2.1 hd with ⟨e, _⟩ | hpush
  · rw [e]; exact ho
  · obtain ⟨inv, hcur, hcset, hcnq⟩ := h
    have hgc : (deref s.grid cur).g = cur.1 + cur.2 := ho.expanded cur hcur hcset hcnq
    have hn := hpush.inGrid
    have hbet := hpush.better
    have hcn : cur ≠ (cur.1 + dir.1, cur.2 + dir.2) := adjacent_ne hpush.adjacent
    have hdn : (cur.1 + dir.1) + (cur.2 + dir.2) ≤ cur.1 + cur.2 + 1 := by
      have := adjacent_sum_le hpush.adjacent
      simpa using this
    have hsame : ∀ p, InGrid R C p → p ≠ (cur.1 + dir.1, cur.2 + dir.2) →
        deref (relax end_ cur s dir).grid p = deref s.grid p := by
      intro p hin hne
      rw [hpush.grid p hin, if_neg hne]
    have hnew : deref (relax end_ cur s dir).grid (cur.1 + dir.1, cur.2 + dir.2) =
        relaxedCell s.grid end_ cur (cur.1 + dir.1, cur.2 + dir.2) := by
      rw [hpush.grid _ hn, if_pos rfl]
    obtain ⟨_, _, _, f4, f5, _⟩ :=
      relaxedCell_fields s.grid end_ cur (cur.1 + dir.1, cur.2 + dir.2)
    refine ⟨?_, ?_, ?_⟩
    · intro p hp hset
      by_cases hpn : p = (cur.1 + dir.1, cur.2 + dir.2)
      · rw [hpn, hnew, f5, hgc]
        exact hdn
      · rw [hsame p hp hpn] at hset ⊢
        exact ho.lower p hp hset
    · intro p hp hset hnq
      have hpn : p ≠ (cur.1 + dir.1, cur.2 + dir.2) :=
        fun e => hnq ((hpush.mem_queue p).2 (Or.inr e))
      have hnq2 : p ∉ s.open_set := fun e => hnq ((hpush.mem_queue p).2 (Or.inl e))
      rw [hsame p hp hpn] at hset ⊢
      exact ho.expanded p hp hset hnq2
    · intro p hp hp0 hset
      by_cases hpn : p = (cur.1 + dir.1, cur.2 + dir.2)
      · refine ⟨cur, ?_, hcur, ?_, ?_, ?_⟩
        · rw [hpn, hnew, f4]
        · rw [hpush.mem_queue]
          rintro (e | e)
          · exact hcnq e
          · exact hcn e
        · rw [hsame cur hcur hcn]
          exact hgc
        · rw [hpn, hnew, f5, hsame cur hcur hcn]
      · rw [hsame p hp hpn] at hset ⊢
        obtain ⟨q, hq1, hq2, hq3, hq4, hq5⟩ := ho.parentExp p hp hp0 hset
        have hqn : q ≠ (cur.1 + dir.1, cur.2 + dir.2) := by
          intro e
          rw [e] at hq4
          simp only at hq4
          omega
        refine ⟨q, hq1, hq2, ?_, ?_, ?_⟩
        · rw [hpush.mem_queue]
          rintro (e | e)
          · exact hq3 e
          · exact hqn e
        · rw [hsame q hq2 hqn]
          exact hq4
        · rw [hsame q hq2 hqn]
          exact hq5

/-- The invariant of the grid without walls on entry to the loop. -/
theorem searchInit_openGrid {R C : Int} (hs : InGrid R C (0, 0)) (he : InGrid R C (R - 1, C - 1)) :
    OpenGridInv R C (searchInit (0, 0) (R - 1, C - 1) (mkGrid R C fun _ _ => true)) := by
  have hset : ∀ p, InGrid R C p →
      (deref (searchInit (0, 0) (R - 1, C - 1) (mkGrid R C fun _ _ => true)).grid p).g
        < INT_MAX → p = (0, 0) := by
    intro p hp hg
    by_contra hne
    rw [deref_searchInit _ hs he hp, if_neg hne] at hg
    simp [Cell.new] at hg
  refine ⟨?_, ?_, ?_⟩
  · intro p hp hg
    rw [hset p hp hg, deref_searchInit _ hs he hs, if_pos rfl]
    simp
  · intro p hp hg hnq
    exfalso
    apply hnq
    rw [hset p hp hg]
    exact List.mem_singleton_self _
  · intro p hp hne hg
    exact absurd (hset p hp hg) hne

/-- One round of the loop on the grid without walls. -/
theorem openGrid_round {R C : Int} (hRC : R + C ≤ INT_MAX) {s : SearchState}
    (inv : SearchInv R C (fun _ _ => true) (0, 0) (R - 1, C - 1) s)
    (hc : Closed R C (fun _ _ => true) s) (ho : OpenGridInv R C s) {cur : Int × Int}
    (hmem : cur ∈ s.open_set) (hne : cur ≠ (R - 1, C - 1))
    (hmin : ∀ q ∈ s.open_set, (deref s.grid cur).f ≤ (deref s.grid q).f) :
    SearchInv R C (fun _ _ => true) (0, 0) (R - 1, C - 1)
        (expand (R - 1, C - 1) cur (popCurrent cur s)) ∧
      Closed R C (fun _ _ => true) (expand (R - 1, C - 1) cur (popCurrent cur s)) ∧
      OpenGridInv R C (expand (R - 1, C - 1) cur (popCurrent cur s)) := by
  have hgc := openGrid_top_optimal inv hc ho hmem hmin
  have hcur := inv.pending cur hmem
  have hb : (deref s.grid cur).g + 1 < INT_MAX := by
    have := hcur.1
    unfold InGrid at this
    omega
  have hpop : OpenGridInv R C (popCurrent cur s) := by
    refine ⟨ho.lower, ?_, ?_⟩
    · intro p hp hset hnq
      by_cases hpc : p = cur
      · rw [hpc]; exact hgc
      · refine ho.expanded p hp hset ?_
        intro hm
        apply hnq
        show p ∈ s.open_set.erase cur
        rw [inv.nodup.mem_erase_iff]
        exact ⟨hpc, hm⟩
    · intro p hp hp0 hset
      obtain ⟨q, hq1, hq2, hq3, hq4, hq5⟩ := ho.parentExp p hp hp0 hset
      exact ⟨q, hq1, hq2, fun hm => hq3 (List.mem_of_mem_erase hm), hq4, hq5⟩
  refine ⟨(inv.round hmem hne).1.1, hc.round_closed inv hmem hne hb, ?_⟩
  exact (expand_induction (R - 1, C - 1) cur
    (fun t => MidInv R C (fun _ _ => true) (0, 0) (R - 1, C - 1) cur t ∧ OpenGridInv R C t)
    (fun t dir hd ht => ⟨(ht.1.relax_mid hd).1, ht.2.relax_open ht.1 hd⟩)
    (popCurrent cur s) ⟨MidInv.after_pop inv hmem hne, hpop⟩).2

/-- A list of integers that starts at `k` and rises by one at every step. -/
theorem chain_succ_spec :
    ∀ (l : List Int) (k : Int), l.head? = some k → List.Chain' (fun a b => b = a + 1) l →
      l = (List.range l.length).map (fun (i : Nat) => k + (i : Int)) ∧
        l.getLast? = some (k + ((l.length : Int) - 1)) := by
  intro l
  induction l with
  | nil => intro k h; simp at h
  | cons a l ih =>
    intro k hhead hch
    simp only [List.head?_cons, Option.some.injEq] at hhead
    subst hhead
    cases l with
    | nil =>
      constructor
      · simp [List.range_succ_eq_map]
      · simp
    | cons b l2 =>
      have hb : b = a + 1 := (List.chain'_cons.1 hch).1
      obtain ⟨h1, h2⟩ := ih (a + 1) (by simp [hb]) (List.chain'_cons.1 hch).2
      constructor
      · rw [List.length_cons, List.range_succ_eq_map, List.map_cons, List.map_map]
        congr 1
        · simp
        · conv_lhs => rw [h1]
          apply List.map_congr_left
          intro i _
          simp only [Function.comp, Nat.succ_eq_add_one, Nat.cast_add, Nat.cast_one]
          omega
      · rw [List.getLast?_cons_cons, h2]
        simp only [List.length_cons, Nat.cast_add, Nat.cast_one]
        congr 1
        omega

/-- C6 (optimality on a grid without walls): for every `R, C >= 1` (with
`R + C` within `int`), on the fresh `R` by `C` grid in which every cell is
walkable, `a_star_search` from `(0, 0)` to `(R - 1, C - 1)` returns,
however ties are broken, a path from the one corner to the other of exactly
`(R - 1) + (C - 1) + 1` cells, and the `g` fields of its cells are
`0, 1, 2, ...` in order. -/
theorem a_star_search_open_grid (R C : Int) (tie : Nat → Nat) (hR : 1 ≤ R) (hC : 1 ≤ C)
    (hRC : R + C ≤ INT_MAX) :
    ∃ path, a_star_search (0, 0) (R - 1, C - 1) (mkGrid R C fun _ _ => true) tie = some path ∧
      (path.length : Int) = (R - 1) + (C - 1) + 1 ∧
      path.map (fun c => c.g) = (List.range path.length).map (fun (i : Nat) => (i : Int)) ∧
      (coords path).head? = some (0, 0) ∧ (coords path).getLast? = some (R - 1, C - 1) := by
  have hs : InGrid R C (0, 0) := by unfold InGrid; simp only; omega
  have he : InGrid R C (R - 1, C - 1) := by unfold InGrid; simp only; omega
  have hrule := a_star_rule (fun _ _ => true) tie
    (fun s => SearchInv R C (fun _ _ => true) (0, 0) (R - 1, C - 1) s ∧
      Closed R C (fun _ _ => true) s ∧ OpenGridInv R C s)
    (fun _ h => h.1)
    ⟨(searchInit_inv _ hs he).1, (searchInit_closed _ hs he).1, searchInit_openGrid hs he⟩
    (fun s cur hP hmem hne hmin => openGrid_round hRC hP.1 hP.2.1 hP.2.2 hmem hne hmin)
  unfold a_star_search
  rcases hrule with ⟨s, ⟨inv, hc, ho⟩, hq, _⟩ |
    ⟨s, chain, ⟨inv, hc, ho⟩, hmem, hmin, hres, h1, h2, hch⟩
  · exfalso
    obtain ⟨p, hp, _⟩ := openGrid_pending_optimal inv hc ho
    rw [hq] at hp
    simp at hp
  · have hgend := openGrid_top_optimal inv hc ho hmem hmin
    simp only at hgend
    have hin := chain_inGrid chain (0, 0) hs h1 hch
    -- the `g` fields along the chain rise by one
    have hsucc : List.Chain' (fun a b : Int => b = a + 1)
        (chain.map fun p => (deref s.grid p).g) := by
      rw [List.chain'_map]
      refine List.Chain'.imp ?_ hch
      intro a b hab
      obtain ⟨hpar, _, _, hb, _, _, hbset⟩ := hab
      have hb0 : b ≠ (0, 0) := by
        intro e
        rw [e, inv.startG.2] at hpar
        simp at hpar
      obtain ⟨q, hq1, _, _, _, hq5⟩ := ho.parentExp b hb hb0 hbset
      rw [hpar] at hq1
      simp only [Option.some.injEq] at hq1
      rw [hq1]
      exact hq5
    have hhead : (chain.map fun p => (deref s.grid p).g).head? = some 0 := by
      cases chain with
      | nil => simp at h1
      | cons a l =>
        simp only [List.head?_cons, Option.some.injEq] at h1
        simp only [List.map_cons, List.head?_cons, h1, inv.startG.1]
    obtain ⟨e1, e2⟩ := chain_succ_spec _ 0 hhead hsucc
    have hlast : (chain.map fun p => (deref s.grid p).g).getLast? =
        some (deref s.grid (R - 1, C - 1)).g := by
      rw [List.getLast?_map, h2]
      rfl
    rw [hlast, hgend] at e2
    simp only [Option.some.injEq, List.length_map, zero_add] at e2
    refine ⟨chain.map (deref s.grid), by rw [hres]; rfl, ?_, ?_, ?_⟩
    · rw [List.length_map]
      omega
    · rw [List.map_map, List.length_map]
      simp only [List.length_map, zero_add] at e1
      exact e1
    · rw [coords_map_deref inv chain hin]
      exact ⟨h1, h2⟩

/-- C6 on the 5 by 5 grid without walls, from `(0, 0)` to `(4, 4)`: the path
has 9 cells and their `g` fields are `0, 1, ..., 8`. -/
theorem a_star_search_open_grid_witness :
    ∃ path, a_star_search (0, 0) (4, 4) (mkGrid 5 5 fun _ _ => true) (fun k => k) = some path ∧
      path.length = 9 ∧ path.map (fun c => c.g) = [0, 1, 2, 3, 4, 5, 6, 7, 8] := by
  obtain ⟨path, h1, h2, h3, _⟩ :=
    a_star_search_open_grid 5 5 (fun k => k) (by decide) (by decide) (by decide)
  have hlen : path.length = 9 := by omega
  refine ⟨path, h1, hlen, ?_⟩
  rw [h3, hlen]
  rfl

/-! ## The pipeline of `main` -/

set_option maxRecDepth 100000 in
/-- C10 fails as stated: for the 3 by 4 maze with start cell `(2, 0)` and the
frontier pops `isolatedEndPicks`, whose end cell `(0, 3)` is forced Open
with both neighbours closed, the search from `getStart()` to `getEnd()`
returns the empty path. -/
theorem mainPath_empty :
    IsStartDraw 3 4 (2, 0) ∧ IsShuffle (pickShuffle isolatedEndPicks) ∧
      mainPath 3 4 (2, 0) (pickShuffle isolatedEndPicks) (fun _ => 0) = some [] := by
  refine ⟨by unfold IsStartDraw; decide, isShuffle_pickShuffle _, ?_⟩
  decide!

theorem walkableIn_isCellWalkable (g : MazeGenerator) :
    walkableIn g.rows g.cols g.isCellWalkable = g.isCellWalkable := by
  funext x y
  unfold walkableIn
  by_cases h : g.isCellWalkable x y = true
  · have := (MazeGenerator.isValidCell_iff g x y).1 (MazeGenerator.isCellWalkable_valid g x y h)
    simp [h, this]
  · simp only [Bool.not_eq_true] at h
    simp [h]

/-- C10, amended: for every fresh generator of `rows` by `cols` cells (fewer
than `INT_MAX` of them), every start draw, every shuffle and every
tie-breaking, `main` obtains a maze and a search result, and the result is a
non-empty path, from `getStart()` to `getEnd()`, exactly when the end cell
has an Open neighbour or is the start cell; when the end cell was forced
Open away from every Open cell the result is empty. -/
theorem mainPath_nonempty_iff (rows cols : Int) (s : Int × Int)
    (shuffle : Nat → List (Int × Int) → List (Int × Int)) (tie : Nat → Nat)
    (hs : IsStartDraw rows cols s) (hsh : IsShuffle shuffle) (hRC : rows * cols < INT_MAX) :
    ∃ g path, MazeGenerator.generateMaze (MazeGenerator.new rows cols) s shuffle = some g ∧
      mainPath rows cols s shuffle tie = some path ∧
      (path ≠ [] ↔ (0 < g.openNeighbours g.getEnd.1 g.getEnd.2 ∨ g.getEnd = g.getStart)) ∧
      (path ≠ [] →
        (coords path).head? = some g.getStart ∧ (coords path).getLast? = some g.getEnd) := by
  obtain ⟨g1, e, inv, h1, h2, h3⟩ := MazeGenerator.afterLoop_spec rows cols s hs shuffle hsh
  have hv := MazeGenerator.end_valid g1 rows cols s hs h1 h2 h3
  have hgen : MazeGenerator.generateMaze (MazeGenerator.new rows cols) s shuffle =
      some (MazeGenerator.setEnd g1) := by
    unfold MazeGenerator.generateMaze
    rw [e]
    rfl
  have hrows : (MazeGenerator.setEnd g1).rows = rows := h1
  have hcols : (MazeGenerator.setEnd g1).cols = cols := h2
  have hstart : InGrid rows cols (MazeGenerator.setEnd g1).getStart := by
    show InGrid rows cols g1.start
    rw [h3]
    exact hs
  have hend : InGrid rows cols (MazeGenerator.setEnd g1).getEnd := by
    show InGrid rows cols (g1.rows - 1 - g1.start.1, g1.cols - 1 - g1.start.2)
    rw [MazeGenerator.isValidCell_iff, h1, h2] at hv
    rw [h1, h2]
    exact hv
  have hwend : (MazeGenerator.setEnd g1).isCellWalkable
      (MazeGenerator.setEnd g1).getEnd.1 (MazeGenerator.setEnd g1).getEnd.2 = true := by
    show (MazeGenerator.setEnd g1).isCellWalkable (g1.rows - 1 - g1.start.1)
      (g1.cols - 1 - g1.start.2) = true
    rw [MazeGenerator.isCellWalkable_setEnd g1 inv.sized hv]
    simp
  have hreach := setEnd_reachable g1 inv hv _ _ hwend
  simp only [Prod.mk.eta, ne_eq, not_true_eq_false, false_or] at hreach
  have hwin := walkableIn_isCellWalkable (MazeGenerator.setEnd g1)
  rw [hrows, hcols] at hwin
  have hmain : mainPath rows cols s shuffle tie =
      a_star_search (MazeGenerator.setEnd g1).getStart (MazeGenerator.setEnd g1).getEnd
        (mkGrid rows cols (MazeGenerator.setEnd g1).isCellWalkable) tie := by
    unfold mainPath
    rw [hgen]
    rfl
  rcases a_star_outcome_complete (MazeGenerator.setEnd g1).isCellWalkable tie hstart hend hRC
    with ⟨hres, hun⟩ | ⟨st, chain, sinv, hres, c1, c2, hch, hre⟩
  · rw [hwin] at hun
    refine ⟨MazeGenerator.setEnd g1, [], hgen, by rw [hmain, hres], ?_, ?_⟩
    · constructor
      · intro h
        exact absurd rfl h
      · intro h
        exact absurd (hreach.2 h) hun
    · intro h
      exact absurd rfl h
  · rw [hwin] at hre
    have hne : chain.map (deref st.grid) ≠ [] := by
      intro hnil
      rw [List.map_eq_nil_iff] at hnil
      rw [hnil] at c1
      simp at c1
    have hin := chain_inGrid chain _ hstart c1 hch
    refine ⟨MazeGenerator.setEnd g1, chain.map (deref st.grid), hgen, by rw [hmain, hres],
      ⟨fun _ => hreach.1 hre, fun _ => hne⟩, fun _ => ?_⟩
    rw [coords_map_deref sinv chain hin]
    exact ⟨c1, c2⟩

/-- C10 amended, applied to a 2 by 3 grid with start cell `(1, 2)`, the
shuffle that leaves the frontier in place and the first minimal entry popped
each time. -/
theorem mainPath_nonempty_iff_witness :
    ∃ g path, MazeGenerator.generateMaze (MazeGenerator.new 2 3) (1, 2) (fun _ l => l) = some g ∧
      mainPath 2 3 (1, 2) (fun _ l => l) (fun _ => 0) = some path ∧
      (path ≠ [] ↔ (0 < g.openNeighbours g.getEnd.1 g.getEnd.2 ∨ g.getEnd = g.getStart)) ∧
      (path ≠ [] →
        (coords path).head? = some g.getStart ∧ (coords path).getLast? = some g.getEnd) :=
  mainPath_nonempty_iff 2 3 (1, 2) (fun _ l => l) (fun _ => 0)
    (by unfold IsStartDraw; decide) isShuffle_id (by decide)

/-! ## The generator: the end cell, the one-argument queries, the loop invariant -/

/-- C12 (the end is the reflection of the start): after `generateMaze` on a
fresh `rows` by `cols` generator, whatever start cell is drawn and however
the frontier is shuffled, `getStart()` is the drawn cell, `getEnd()` is
`(rows - 1 - getStart().first, cols - 1 - getStart().second)`, and
`isCellWalkable` holds of that cell, whether the frontier loop opened it or
the last statement did. -/
theorem generateMaze_end_reflects_start (rows cols : Int) (s : Int × Int)
    (shuffle : Nat → List (Int × Int) → List (Int × Int))
    (hs : IsStartDraw rows cols s) (hsh : IsShuffle shuffle) :
    ∃ g, MazeGenerator.generateMaze (MazeGenerator.new rows cols) s shuffle = some g ∧
      g.getStart = s ∧
      g.getEnd = (rows - 1 - g.getStart.1, cols - 1 - g.getStart.2) ∧
      g.isCellWalkable g.getEnd.1 g.getEnd.2 = true := by
  obtain ⟨g1, e, inv, h1, h2, h3⟩ := MazeGenerator.afterLoop_spec rows cols s hs shuffle hsh
  have hv := MazeGenerator.end_valid g1 rows cols s hs h1 h2 h3
  refine ⟨MazeGenerator.setEnd g1, ?_, h3, ?_, ?_⟩
  · unfold MazeGenerator.generateMaze
    rw [e]
    rfl
  · show (g1.rows - 1 - g1.start.1, g1.cols - 1 - g1.start.2) =
      (rows - 1 - g1.start.1, cols - 1 - g1.start.2)
    rw [h1, h2]
  · show (MazeGenerator.setEnd g1).isCellWalkable (g1.rows - 1 - g1.start.1)
      (g1.cols - 1 - g1.start.2) = true
    rw [MazeGenerator.isCellWalkable_setEnd g1 inv.sized hv]
    simp

/-- C12 applied to a 2 by 3 grid with start cell `(1, 2)` and the shuffle that
leaves the frontier in place. -/
theorem generateMaze_end_reflects_start_witness :
    ∃ g, MazeGenerator.generateMaze (MazeGenerator.new 2 3) (1, 2) (fun _ l => l) = some g ∧
      g.getStart = (1, 2) ∧
      g.getEnd = (2 - 1 - g.getStart.1, 3 - 1 - g.getStart.2) ∧
      g.isCellWalkable g.getEnd.1 g.getEnd.2 = true :=
  generateMaze_end_reflects_start 2 3 (1, 2) (fun _ l => l)
    (by unfold IsStartDraw; decide) isShuffle_id

set_option maxRecDepth 100000 in
/-- C13 fails as stated: on a 3 by 3 grid with the centre `(1, 1)` drawn as
start cell, the reflected end cell is `(1, 1)` again, so `getStart()` and
`getEnd()` coincide although the maze has nine cells. -/
theorem generateMaze_start_eq_end_centre :
    IsStartDraw 3 3 (1, 1) ∧ IsShuffle (fun _ l => l) ∧
    (MazeGenerator.generateMaze (MazeGenerator.new 3 3) (1, 1) (fun _ l => l)).map
      (fun g => (g.getStart, g.getEnd)) = some ((1, 1), (1, 1)) ∧
    ¬ ((3 : Int) = 1 ∧ (3 : Int) = 1) := by
  refine ⟨by unfold IsStartDraw; decide, isShuffle_id, ?_, by decide⟩
  decide!

/-- C13, amended: after `generateMaze` on a fresh `rows` by `cols`
generator, `getStart()` and `getEnd()` coincide exactly when `rows` and
`cols` are odd and the drawn start cell is the centre of the grid, that is
`rows = 2 * start.first + 1` and `cols = 2 * start.second + 1`; the one-cell
maze is the smallest such case. -/
theorem generateMaze_start_eq_end_iff (rows cols : Int) (s : Int × Int)
    (shuffle : Nat → List (Int × Int) → List (Int × Int))
    (hs : IsStartDraw rows cols s) (hsh : IsShuffle shuffle) :
    ∃ g, MazeGenerator.generateMaze (MazeGenerator.new rows cols) s shuffle = some g ∧
      (g.getStart = g.getEnd ↔ (rows = 2 * s.1 + 1 ∧ cols = 2 * s.2 + 1)) := by
  obtain ⟨g1, e, _, h1, h2, h3⟩ := MazeGenerator.afterLoop_spec rows cols s hs shuffle hsh
  refine ⟨MazeGenerator.setEnd g1, ?_, ?_⟩
  · unfold MazeGenerator.generateMaze
    rw [e]
    rfl
  · show g1.start = (g1.rows - 1 - g1.start.1, g1.cols - 1 - g1.start.2) ↔ _
    rw [h1, h2, h3]
    obtain ⟨a, b⟩ := s
    simp only [Prod.mk.injEq]
    constructor <;> intro h <;> omega

/-- C13 amended, applied to a 3 by 3 grid with the centre as start cell. -/
theorem generateMaze_start_eq_end_iff_witness :
    ∃ g, MazeGenerator.generateMaze (MazeGenerator.new 3 3) (1, 1) (fun _ l => l) = some g ∧
      (g.getStart = g.getEnd ↔ ((3 : Int) = 2 * 1 + 1 ∧ (3 : Int) = 2 * 1 + 1)) :=
  generateMaze_start_eq_end_iff 3 3 (1, 1) (fun _ l => l)
    (by unfold IsStartDraw; decide) isShuffle_id

/-- C14 (contract of `isCellWalkable`): for every state of the generator and
every pair of integers, `isCellWalkable(row, col)` is true exactly when
`0 <= row < rows`, `0 <= col < cols` and the cell holds `0` (Open); so it is
false outside the grid and on every cell that holds `1` (Wall), and it is
false everywhere on a freshly constructed generator. -/
theorem isCellWalkable_contract :
    (∀ (g : MazeGenerator) (row col : Int),
      g.isCellWalkable row col = true ↔
        (0 ≤ row ∧ row < g.rows ∧ 0 ≤ col ∧ col < g.cols ∧ g.cell row col = 0)) ∧
    (∀ (g : MazeGenerator) (row col : Int),
      ¬ (0 ≤ row ∧ row < g.rows ∧ 0 ≤ col ∧ col < g.cols) → g.isCellWalkable row col = false) ∧
    (∀ (g : MazeGenerator) (row col : Int),
      g.cell row col = 1 → g.isCellWalkable row col = false) ∧
    (∀ r c row col : Int, (MazeGenerator.new r c).isCellWalkable row col = false) := by
  refine ⟨?_, ?_, ?_, ?_⟩
  · intro g row col
    unfold MazeGenerator.isCellWalkable
    rw [Bool.and_eq_true, MazeGenerator.isValidCell_iff]
    simp only [beq_iff_eq]
    constructor
    · rintro ⟨⟨h1, h2, h3, h4⟩, h5⟩
      exact ⟨h1, h2, h3, h4, h5⟩
    · rintro ⟨h1, h2, h3, h4, h5⟩
      exact ⟨⟨h1, h2, h3, h4⟩, h5⟩
  · intro g row col h
    unfold MazeGenerator.isCellWalkable
    have : g.isValidCell row col = false := by
      rw [← Bool.not_eq_true, MazeGenerator.isValidCell_iff]
      exact h
    rw [this]
    rfl
  · intro g row col h
    exact MazeGenerator.not_walkable_of_wall g row col h
  · intro r c row col
    exact MazeGenerator.isCellWalkable_new r c row col

/-- C18 (invariant of the frontier loop): when the loop of `generateMaze`
ends, before the end cell is set, the Open cells form a tree under
4-adjacency: the start cell is Open, every Open cell is reachable from it
through Open cells, and the number of adjacent Open pairs is the number of
Open cells minus one. -/
theorem afterLoop_open_cells_tree (rows cols : Int) (s : Int × Int)
    (shuffle : Nat → List (Int × Int) → List (Int × Int))
    (hs : IsStartDraw rows cols s) (hsh : IsShuffle shuffle) :
    ∃ g1, MazeGenerator.afterLoop (MazeGenerator.new rows cols) s shuffle = some g1 ∧
      g1.getStart = s ∧ g1.isCellWalkable s.1 s.2 = true ∧
      (∀ x y, g1.isCellWalkable x y = true → Reachable g1.isCellWalkable s (x, y)) ∧
      openPairs g1 + 1 = openCount g1 := by
  obtain ⟨g1, e, inv, _, _, h3⟩ := MazeGenerator.afterLoop_spec rows cols s hs shuffle hsh
  refine ⟨g1, e, h3, ?_, ?_, inv.tree⟩
  · rw [← h3]
    exact inv.startOpen
  · intro x y hxy
    rw [← h3]
    exact inv.connected x y hxy

/-- C18 applied to a 2 by 3 grid with start cell `(1, 2)` and the shuffle that
leaves the frontier in place. -/
theorem afterLoop_open_cells_tree_witness :
    ∃ g1, MazeGenerator.afterLoop (MazeGenerator.new 2 3) (1, 2) (fun _ l => l) = some g1 ∧
      g1.getStart = (1, 2) ∧ g1.isCellWalkable 1 2 = true ∧
      (∀ x y, g1.isCellWalkable x y = true → Reachable g1.isCellWalkable (1, 2) (x, y)) ∧
      openPairs g1 + 1 = openCount g1 :=
  afterLoop_open_cells_tree 2 3 (1, 2) (fun _ l => l)
    (by unfold IsStartDraw; decide) isShuffle_id

/-! ## The number of rounds of the frontier loop -/

namespace MazeGenerator

/-- On a grid whose cells hold `0` or `1`, the cells that hold `1` and the
Open cells together are all the cells. -/
theorem wallCount_add_openCount (g : MazeGenerator)
    (hb : ∀ x y, g.isValidCell x y = true → g.cell x y = 0 ∨ g.cell x y = 1) :
    wallCount g + openCount g = g.rows.toNat * g.cols.toNat := by
  rw [← length_cells]
  unfold wallCount openCount
  rw [List.length_eq_countP_add_countP (fun p : Int × Int => g.cell p.1 p.2 == 1)
    (cells g.rows g.cols)]
  congr 1
  apply List.countP_congr
  intro p hp
  have hv : g.isValidCell p.1 p.2 = true := (isValidCell_iff g p.1 p.2).2 (mem_cells.1 hp)
  unfold isCellWalkable
  rw [hv]
  rcases hb p.1 p.2 hv with h | h <;> simp [h]

/-- The counted loop returns whenever the fuel covers the loop measure; it
ends in the same grid as `frontierLoop`, and the rounds it took are paid for
by the fall of the loop measure. -/
theorem frontierRounds_spec (shuffle : Nat → List (Int × Int) → List (Int × Int))
    (hs : IsShuffle shuffle) :
    ∀ (fuel fuel2 k : Nat) (g : MazeGenerator) (walls : List (Int × Int)),
      g.LoopInv walls → g.loopMeasure walls ≤ fuel → g.loopMeasure walls ≤ fuel2 →
      ∃ g2 n, frontierRounds shuffle fuel k g walls = some (g2, n) ∧
        frontierLoop shuffle fuel2 k g walls = some g2 ∧ g2.LoopInv [] ∧
        g2.rows = g.rows ∧ g2.cols = g.cols ∧
        k ≤ n ∧ (n - k) + 4 * wallCount g2 ≤ g.loopMeasure walls := by
  intro fuel
  induction fuel with
  | zero =>
    intro fuel2 k g walls inv hm _
    have hw : walls = [] := by
      unfold loopMeasure at hm
      exact List.length_eq_zero.1 (by omega)
    subst hw
    refine ⟨g, k, by simp [frontierRounds],
      by cases fuel2 <;> simp [frontierLoop], inv, rfl, rfl,
      le_refl _, ?_⟩
    unfold loopMeasure
    simp
  | succ fuel ih =>
    intro fuel2 k g walls inv hm hm2
    by_cases hw : walls = []
    · subst hw
      refine ⟨g, k, by simp [frontierRounds],
      by cases fuel2 <;> simp [frontierLoop], inv, rfl, rfl,
        le_refl _, ?_⟩
      unfold loopMeasure
      simp
    · have hperm := hs k walls
      have hne : shuffle k walls ≠ [] := fun e => hw (by simpa [e] using hperm.symm)
      have hsplit : shuffle k walls =
          (shuffle k walls).dropLast ++ [(shuffle k walls).getLastD (0, 0)] := by
        conv_lhs => rw [← List.dropLast_append_getLast hne]
        rw [List.getLastD_eq_getLast?, List.getLast?_eq_getLast _ hne]
        rfl
      have hp : walls.Perm ((shuffle k walls).getLastD (0, 0) :: (shuffle k walls).dropLast) := by
        refine hperm.symm.trans ?_
        conv_lhs => rw [hsplit]
        exact List.perm_append_comm
      have hemp : walls.isEmpty = false := by
        cases walls with
        | nil => exact absurd rfl hw
        | cons a l => rfl
      have hpos : 0 < g.loopMeasure walls := by
        unfold loopMeasure
        have : 0 < walls.length := List.length_pos.2 hw
        omega
      obtain ⟨f2, rfl⟩ : ∃ f2, fuel2 = f2 + 1 := ⟨fuel2 - 1, by omega⟩
      rw [frontierRounds, frontierLoop]
      simp only [hemp, Bool.false_eq_true, if_false]
      by_cases hv : g.isValidWall ((shuffle k walls).getLastD (0, 0)).1
          ((shuffle k walls).getLastD (0, 0)).2 = true
      · simp only [hv, if_true]
        have inv2 := inv.open hp hv
        have hm3 := loopMeasure_open inv hp
        obtain ⟨g2, n, h1, h2, h3, h4, h5, h6, h7⟩ :=
          ih f2 (k + 1) _ _ inv2 (by omega) (by omega)
        exact ⟨g2, n, h1, h2, h3, h4, h5, by omega, by omega⟩
      · simp only [hv, if_false]
        simp only [Bool.not_eq_true] at hv
        have inv2 := inv.skip hp hv
        have hm3 := loopMeasure_skip (g := g) hp
        obtain ⟨g2, n, h1, h2, h3, h4, h5, h6, h7⟩ :=
          ih f2 (k + 1) _ _ inv2 (by omega) (by omega)
        exact ⟨g2, n, h1, h2, h3, h4, h5, by omega, by omega⟩

end MazeGenerator

/-- C19 (termination of generation): for every `rows, cols >= 1`, every drawn
start cell and every shuffle, the frontier loop of `generateMaze` stops: run
with a counter and any fuel of at least `4 * rows * cols`, it returns the
grid that `afterLoop` returns together with the number `n` of rounds it
took, and `n` is at most four times the number of cells that are Open when
the loop ends (each opening adds at most four frontier entries, every round
removes one), hence at most `4 * rows * cols`. -/
theorem frontierLoop_rounds_bounded (rows cols : Int) (s : Int × Int)
    (shuffle : Nat → List (Int × Int) → List (Int × Int)) (fuel : Nat)
    (hs : IsStartDraw rows cols s) (hsh : IsShuffle shuffle)
    (hf : (4 * rows * cols).toNat ≤ fuel) :
    ∃ g1 n, MazeGenerator.frontierRounds shuffle fuel 0
        (MazeGenerator.beforeLoop (MazeGenerator.new rows cols) s).1
        (MazeGenerator.beforeLoop (MazeGenerator.new rows cols) s).2 = some (g1, n) ∧
      MazeGenerator.afterLoop (MazeGenerator.new rows cols) s shuffle = some g1 ∧
      n ≤ 4 * openCount g1 ∧ openCount g1 ≤ rows.toNat * cols.toNat ∧
      (n : Int) ≤ 4 * rows * cols := by
  obtain ⟨inv, hm, h1, h2, _⟩ := MazeGenerator.beforeLoop_inv rows cols s hs
  obtain ⟨g1, n, e1, e2, inv1, r1, r2, _, hn⟩ :=
    MazeGenerator.frontierRounds_spec shuffle hsh fuel (4 * rows * cols).toNat 0 _ _ inv
      (le_trans hm hf) hm
  have hsum := MazeGenerator.wallCount_add_openCount g1 inv1.binary
  rw [r1, r2, h1, h2] at hsum
  have hrc : (4 * rows * cols).toNat = 4 * (rows.toNat * cols.toNat) := by
    unfold IsStartDraw at hs
    have hr : (rows.toNat : Int) = rows := Int.toNat_of_nonneg (by omega)
    have hc : (cols.toNat : Int) = cols := Int.toNat_of_nonneg (by omega)
    apply Int.ofNat_inj.1
    rw [Int.toNat_of_nonneg]
    · push_cast
      rw [hr, hc]
      ring
    · have : 0 ≤ rows * cols := mul_nonneg (by omega) (by omega)
      nlinarith
  have hle : n ≤ 4 * openCount g1 := by omega
  refine ⟨g1, n, e1, e2, hle, by omega, ?_⟩
  have h4 : (n : Int) ≤ ((4 * rows * cols).toNat : Int) := by
    have : n ≤ (4 * rows * cols).toNat := by omega
    exact_mod_cast this
  rw [Int.toNat_of_nonneg] at h4
  · exact h4
  · unfold IsStartDraw at hs
    have : 0 ≤ rows * cols := mul_nonneg (by omega) (by omega)
    nlinarith

/-- C19 applied to a 2 by 3 grid with start cell `(1, 2)`, the shuffle that
leaves the frontier in place, and a fuel of 100. -/
theorem frontierLoop_rounds_bounded_witness :
    ∃ g1 n, MazeGenerator.frontierRounds (fun _ l => l) 100 0
        (MazeGenerator.beforeLoop (MazeGenerator.new 2 3) (1, 2)).1
        (MazeGenerator.beforeLoop (MazeGenerator.new 2 3) (1, 2)).2 = some (g1, n) ∧
      MazeGenerator.afterLoop (MazeGenerator.new 2 3) (1, 2) (fun _ l => l) = some g1 ∧
      n ≤ 4 * openCount g1 ∧ openCount g1 ≤ (2 : Int).toNat * (3 : Int).toNat ∧
      (n : Int) ≤ 4 * 2 * 3 :=
  frontierLoop_rounds_bounded 2 3 (1, 2) (fun _ l => l) 100
    (by unfold IsStartDraw; decide) isShuffle_id (by decide)

/-! ## The one-cell maze -/

/-- A search whose end cell is its start cell pops that cell first and
returns it alone. -/
theorem a_star_run_start_eq_end {R C : Int} (walk : Int → Int → Bool) {start : Int × Int}
    (tie : Nat → Nat) (hs : InGrid R C start) :
    a_star_run start start (mkGrid R C walk) tie =
      some ([deref (searchInit start start (mkGrid R C walk)).grid start],
        (searchInit start start (mkGrid R C walk)).grid) := by
  have hq : (searchInit start start (mkGrid R C walk)).open_set = [start] := rfl
  have htop : top tie 0 (searchInit start start (mkGrid R C walk)).grid
      (searchInit start start (mkGrid R C walk)).open_set = start := by
    have := (top_spec tie 0 (searchInit start start (mkGrid R C walk)).grid
      (searchInit start start (mkGrid R C walk)).open_set (by rw [hq]; simp)).1
    rw [hq] at this ⊢
    exact List.mem_singleton.1 this
  have hd := deref_searchInit walk hs hs hs
  rw [if_pos rfl] at hd
  unfold a_star_run
  rw [show 2 * gSum (mkGrid R C walk) + 2 = (2 * gSum (mkGrid R C walk) + 1) + 1 from rfl,
    searchLoop]
  have hemp : (searchInit start start (mkGrid R C walk)).open_set.isEmpty = false := rfl
  simp only [hemp, Bool.false_eq_true, if_false, htop, if_true]
  have hg : (popCurrent start (searchInit start start (mkGrid R C walk))).grid =
      (searchInit start start (mkGrid R C walk)).grid := rfl
  rw [hg]
  unfold reconstruct_path
  have hg0 : (deref (searchInit start start (mkGrid R C walk)).grid start).g = 0 := by
    rw [hd]
  have hp0 : (deref (searchInit start start (mkGrid R C walk)).grid start).parent = none := by
    rw [hd]
  rw [hg0]
  show Option.map _ (Option.map List.reverse
    (reconstruct_loop _ (0 + 1) (some start) [])) = _
  rw [reconstruct_loop_some, hp0, reconstruct_loop_none]
  rfl

/-- C16 (the one-cell maze): for `rows = cols = 1`, whatever start cell is
drawn, however the frontier is shuffled and however ties are broken,
`generateMaze` returns with `getStart() = getEnd() = (0, 0)` and that cell
Open, and `a_star_search` from the start to the end over the one-cell grid
built from `isCellWalkable` returns exactly one cell, the cell `(0, 0)`. -/
theorem one_cell_maze (s : Int × Int) (shuffle : Nat → List (Int × Int) → List (Int × Int))
    (tie : Nat → Nat) (hs : IsStartDraw 1 1 s) :
    ∃ g, MazeGenerator.generateMaze (MazeGenerator.new 1 1) s shuffle = some g ∧
      g.getStart = (0, 0) ∧ g.getEnd = (0, 0) ∧ g.isCellWalkable 0 0 = true ∧
      (a_star_search g.getStart g.getEnd (mkGrid 1 1 g.isCellWalkable) tie).map coords =
        some [(0, 0)] ∧
      (mainPath 1 1 s shuffle tie).map coords = some [(0, 0)] := by
  have e : s = (0, 0) := by
    obtain ⟨a, b⟩ := s
    unfold IsStartDraw at hs
    simp only at hs
    rw [Prod.mk.injEq]
    constructor <;> omega
  subst e
  have hgen : MazeGenerator.generateMaze (MazeGenerator.new 1 1) (0, 0) shuffle =
      some { rows := 1, cols := 1, maze := [[0]], start := (0, 0), end_ := (0, 0) } := by
    unfold MazeGenerator.generateMaze MazeGenerator.afterLoop
    have hb : MazeGenerator.beforeLoop (MazeGenerator.new 1 1) (0, 0) =
        ({ rows := 1, cols := 1, maze := [[0]], start := (0, 0), end_ := (0, 0) }, []) := by
      decide
    rw [hb]
    simp only [MazeGenerator.frontierLoop, List.isEmpty_nil, if_true, Option.map_some']
    decide
  have hrun : ∀ walk : Int → Int → Bool,
      (a_star_search (0, 0) (0, 0) (mkGrid 1 1 walk) tie).map coords = some [(0, 0)] := by
    intro walk
    have hin : InGrid 1 1 ((0, 0) : Int × Int) := by unfold InGrid; decide
    unfold a_star_search
    rw [a_star_run_start_eq_end walk tie hin, deref_searchInit walk hin hin hin, if_pos rfl]
    rfl
  refine ⟨_, hgen, rfl, rfl, by decide, hrun _, ?_⟩
  unfold mainPath
  rw [hgen]
  exact hrun _

/-- C16 applied to the start draw `(0, 0)`, the shuffle that leaves the
frontier in place and the tie-breaking that takes the first minimal entry. -/
theorem one_cell_maze_witness :
    ∃ g, MazeGenerator.generateMaze (MazeGenerator.new 1 1) (0, 0) (fun _ l => l) = some g ∧
      g.getStart = (0, 0) ∧ g.getEnd = (0, 0) ∧ g.isCellWalkable 0 0 = true ∧
      (a_star_search g.getStart g.getEnd (mkGrid 1 1 g.isCellWalkable) (fun _ => 0)).map coords =
        some [(0, 0)] ∧
      (mainPath 1 1 (0, 0) (fun _ l => l) (fun _ => 0)).map coords = some [(0, 0)] :=
  one_cell_maze (0, 0) (fun _ l => l) (fun _ => 0) (by unfold IsStartDraw; decide)

/-! ## The search: what the call leaves in the grid -/

set_option maxRecDepth 100000 in
/-- C15 fails as stated: on the 1 by 2 grid of two walkable cells, the search
from `(0, 0)` to `(0, 1)` returns both cells and leaves the grid changed
(the start cell has `g = 0` and `h = 1`, the end cell has its `parent` set
and `g = 1`); a second search over the grid so left, from the same start to
the same end, returns the empty vector. -/
theorem a_star_search_changes_grid :
    a_star_run (0, 0) (0, 1) (mkGrid 1 2 fun _ _ => true) (fun _ => 0) =
      some ([{ x := 0, y := 0, walkable := true, parent := none, g := 0, h := 1 },
             { x := 0, y := 1, walkable := true, parent := some (0, 0), g := 1, h := 0 }],
            [[{ x := 0, y := 0, walkable := true, parent := none, g := 0, h := 1 },
              { x := 0, y := 1, walkable := true, parent := some (0, 0), g := 1, h := 0 }]]) ∧
    mkGrid 1 2 (fun _ _ => true) =
      [[{ x := 0, y := 0, walkable := true, parent := none, g := INT_MAX, h := 0 },
        { x := 0, y := 1, walkable := true, parent := none, g := INT_MAX, h := 0 }]] ∧
    a_star_search (0, 0) (0, 1)
      [[{ x := 0, y := 0, walkable := true, parent := none, g := 0, h := 1 },
        { x := 0, y := 1, walkable := true, parent := some (0, 0), g := 1, h := 0 }]]
      (fun _ => 0) = some [] := by
  refine ⟨?_, ?_, ?_⟩
  · decide!
  · decide!
  · decide!

/-- C15, amended: on every fresh `R` by `C` grid, for every start and end
cell of the grid and however ties are broken, the call returns and leaves a
grid of the same dimensions in which every cell keeps its `x`, `y` and
`walkable`; the fields `g`, `h` and `parent` are written, the start cell is
left with `g = 0`, and so the grid after the call is never the grid before
it. -/
theorem a_star_search_keeps_walkable (R C : Int) (walk : Int → Int → Bool)
    (start end_ : Int × Int) (tie : Nat → Nat) (hs : InGrid R C start) (he : InGrid R C end_) :
    ∃ path grid2, a_star_run start end_ (mkGrid R C walk) tie = some (path, grid2) ∧
      GridSized R C (mkGrid R C walk) ∧ GridSized R C grid2 ∧
      (∀ p, InGrid R C p →
        (deref grid2 p).x = (deref (mkGrid R C walk) p).x ∧
        (deref grid2 p).y = (deref (mkGrid R C walk) p).y ∧
        (deref grid2 p).walkable = (deref (mkGrid R C walk) p).walkable) ∧
      (deref grid2 start).g = 0 ∧ (deref (mkGrid R C walk) start).g = INT_MAX ∧
      grid2 ≠ mkGrid R C walk := by
  have hpos := inGrid_pos hs
  have h0 := gridSized_mkGrid (le_of_lt hpos.1) (le_of_lt hpos.2) walk
  have hfresh : (deref (mkGrid R C walk) start).g = INT_MAX := by
    rw [deref_mkGrid walk hs]
    rfl
  have key : ∀ (s : SearchState), SearchInv R C walk start end_ s →
      GridSized R C s.grid ∧
      (∀ p, InGrid R C p →
        (deref s.grid p).x = (deref (mkGrid R C walk) p).x ∧
        (deref s.grid p).y = (deref (mkGrid R C walk) p).y ∧
        (deref s.grid p).walkable = (deref (mkGrid R C walk) p).walkable) ∧
      (deref s.grid start).g = 0 ∧ s.grid ≠ mkGrid R C walk := by
    intro s inv
    refine ⟨inv.sized, ?_, inv.startG.1, ?_⟩
    · intro p hp
      rw [deref_mkGrid walk hp]
      exact inv.static p hp
    · intro e
      have h1 := inv.startG.1
      rw [e, hfresh] at h1
      exact absurd h1 (by decide)
  rcases a_star_outcome walk tie hs he with ⟨s, inv, _, hres⟩ | ⟨s, chain, inv, _, _, hres, _⟩
  · obtain ⟨k1, k2, k3, k4⟩ := key s inv
    exact ⟨_, _, hres, h0, k1, k2, k3, hfresh, k4⟩
  · obtain ⟨k1, k2, k3, k4⟩ := key s inv
    exact ⟨_, _, hres, h0, k1, k2, k3, hfresh, k4⟩

/-- C15 amended, applied to the 1 by 2 grid of two walkable cells, searched
from `(0, 0)` to `(0, 1)`. -/
theorem a_star_search_keeps_walkable_witness :
    ∃ path grid2, a_star_run (0, 0) (0, 1) (mkGrid 1 2 fun _ _ => true) (fun _ => 0) =
        some (path, grid2) ∧
      GridSized 1 2 (mkGrid 1 2 fun _ _ => true) ∧ GridSized 1 2 grid2 ∧
      (∀ p, InGrid 1 2 p →
        (deref grid2 p).x = (deref (mkGrid 1 2 fun _ _ => true) p).x ∧
        (deref grid2 p).y = (deref (mkGrid 1 2 fun _ _ => true) p).y ∧
        (deref grid2 p).walkable = (deref (mkGrid 1 2 fun _ _ => true) p).walkable) ∧
      (deref grid2 (0, 0)).g = 0 ∧ (deref (mkGrid 1 2 fun _ _ => true) (0, 0)).g = INT_MAX ∧
      grid2 ≠ mkGrid 1 2 fun _ _ => true :=
  a_star_search_keeps_walkable 1 2 (fun _ _ => true) (0, 0) (0, 1) (fun _ => 0)
    (by unfold InGrid; decide) (by unfold InGrid; decide)

/-! ## The search: termination -/

/-- More fuel does not change what the loop of `a_star_search` returns. -/
theorem searchLoop_fuel_mono (tie : Nat → Nat) (end_ : Int × Int) :
    ∀ (fuel k : Nat) (s : SearchState) (r : List Cell × List (List Cell)),
      searchLoop tie end_ fuel k s = some r →
      ∀ m, searchLoop tie end_ (fuel + m) k s = some r := by
  have hE : ∀ (f k : Nat) (s : SearchState), s.open_set.isEmpty = true →
      searchLoop tie end_ f k s = some ([], s.grid) := by
    intro f k s h
    cases f <;> simp [searchLoop, h]
  intro fuel
  induction fuel with
  | zero =>
    intro k s r h m
    by_cases hq : s.open_set.isEmpty = true
    · rw [hE _ k s hq] at h ⊢
      exact h
    · simp [searchLoop, hq] at h
  | succ fuel ih =>
    intro k s r h m
    by_cases hq : s.open_set.isEmpty = true
    · rw [hE _ k s hq] at h ⊢
      exact h
    · rw [show fuel + 1 + m = (fuel + m) + 1 by omega]
      rw [searchLoop] at h ⊢
      simp only [hq, if_false] at h ⊢
      by_cases he : top tie k s.grid s.open_set = end_
      · simp only [he, if_true] at h ⊢
        exact h
      · simp only [he, if_false] at h ⊢
        exact ih _ _ _ h m

/-- A pass of the direction loop keeps unset cells without parent. -/
theorem noParentUnset_relax {R C : Int} {walk : Int → Int → Bool} {start end_ cur : Int × Int}
    {s : SearchState} (h : MidInv R C walk start end_ cur s) (hn : NoParentUnset R C s)
    {dir : Int × Int} (hd : dir ∈ searchDirections) :
    NoParentUnset R C (relax end_ cur s dir) := by
  obtain ⟨inv, hcur, hg, _⟩ := h
  rcases relax_effect inv hcur hd with ⟨e, _⟩ | hp
  · rw [e]
    exact hn
  · intro p hin hunset
    rw [hp.g_eq hin] at hunset
    by_cases hpn : p = (cur.1 + dir.1, cur.2 + dir.2)
    · rw [if_pos hpn] at hunset
      have hb := hp.better
      have hle := (inv.grange _ hp.inGrid).2
      omega
    · rw [if_neg hpn] at hunset
      rw [hp.grid p hin, if_neg hpn]
      exact hn p hin hunset

/-- One round of the loop keeps unset cells without parent. -/
theorem noParentUnset_round {R C : Int} {walk : Int → Int → Bool} {start end_ cur : Int × Int}
    {s : SearchState} (inv : SearchInv R C walk start end_ s) (hn : NoParentUnset R C s)
    (hq : cur ∈ s.open_set) (hne : cur ≠ end_) :
    NoParentUnset R C (expand end_ cur (popCurrent cur s)) := by
  have := expand_induction end_ cur
    (fun t => MidInv R C walk start end_ cur t ∧ NoParentUnset R C t)
    (fun t dir hd ht => ⟨(ht.1.relax_mid hd).1, noParentUnset_relax ht.1 ht.2 hd⟩)
    (popCurrent cur s) ⟨MidInv.after_pop inv hq hne, hn⟩
  exact this.2

theorem searchInit_noParentUnset {R C : Int} (walk : Int → Int → Bool) {start end_ : Int × Int}
    (hs : InGrid R C start) (he : InGrid R C end_) :
    NoParentUnset R C (searchInit start end_ (mkGrid R C walk)) := by
  intro p hp _
  rw [deref_searchInit walk hs he hp]
  split_ifs <;> rfl

/-- In a state of the loop, parent links lead to cells of smaller `g`, and
`reconstruct_path` returns from every cell of the grid. -/
theorem parent_links_descend {R C : Int} {walk : Int → Int → Bool} {start end_ : Int × Int}
    {s : SearchState} (inv : SearchInv R C walk start end_ s) (hn : NoParentUnset R C s) :
    (∀ p q, InGrid R C p → (deref s.grid p).parent = some q →
      InGrid R C q ∧ (deref s.grid q).g < (deref s.grid p).g) ∧
    (∀ p, InGrid R C p → ∃ cs, reconstruct_path s.grid p = some cs) := by
  constructor
  · intro p q hp hpar
    by_cases hps : p = start
    · rw [hps, inv.startG.2] at hpar
      exact absurd hpar (by simp)
    · by_cases hset : (deref s.grid p).g < INT_MAX
      · obtain ⟨_, q2, e, hq, _, hlt⟩ := inv.parentOf p hp hps hset
        rw [e, Option.some.injEq] at hpar
        rw [← hpar]
        exact ⟨hq, hlt⟩
      · have hle := (inv.grange p hp).2
        rw [hn p hp (by omega)] at hpar
        exact absurd hpar (by simp)
  · intro p hp
    by_cases hset : (deref s.grid p).g < INT_MAX
    · obtain ⟨chain, h, _⟩ := reconstruct_path_spec inv hp hset
      exact ⟨_, h⟩
    · have hle := (inv.grange p hp).2
      have hpar := hn p hp (by omega)
      unfold reconstruct_path
      rw [reconstruct_loop_some, hpar, reconstruct_loop_none]
      exact ⟨_, rfl⟩

/-- C20 (termination of search): on every fresh `R` by `C` grid, for every
start and end cell of the grid and however ties are broken, the loop of
`a_star_search` returns, with the same result for every fuel of at least
`2 * gSum grid + 2`.  In the grid it leaves, no `g` is negative and every
parent link leads to a cell of strictly smaller `g`, so that
`reconstruct_path` returns from every cell.  In every state of the loop a
pass of the direction loop pushes a cell only with a `g` that is strictly
below the one it had and not negative. -/
theorem a_star_search_terminates (R C : Int) (walk : Int → Int → Bool)
    (start end_ : Int × Int) (tie : Nat → Nat) (hs : InGrid R C start) (he : InGrid R C end_) :
    (∃ path grid2,
      a_star_search start end_ (mkGrid R C walk) tie = some path ∧
      (∀ fuel, 2 * gSum (mkGrid R C walk) + 2 ≤ fuel →
        searchLoop tie end_ fuel 0 (searchInit start end_ (mkGrid R C walk)) =
          some (path, grid2)) ∧
      (∀ p, InGrid R C p → 0 ≤ (deref grid2 p).g) ∧
      (∀ p q, InGrid R C p → (deref grid2 p).parent = some q →
        InGrid R C q ∧ (deref grid2 q).g < (deref grid2 p).g) ∧
      (∀ p, InGrid R C p → ∃ cs, reconstruct_path grid2 p = some cs)) ∧
    (∀ (s : SearchState) (cur dir : Int × Int), SearchInv R C walk start end_ s →
      InGrid R C cur → dir ∈ searchDirections →
      relax end_ cur s dir = s ∨
      ((relax end_ cur s dir).open_set = s.open_set ++ [(cur.1 + dir.1, cur.2 + dir.2)] ∧
        0 ≤ (deref (relax end_ cur s dir).grid (cur.1 + dir.1, cur.2 + dir.2)).g ∧
        (deref (relax end_ cur s dir).grid (cur.1 + dir.1, cur.2 + dir.2)).g <
          (deref s.grid (cur.1 + dir.1, cur.2 + dir.2)).g)) := by
  constructor
  · have key : ∀ (r : List Cell) (s : SearchState),
        SearchInv R C walk start end_ s ∧ NoParentUnset R C s →
        a_star_run start end_ (mkGrid R C walk) tie = some (r, s.grid) →
        ∃ path grid2,
          a_star_search start end_ (mkGrid R C walk) tie = some path ∧
          (∀ fuel, 2 * gSum (mkGrid R C walk) + 2 ≤ fuel →
            searchLoop tie end_ fuel 0 (searchInit start end_ (mkGrid R C walk)) =
              some (path, grid2)) ∧
          (∀ p, InGrid R C p → 0 ≤ (deref grid2 p).g) ∧
          (∀ p q, InGrid R C p → (deref grid2 p).parent = some q →
            InGrid R C q ∧ (deref grid2 q).g < (deref grid2 p).g) ∧
          (∀ p, InGrid R C p → ∃ cs, reconstruct_path grid2 p = some cs) := by
      intro r s hP hres
      refine ⟨r, s.grid, ?_, ?_, fun p hp => (hP.1.grange p hp).1,
        (parent_links_descend hP.1 hP.2).1, (parent_links_descend hP.1 hP.2).2⟩
      · unfold a_star_search
        rw [hres]
        rfl
      · intro fuel hf
        unfold a_star_run at hres
        have := searchLoop_fuel_mono tie end_ _ _ _ _ hres
          (fuel - (2 * gSum (mkGrid R C walk) + 2))
        rw [show 2 * gSum (mkGrid R C walk) + 2 + (fuel - (2 * gSum (mkGrid R C walk) + 2)) =
          fuel by omega] at this
        exact this
    have hrule := a_star_rule walk tie
      (fun s => SearchInv R C walk start end_ s ∧ NoParentUnset R C s)
      (fun _ h => h.1)
      ⟨(searchInit_inv walk hs he).1, searchInit_noParentUnset walk hs he⟩
      (fun s cur hP hmem hne _ =>
        ⟨(hP.1.round hmem hne).1.1, noParentUnset_round hP.1 hP.2 hmem hne⟩)
    rcases hrule with ⟨s, hP, _, hres⟩ | ⟨s, chain, hP, _, _, hres, _⟩
    · exact key _ s hP hres
    · exact key _ s hP hres
  · intro s cur dir inv hcur hd
    rcases relax_effect inv hcur hd with ⟨e, _⟩ | hp
    · exact Or.inl e
    · refine Or.inr ⟨hp.queue, ?_, ?_⟩
      · rw [hp.g_eq hp.inGrid, if_pos rfl]
        have := (inv.grange cur hcur).1
        omega
      · rw [hp.g_eq hp.inGrid, if_pos rfl]
        exact hp.better

set_option maxRecDepth 100000 in
/-- C20 applied to the 3 by 5 grid `.....` / `.#.#.` / `...#.`, searched
from `(1, 0)` to `(2, 4)`: the run pops and pushes repeatedly and returns ten
cells; it leaves eleven cells with a parent, the end cell with parent
`(1, 4)` and `g = 9`, and `reconstruct_path` follows nine parent links from
the end cell. -/
theorem a_star_search_terminates_witness :
    ((a_star_run (1, 0) (2, 4) (mkGrid 3 5 detourWalk) (fun _ => 0)).map fun r =>
      (r.1.length, (deref r.2 (2, 4)).parent, (deref r.2 (2, 4)).g)) =
      some (10, some (1, 4), 9) ∧
    ((a_star_run (1, 0) (2, 4) (mkGrid 3 5 detourWalk) (fun _ => 0)).map fun r =>
      (cells 3 5).map fun p => (deref r.2 p).parent) =
      some [some (1, 0), some (0, 0), some (1, 2), some (0, 2), some (0, 3),
            none, none, some (2, 2), none, some (0, 4),
            some (1, 0), some (2, 0), some (2, 1), none, some (1, 4)] ∧
    ((a_star_run (1, 0) (2, 4) (mkGrid 3 5 detourWalk) (fun _ => 0)).map fun r =>
      (reconstruct_path r.2 (2, 4)).map List.length) = some (some 10) ∧
    (∃ path grid2,
      a_star_search (1, 0) (2, 4) (mkGrid 3 5 detourWalk) (fun _ => 0) = some path ∧
      (∀ fuel, 2 * gSum (mkGrid 3 5 detourWalk) + 2 ≤ fuel →
        searchLoop (fun _ => 0) (2, 4) fuel 0 (searchInit (1, 0) (2, 4) (mkGrid 3 5 detourWalk)) =
          some (path, grid2)) ∧
      (∀ p, InGrid 3 5 p → 0 ≤ (deref grid2 p).g) ∧
      (∀ p q, InGrid 3 5 p → (deref grid2 p).parent = some q →
        InGrid 3 5 q ∧ (deref grid2 q).g < (deref grid2 p).g) ∧
      (∀ p, InGrid 3 5 p → ∃ cs, reconstruct_path grid2 p = some cs)) ∧
    (∀ (s : SearchState) (cur dir : Int × Int), SearchInv 3 5 detourWalk (1, 0) (2, 4) s →
      InGrid 3 5 cur → dir ∈ searchDirections →
      relax (2, 4) cur s dir = s ∨
      ((relax (2, 4) cur s dir).open_set = s.open_set ++ [(cur.1 + dir.1, cur.2 + dir.2)] ∧
        0 ≤ (deref (relax (2, 4) cur s dir).grid (cur.1 + dir.1, cur.2 + dir.2)).g ∧
        (deref (relax (2, 4) cur s dir).grid (cur.1 + dir.1, cur.2 + dir.2)).g <
          (deref s.grid (cur.1 + dir.1, cur.2 + dir.2)).g)) :=
  ⟨by decide!, by decide!, by decide!,
    a_star_search_terminates 3 5 detourWalk (1, 0) (2, 4) (fun _ => 0)
      (by unfold InGrid; decide) (by unfold InGrid; decide)⟩

/-! ## The generator: every index is in range -/

namespace MazeGenerator

/-- On a grid of `rows` rows of `cols` cells the checked range is the range
of `isValidCell`. -/
theorem inRange_eq_isValidCell (g : MazeGenerator) (h : g.WellSized) (r c : Int) :
    g.inRange r c = g.isValidCell r c := by
  rw [Bool.eq_iff_iff, isValidCell_iff]
  unfold inRange
  simp only [Bool.and_eq_true, decide_eq_true_eq]
  constructor
  · rintro ⟨⟨⟨h1, h2⟩, h3⟩, h4⟩
    rw [h.1] at h2
    rw [h.2 _ h2] at h4
    omega
  · rintro ⟨h1, h2, h3, h4⟩
    have h5 : r.toNat < g.rows.toNat := by omega
    refine ⟨⟨⟨h1, ?_⟩, h3⟩, ?_⟩
    · rw [h.1]
      exact h5
    · rw [h.2 _ h5]
      omega

theorem cellAt_eq (g : MazeGenerator) (h : g.WellSized) (r c : Int)
    (hv : g.isValidCell r c = true) : g.cellAt r c = Except.ok (g.cell r c) := by
  unfold cellAt
  rw [inRange_eq_isValidCell g h, hv]
  rfl

theorem setCellAt_eq (g : MazeGenerator) (h : g.WellSized) (r c v : Int)
    (hv : g.isValidCell r c = true) : g.setCellAt r c v = Except.ok (g.setCell r c v) := by
  unfold setCellAt
  rw [inRange_eq_isValidCell g h, hv]
  rfl

/-- The checks do fail outside the vector: on a one-cell grid a read of
column 1 or of row -1 and a write to row 1 are faults. -/
theorem checked_access_faults :
    (MazeGenerator.new 1 1).cellAt 0 1 = Except.error Fault.outOfRange ∧
    (MazeGenerator.new 1 1).cellAt (-1) 0 = Except.error Fault.outOfRange ∧
    (MazeGenerator.new 1 1).setCellAt 1 0 0 = Except.error Fault.outOfRange :=
  ⟨rfl, rfl, rfl⟩

/-- A checked loop over the directions whose every pass succeeds computes
what the unchecked loop computes. -/
theorem foldlM_ok {β : Type} (f : β → Int × Int → Except Fault β) (f2 : β → Int × Int → β)
    (h : ∀ b d, f b d = Except.ok (f2 b d)) :
    ∀ (ds : List (Int × Int)) (b : β), ds.foldlM f b = Except.ok (ds.foldl f2 b) := by
  intro ds
  induction ds with
  | nil => intro b; rfl
  | cons d ds ih =>
    intro b
    rw [List.foldlM_cons, h b d, List.foldl_cons]
    exact ih _

theorem addWallsAt_eq (g : MazeGenerator) (h : g.WellSized) (r c : Int)
    (walls : List (Int × Int)) : g.addWallsAt r c walls = Except.ok (g.addWalls r c walls) := by
  unfold addWallsAt addWalls
  apply foldlM_ok
  intro w d
  simp only
  by_cases hv : g.isValidCell (r + d.1) (c + d.2) = true
  · rw [if_pos hv, cellAt_eq g h _ _ hv, hv]
    rfl
  · rw [if_neg hv]
    simp only [Bool.not_eq_true] at hv
    rw [hv]
    rfl

theorem isValidWallAt_eq (g : MazeGenerator) (h : g.WellSized) (r c : Int) :
    g.isValidWallAt r c = Except.ok (g.isValidWall r c) := by
  have : g.openNeighboursAt r c = Except.ok (g.openNeighbours r c) := by
    unfold openNeighboursAt openNeighbours
    apply foldlM_ok
    intro w d
    simp only
    by_cases hv : g.isValidCell (r + d.1) (c + d.2) = true
    · rw [if_pos hv, cellAt_eq g h _ _ hv, hv]
      rfl
    · rw [if_neg hv]
      simp only [Bool.not_eq_true] at hv
      rw [hv]
      rfl
  unfold isValidWallAt isValidWall
  rw [this]
  rfl

/-- Under the loop invariant the checked loop never leaves the range and
returns what the unchecked loop returns. -/
theorem frontierLoopAt_spec (shuffle : Nat → List (Int × Int) → List (Int × Int))
    (hs : IsShuffle shuffle) :
    ∀ (fuel k : Nat) (g : MazeGenerator) (walls : List (Int × Int)),
      g.LoopInv walls → g.loopMeasure walls ≤ fuel →
      ∃ g2, frontierLoopAt shuffle fuel k g walls = Except.ok g2 ∧
        frontierLoop shuffle fuel k g walls = some g2 ∧ g2.LoopInv [] ∧
        g2.rows = g.rows ∧ g2.cols = g.cols ∧ g2.start = g.start := by
  intro fuel
  induction fuel with
  | zero =>
    intro k g walls inv hm
    have hw : walls = [] := by
      unfold loopMeasure at hm
      exact List.length_eq_zero.1 (by omega)
    subst hw
    exact ⟨g, by simp [frontierLoopAt], by simp [frontierLoop], inv, rfl, rfl, rfl⟩
  | succ fuel ih =>
    intro k g walls inv hm
    by_cases hw : walls = []
    · subst hw
      exact ⟨g, by simp [frontierLoopAt], by simp [frontierLoop], inv, rfl, rfl, rfl⟩
    · have hperm := hs k walls
      have hne : shuffle k walls ≠ [] := fun e => hw (by simpa [e] using hperm.symm)
      have hsplit : shuffle k walls =
          (shuffle k walls).dropLast ++ [(shuffle k walls).getLastD (0, 0)] := by
        conv_lhs => rw [← List.dropLast_append_getLast hne]
        rw [List.getLastD_eq_getLast?, List.getLast?_eq_getLast _ hne]
        rfl
      have hp : walls.Perm ((shuffle k walls).getLastD (0, 0) :: (shuffle k walls).dropLast) := by
        refine hperm.symm.trans ?_
        conv_lhs => rw [hsplit]
        exact List.perm_append_comm
      have hemp : walls.isEmpty = false := by
        cases walls with
        | nil => exact absurd rfl hw
        | cons a l => rfl
      have hwall := inv.frontierWall _ (hp.mem_iff.2 (List.mem_cons_self _ _))
      rw [frontierLoopAt, frontierLoop]
      simp only [hemp, Bool.false_eq_true, if_false]
      rw [isValidWallAt_eq g inv.sized]
      by_cases hv : g.isValidWall ((shuffle k walls).getLastD (0, 0)).1
          ((shuffle k walls).getLastD (0, 0)).2 = true
      · simp only [hv, if_true]
        rw [setCellAt_eq g inv.sized _ _ _ hwall.1]
        simp only
        rw [addWallsAt_eq _ (wellSized_setCell g inv.sized _ _ _)]
        simp only
        have inv2 := inv.open hp hv
        have hm2 := loopMeasure_open inv hp
        obtain ⟨g2, h1, h2, h3, h4, h5, h6⟩ := ih (k + 1) _ _ inv2 (by omega)
        exact ⟨g2, h1, h2, h3, h4, h5, h6⟩
      · simp only [Bool.not_eq_true] at hv
        simp only [hv, Bool.false_eq_true, if_false]
        have inv2 := inv.skip hp hv
        have hm2 := loopMeasure_skip (g := g) hp
        obtain ⟨g2, h1, h2, h3, h4, h5, h6⟩ := ih (k + 1) _ _ inv2 (by omega)
        exact ⟨g2, h1, h2, h3, h4, h5, h6⟩

end MazeGenerator
/-- C17 (no out-of-bounds access during generation): for every
`rows, cols >= 1`, lines of one row or one column included, every drawn
start cell and every shuffle, `generateMaze` run with every read and write
of the grid in `generateMaze`, `addWalls` and `isValidWall` checked against
the size of the vector returns without a fault, with the very generator
that the unchecked run returns; the checked range on that generator is
`0 <= row < rows`, `0 <= col < cols`. -/
theorem generateMaze_indices_in_range (rows cols : Int) (s : Int × Int)
    (shuffle : Nat → List (Int × Int) → List (Int × Int))
    (hs : IsStartDraw rows cols s) (hsh : IsShuffle shuffle) :
    ∃ g, MazeGenerator.generateMazeAt (MazeGenerator.new rows cols) s shuffle = Except.ok g ∧
      MazeGenerator.generateMaze (MazeGenerator.new rows cols) s shuffle = some g ∧
      ∀ r c, g.inRange r c = true ↔ (0 ≤ r ∧ r < rows ∧ 0 ≤ c ∧ c < cols) := by
  obtain ⟨inv, hm, h1, h2, h3⟩ := MazeGenerator.beforeLoop_inv rows cols s hs
  obtain ⟨g2, e1, e2, inv2, r1, r2, r3⟩ :=
    MazeGenerator.frontierLoopAt_spec shuffle hsh (4 * rows * cols).toNat 0 _ _ inv hm
  have hv := MazeGenerator.end_valid g2 rows cols s hs (r1.trans h1) (r2.trans h2) (r3.trans h3)
  have hw0 : MazeGenerator.WellSized { MazeGenerator.new rows cols with start := s } :=
    MazeGenerator.wellSized_new rows cols
  have hsv : MazeGenerator.isValidCell { MazeGenerator.new rows cols with start := s }
      s.1 s.2 = true := by
    rw [MazeGenerator.isValidCell_iff]
    exact hs
  have hw2 : MazeGenerator.WellSized
      { g2 with end_ := (g2.rows - 1 - g2.start.1, g2.cols - 1 - g2.start.2) } := inv2.sized
  have hb : MazeGenerator.beforeLoopAt (MazeGenerator.new rows cols) s =
      Except.ok (MazeGenerator.beforeLoop (MazeGenerator.new rows cols) s) := by
    unfold MazeGenerator.beforeLoopAt
    simp only
    rw [MazeGenerator.setCellAt_eq _ hw0 _ _ _ hsv]
    simp only
    rw [MazeGenerator.addWallsAt_eq _ (MazeGenerator.wellSized_setCell _ hw0 _ _ _)]
    rfl
  have he : MazeGenerator.setEndAt g2 = Except.ok (MazeGenerator.setEnd g2) :=
    MazeGenerator.setCellAt_eq _ hw2 _ _ _ hv
  refine ⟨MazeGenerator.setEnd g2, ?_, ?_, ?_⟩
  · unfold MazeGenerator.generateMazeAt
    rw [hb]
    simp only
    have e3 : MazeGenerator.frontierLoopAt shuffle
        (4 * (MazeGenerator.new rows cols).rows * (MazeGenerator.new rows cols).cols).toNat 0
        (MazeGenerator.beforeLoop (MazeGenerator.new rows cols) s).1
        (MazeGenerator.beforeLoop (MazeGenerator.new rows cols) s).2 = Except.ok g2 := e1
    rw [e3]
    exact he
  · unfold MazeGenerator.generateMaze MazeGenerator.afterLoop
    have e4 : MazeGenerator.frontierLoop shuffle
        (4 * (MazeGenerator.new rows cols).rows * (MazeGenerator.new rows cols).cols).toNat 0
        (MazeGenerator.beforeLoop (MazeGenerator.new rows cols) s).1
        (MazeGenerator.beforeLoop (MazeGenerator.new rows cols) s).2 = some g2 := e2
    rw [e4]
    rfl
  · intro r c
    have hw3 : (MazeGenerator.setEnd g2).WellSized :=
      MazeGenerator.wellSized_setCell _ hw2 _ _ _
    rw [MazeGenerator.inRange_eq_isValidCell _ hw3, MazeGenerator.isValidCell_iff]
    have q1 : (MazeGenerator.setEnd g2).rows = rows := r1.trans h1
    have q2 : (MazeGenerator.setEnd g2).cols = cols := r2.trans h2
    rw [q1, q2]

set_option maxRecDepth 100000 in
/-- C17 applied to the line of one row and four columns with start cell
`(0, 1)` and the shuffle that leaves the frontier in place. -/
theorem generateMaze_indices_in_range_witness :
    ∃ g, MazeGenerator.generateMazeAt (MazeGenerator.new 1 4) (0, 1) (fun _ l => l) =
        Except.ok g ∧
      MazeGenerator.generateMaze (MazeGenerator.new 1 4) (0, 1) (fun _ l => l) = some g ∧
      ∀ r c, g.inRange r c = true ↔ (0 ≤ r ∧ r < 1 ∧ 0 ≤ c ∧ c < 4) :=
  generateMaze_indices_in_range 1 4 (0, 1) (fun _ l => l)
    (by unfold IsStartDraw; decide) isShuffle_id

/-! ## The search on tree-shaped grids -/

/-- The last cell of a walk is reachable from its first cell. -/
theorem reachable_of_isWalk (walkable : Int → Int → Bool) :
    ∀ (cs : List (Int × Int)) (a b : Int × Int), cs.head? = some a → cs.getLast? = some b →
      IsWalk walkable cs → Reachable walkable a b := by
  intro cs
  induction cs with
  | nil => intro a b h; simp at h
  | cons x l ih =>
    intro a b hh hl hw
    simp only [List.head?_cons, Option.some.injEq] at hh
    subst hh
    cases l with
    | nil =>
      simp only [List.getLast?_singleton, Option.some.injEq] at hl
      subst hl
      exact Relation.ReflTransGen.refl
    | cons y l2 =>
      unfold IsWalk at hw
      have hstep := (List.chain'_cons.1 hw).1
      have hrest : IsWalk walkable (y :: l2) := (List.chain'_cons.1 hw).2
      rw [List.getLast?_cons_cons] at hl
      exact Relation.ReflTransGen.head hstep (ih y b rfl hl hrest)

/-- A chain of parent links visits no cell twice, since `g` grows along it. -/
theorem nodup_of_chain {R C : Int} {walk : Int → Int → Bool} {grid : List (List Cell)}
    (chain : List (Int × Int)) (h : List.Chain' (ParentLink R C walk grid) chain) :
    chain.Nodup := by
  have h1 : List.Chain' (fun a b : Int × Int => (deref grid a).g < (deref grid b).g) chain :=
    List.Chain'.imp (fun a b hab => hab.2.2.2.2.2.1) h
  have h2 : List.Chain' (fun x y : Int => x < y) (chain.map fun a => (deref grid a).g) := by
    rw [List.chain'_map]
    exact h1
  have h3 : List.Pairwise (fun x y : Int => x < y) (chain.map fun a => (deref grid a).g) :=
    List.chain'_iff_pairwise.1 h2
  have h4 : (chain.map fun a => (deref grid a).g).Nodup :=
    List.Pairwise.imp (fun hxy => ne_of_lt hxy) h3
  exact List.Nodup.of_map _ h4

/-- Every cell that a walk enters is walkable. -/
theorem isWalk_walkable (walkable : Int → Int → Bool) :
    ∀ (l : List (Int × Int)) (x : Int × Int), IsWalk walkable (x :: l) →
      ∀ p ∈ l, walkable p.1 p.2 = true := by
  intro l
  induction l with
  | nil => intro x _ p hp; simp at hp
  | cons y l2 ih =>
    intro x hw p hp
    unfold IsWalk at hw
    rcases List.mem_cons.1 hp with e | e
    · rw [e]
      exact (List.chain'_cons.1 hw).1.2
    · exact ih y (List.chain'_cons.1 hw).2 p e

/-- The cells of a simple path are walkable. -/
theorem simplePath_walkable {walkable : Int → Int → Bool} {a b : Int × Int}
    {cs : List (Int × Int)} (h : SimplePath walkable a b cs) :
    ∀ p ∈ cs, walkable p.1 p.2 = true := by
  obtain ⟨hh, _, ha, hw, _⟩ := h
  cases cs with
  | nil => simp at hh
  | cons x l =>
    simp only [List.head?_cons, Option.some.injEq] at hh
    subst hh
    intro p hp
    rcases List.mem_cons.1 hp with e | e
    · rw [e]; exact ha
    · exact isWalk_walkable walkable l x hw p e

/-- A duplicate-free list over two values has at most two entries. -/
theorem length_le_two_of_nodup {u v : Int × Int} :
    ∀ cs : List (Int × Int), cs.Nodup → (∀ p ∈ cs, p = u ∨ p = v) → cs.length ≤ 2 := by
  intro cs hn hm
  rcases cs with _ | ⟨x, _ | ⟨y, _ | ⟨z, t⟩⟩⟩
  · simp
  · simp
  · simp
  · exfalso
    have hx := hm x (by simp)
    have hy := hm y (by simp)
    have hz := hm z (by simp)
    simp only [List.nodup_cons, List.mem_cons, not_or] at hn
    obtain ⟨⟨hxy, hxz, _⟩, ⟨hyz, _⟩, _⟩ := hn
    rcases hx with rfl | rfl <;> rcases hy with rfl | rfl <;> rcases hz with rfl | rfl <;>
      first | exact hxy rfl | exact hxz rfl | exact hyz rfl

/-- A grid with at most two walkable cells is tree-shaped. -/
theorem treeShaped_of_two (walkable : Int → Int → Bool) (u v : Int × Int)
    (hw : ∀ p : Int × Int, walkable p.1 p.2 = true → p = u ∨ p = v) : TreeShaped walkable := by
  intro a b cs ds hc hd
  have lc := length_le_two_of_nodup cs hc.2.2.2.2 (fun p hp => hw p (simplePath_walkable hc p hp))
  have ld := length_le_two_of_nodup ds hd.2.2.2.2 (fun p hp => hw p (simplePath_walkable hd p hp))
  obtain ⟨c1, c2, _, _, c5⟩ := hc
  obtain ⟨d1, d2, _, _, d5⟩ := hd
  rcases cs with _ | ⟨x, _ | ⟨y, _ | ⟨z, t⟩⟩⟩ <;> rcases ds with _ | ⟨x2, _ | ⟨y2, _ | ⟨z2, t2⟩⟩⟩ <;>
    simp_all

/-- C11 (the search on tree-shaped grids): on every fresh `R` by `C` grid
with fewer than `INT_MAX` cells whose walkable cells form a tree under
4-adjacency (at most one simple path between any two of them), if `cs` is a
simple path from the walkable start cell to the end cell, then, however ties
are broken, `a_star_search` returns, and the cells it returns are exactly
the cells of `cs`, in order. -/
theorem a_star_search_tree_shaped (R C : Int) (walk : Int → Int → Bool) (start end_ : Int × Int)
    (tie : Nat → Nat) (cs : List (Int × Int)) (hs : InGrid R C start) (he : InGrid R C end_)
    (hRC : R * C < INT_MAX) (htree : TreeShaped (walkableIn R C walk))
    (hcs : SimplePath (walkableIn R C walk) start end_ cs) :
    ∃ path, a_star_search start end_ (mkGrid R C walk) tie = some path ∧ coords path = cs := by
  have hreach := reachable_of_isWalk (walkableIn R C walk) cs start end_ hcs.1 hcs.2.1 hcs.2.2.2.1
  rcases a_star_outcome_complete walk tie hs he hRC with ⟨_, hun⟩ |
    ⟨s, chain, inv, hres, h1, h2, hch, _⟩
  · exact absurd hreach hun
  · have hin := chain_inGrid chain start hs h1 hch
    refine ⟨chain.map (deref s.grid), hres, ?_⟩
    rw [coords_map_deref inv chain hin]
    exact htree start end_ chain cs
      ⟨h1, h2, hcs.2.2.1, isWalk_of_chain chain hch, nodup_of_chain chain hch⟩ hcs

/-- C11 applied to the 1 by 2 grid of two walkable cells, searched from
`(0, 0)` to `(0, 1)`: the simple path is `[(0, 0), (0, 1)]`. -/
theorem a_star_search_tree_shaped_witness :
    ∃ path, a_star_search (0, 0) (0, 1) (mkGrid 1 2 fun _ _ => true) (fun _ => 0) = some path ∧
      coords path = [(0, 0), (0, 1)] :=
  a_star_search_tree_shaped 1 2 (fun _ _ => true) (0, 0) (0, 1) (fun _ => 0) [(0, 0), (0, 1)]
    (by unfold InGrid; decide) (by unfold InGrid; decide) (by decide)
    (treeShaped_of_two _ (0, 0) (0, 1) (by
      intro p hp
      obtain ⟨a, b⟩ := p
      simp only [walkableIn, Bool.and_true, decide_eq_true_eq] at hp
      simp only [Prod.mk.injEq]
      omega))
    ⟨rfl, rfl, by decide, by
      unfold IsWalk
      simp only [List.chain'_cons, List.chain'_singleton, and_true]
      exact ⟨by unfold Adjacent; decide, by decide⟩, by decide⟩

end Maze
